import Mathlib

/-!
# tree-sitter-d2: the grammar of `grammar.js` and its derived languages

The repository is one grammar written in the tree-sitter DSL.  The embedding has
two layers, as the DSL has:

* terminals are regular expressions over characters (`RE`), matched by an
  executable derivative matcher `RE.rmatch` whose meaning is the language
  `RE.Lang`;
* rules are expressions over terminals and rule names (`Rule`), and a rule
  derives sequences of tokens (`Derives`), a token being a terminal kind
  together with the text it matched.

Precedence, associativity, aliases and field names do not change which
sequences are derived; they are kept as identity functions so that each rule
reads as in the source.  The `extras` of the grammar are the tokens a parser
skips between any two tokens: a derivation is the sequence of the tokens that
are not skipped, and the text of a rule (`Spells`) is the text of its tokens
with nothing skipped between them.  A token sequence `Reads` a text when the
text is the texts of its tokens with extras allowed around them, and a rule
`Accepts` a text when a token sequence derived from it reads the text with
extras between its tokens only.  `Reads` skips an extra as its own tokens spell
it; `ReadsDeep` skips extras inside a skipped extra as well, and holds every
`Reads`.

The tables behind the patterns are those of ECMAScript: `\s` and `.` are fixed
lists of code points, `\d` is `0-9`, and `\p{L}` is the Unicode category
Letter, whose part beyond ASCII is a parameter (`LetterTable`).
-/

namespace D2

/-! ## Regular expressions -/

/-- Regular expressions over characters; a character class is a predicate. -/
inductive RE where
  | nil : RE
  | eps : RE
  | cls : (Char → Bool) → RE
  | seq : RE → RE → RE
  | alt : RE → RE → RE
  | star : RE → RE

namespace RE

/-- Whether the expression matches the empty string. -/
def nullable : RE → Bool
  | nil => false
  | eps => true
  | cls _ => false
  | seq a b => a.nullable && b.nullable
  | alt a b => a.nullable || b.nullable
  | star _ => true

/-- Brzozowski derivative with respect to one character. -/
def deriv : RE → Char → RE
  | nil, _ => nil
  | eps, _ => nil
  | cls p, c => if p c then eps else nil
  | seq a b, c =>
      if a.nullable then alt (seq (a.deriv c) b) (b.deriv c) else seq (a.deriv c) b
  | alt a b, c => alt (a.deriv c) (b.deriv c)
  | star a, c => seq (a.deriv c) (star a)

/-- Executable full-string matcher. -/
def rmatch : RE → List Char → Bool
  | r, [] => r.nullable
  | r, c :: cs => (r.deriv c).rmatch cs

/-- The language of an expression. -/
def Lang : RE → List Char → Prop
  | nil, _ => False
  | eps, s => s = []
  | cls p, s => ∃ c, s = [c] ∧ p c = true
  | seq a b, s => ∃ u v, s = u ++ v ∧ a.Lang u ∧ b.Lang v
  | alt a b, s => a.Lang s ∨ b.Lang s
  | star a, s => ∃ us : List (List Char), s = us.flatten ∧ ∀ u ∈ us, a.Lang u

/-- One given character. -/
def chr (c : Char) : RE := cls (fun x => x == c)

/-- A literal string. -/
def lit : List Char → RE
  | [] => eps
  | c :: cs => seq (chr c) (lit cs)

/-- One or more repetitions (`+`, and `repeat1` inside a token). -/
def plus (a : RE) : RE := seq a (star a)

/-- Zero or one occurrence (`?`, and `optional` inside a token). -/
def opt (a : RE) : RE := alt a eps

/-- Sequence of several expressions (`seq(...)` inside a token). -/
def seqs : List RE → RE
  | [] => eps
  | [a] => a
  | a :: as => seq a (seqs as)

/-- Choice between several expressions (`choice(...)` inside a token). -/
def alts : List RE → RE
  | [] => nil
  | [a] => a
  | a :: as => alt a (alts as)

end RE

/-! ## Character classes used by the patterns -/

/-- The double quote character. -/
def dquote : Char := '\x22'

/-- The single quote character. -/
def squote : Char := '\x27'

/-- The backtick character. -/
def backtick : Char := '\x60'

/-- The backslash character. -/
def backslash : Char := '\\'

/-- The class `\s` of an ECMAScript pattern, by code point: tab, line feed,
vertical tab, form feed, carriage return, space, U+00A0, U+1680, U+2000 to
U+200A, U+2028, U+2029, U+202F, U+205F, U+3000 and U+FEFF. -/
def isSpace (c : Char) : Bool :=
  (9 ≤ c.toNat && c.toNat ≤ 13) || c.toNat == 32 ||
  c.toNat == 0xa0 || c.toNat == 0x1680 || (0x2000 ≤ c.toNat && c.toNat ≤ 0x200a) ||
  c.toNat == 0x2028 || c.toNat == 0x2029 || c.toNat == 0x202f || c.toNat == 0x205f ||
  c.toNat == 0x3000 || c.toNat == 0xfeff

/-- The class `\d`, also written `0-9`: code points 48 to 57. -/
def isDigit (c : Char) : Bool := 48 ≤ c.toNat && c.toNat ≤ 57

/-- The class `a-zA-Z`: code points 65 to 90 and 97 to 122. -/
def isAsciiLetter (c : Char) : Bool :=
  (65 ≤ c.toNat && c.toNat ≤ 90) || (97 ≤ c.toNat && c.toNat ≤ 122)

/-- The class `[a-zA-Z0-9]`. -/
def isAlnum (c : Char) : Bool := isAsciiLetter c || isDigit c

/-- The class `.` of an ECMAScript pattern: everything but a line terminator. -/
def isDot (c : Char) : Bool :=
  !(c.toNat == 10 || c.toNat == 13 || c.toNat == 0x2028 || c.toNat == 0x2029)

/-- The table behind `\p{L}` (Unicode general category Letter).  On ASCII the
letters are `A`-`Z` and `a`-`z`; the table of the letters beyond ASCII is not
part of the repository, so it is a parameter: any table that holds no white
space character. -/
structure LetterTable where
  /-- membership in the category Letter, consulted beyond ASCII only -/
  nonAscii : Char → Bool
  /-- no letter is a white space character -/
  not_space : ∀ c : Char, nonAscii c = true → isSpace c = false

/-- The table that knows no letter outside ASCII. -/
def asciiLetters : LetterTable where
  nonAscii := fun _ => false
  not_space := fun _ h => Bool.noConfusion h

/-- The class `\p{L}` under a table. -/
def isLetter (T : LetterTable) (c : Char) : Bool :=
  isAsciiLetter c || (128 ≤ c.toNat && T.nonAscii c)

/-- The class `[\p{L}\d\/\*_+\-]` of `_ident_base`. -/
def identBaseChar (T : LetterTable) (c : Char) : Bool :=
  isLetter T c || isDigit c || c == '/' || c == '*' || c == '_' || c == '+' || c == '-'

/-- The class `[a-zA-Z0-9_]`. -/
def isWordChar (c : Char) : Bool := isAlnum c || c == '_'

/-- The class `[a-zA-Z0-9_\[\]]`. -/
def isTypeChar (c : Char) : Bool := isAlnum c || c == '_' || c == '[' || c == ']'

/-- The class `[\s\',]`. -/
def isIdentGap (c : Char) : Bool := isSpace c || c == squote || c == ','

/-- The class `[\(\)\\:.\-%_#&\?\',\'*]`. -/
def isLabelPunct (c : Char) : Bool :=
  c == '(' || c == ')' || c == backslash || c == ':' || c == '.' || c == '-' || c == '%' ||
  c == '_' || c == '#' || c == '&' || c == '?' || c == squote || c == ',' || c == '*'

/-! ## Terminals (the bodies of `token(...)`, string literals and patterns) -/

namespace Lex
open RE

/-- Reading of `prec(n, ...)` inside a token: precedence does not change the language. -/
def prec (_n : Int) (r : RE) : RE := r

/-- Token body of `comment`: `seq('#', repeat(/./), /\n/)`. -/
def comment : RE := seqs [chr '#', star (cls isDot), chr '\n']

/-- Pattern `/[a-zA-Z0-9_]+/` of `argument_name` and `label_constraint`. -/
def argument_name : RE := plus (cls isWordChar)

/-- Pattern `/[a-zA-Z0-9_\[\]]+/` of `argument_type`. -/
def argument_type : RE := plus (cls isTypeChar)

/-- Token body of `connection`: the choice of the four patterns `<-+>`, `<-+`, `-+>`
and `--+`. -/
def connection : RE :=
  prec 9 (alts [
    seqs [chr '<', plus (chr '-'), chr '>'],
    seqs [chr '<', plus (chr '-')],
    seqs [plus (chr '-'), chr '>'],
    seqs [chr '-', plus (chr '-')]])

/-- Token body of `import`: `seq(choice('@', '...@'), repeat1(/[^\s]/))`. -/
def import_ : RE :=
  seqs [alts [lit ['@'], lit ['.', '.', '.', '@']], plus (cls (fun c => !isSpace c))]

/-- Pattern `/[a-zA-Z0-9]+/` of `codeblock_language`. -/
def codeblock_language : RE := plus (cls isAlnum)

/-- Pattern `/[a-zA-Z0-9_]+/` of `label_constraint`. -/
def label_constraint : RE := plus (cls isWordChar)

/-- Token `seq('"', /[^"]*/, '"')` of `_label_literal`. -/
def label_string : RE := seqs [chr dquote, star (cls (fun c => c != dquote)), chr dquote]

/-- Pattern `/[\(\)\\:.\-%_#&\?\',\'*]+/` of `_label_base`. -/
def label_punct : RE := prec 1 (plus (cls isLabelPunct))

/-- Token body of `connection_identifier`: `seq('[', /\d+/, ']')`. -/
def connection_identifier : RE := seqs [chr '[', plus (cls isDigit), chr ']']

/-- Pattern `/([\p{L}\d\/\*_+\-]|\\#)+/u` of `_ident_base`. -/
def _ident_base (T : LetterTable) : RE :=
  plus (alt (cls (identBaseChar T)) (lit [backslash, '#']))

/-- Token body of a quoted identifier with quote `q`:
`seq(q, repeat(choice('\\' + q, /[^q]/)), q)`. -/
def quoted (q : Char) : RE :=
  seqs [chr q, star (alts [lit [backslash, q], cls (fun c => c != q)]), chr q]

/-- Token body of `_single_quoted`. -/
def _single_quoted : RE := quoted squote

/-- Token body of `_double_quoted`. -/
def _double_quoted : RE := quoted dquote

/-- Pattern `/[\-+]?\d+?\s+/` of `integer`; the lazy `+?` matches the same strings as `+`. -/
def integer : RE :=
  prec 2 (seqs [opt (cls (fun c => c == '-' || c == '+')), plus (cls isDigit), plus (cls isSpace)])

/-- Pattern `/[\-+]?\d+(\.\d+)?\s+/` of `float`. -/
def float : RE :=
  prec 2 (seqs [opt (cls (fun c => c == '-' || c == '+')), plus (cls isDigit),
    opt (seqs [chr '.', plus (cls isDigit)]), plus (cls isSpace)])

/-- Token body of `boolean`: `choice('true', 'false')`. -/
def boolean : RE := prec 2 (alts [lit ['t', 'r', 'u', 'e'], lit ['f', 'a', 'l', 's', 'e']])

/-- Token body of `_eol`: `choice(/\n/, /\r/, ';')`. -/
def _eol : RE := prec 10 (alts [chr '\n', chr '\r', lit [';']])

end Lex

/-! ## Rules -/

/-- The names of the rules of the grammar. -/
inductive NT where
  | source_file | comment | block_comment | _top_level_declaratioin | declaration | _expr
  | method_declaration | returns | arguments | argument_name | argument_type | connection
  | import_ | block | _block_declaration | label | label_codeblock | codeblock_language
  | codeblock_content | _label_constraints | label_constraint | _label_literal | _label_base
  | connection_reference | connection_identifier | _identifier | identifier_chain | identifier
  | identifier_new | _identifier_base | _fields | _ident | _ident_base | _single_quoted
  | _double_quoted | integer | float | boolean | _eol | _eol_or_space
deriving DecidableEq, Repr

/-- Rule expressions of the DSL.  `tok kind re` is a terminal: a string literal,
a pattern or a `token(...)`, named by `kind`. -/
inductive Rule where
  | blank : Rule
  | tok : String → RE → Rule
  | sym : NT → Rule
  | cat : Rule → Rule → Rule
  | alt : Rule → Rule → Rule
  | rep : Rule → Rule

/-- A token: the kind of the terminal and the text it matched. -/
structure Tok where
  /-- name of the terminal -/
  kind : String
  /-- matched characters -/
  text : List Char
deriving DecidableEq, Repr

/-- The text of a token sequence. -/
def yield (w : List Tok) : List Char := (w.map Tok.text).flatten

/-- Reading of `seq(...)`. -/
def seq : List Rule → Rule
  | [] => Rule.blank
  | [a] => a
  | a :: as => Rule.cat a (seq as)

/-- Reading of `choice(...)`. -/
def choice : List Rule → Rule
  | [] => Rule.blank
  | [a] => a
  | a :: as => Rule.alt a (choice as)

/-- Reading of `repeat(rule)`: zero or more. -/
def rep (r : Rule) : Rule := Rule.rep r

/-- Reading of `repeat1(rule)`: one or more. -/
def repeat1 (r : Rule) : Rule := Rule.cat r (Rule.rep r)

/-- Reading of `optional(rule)`. -/
def optional (r : Rule) : Rule := Rule.alt r Rule.blank

/-- A string literal used as a terminal. -/
def str (s : String) : Rule := Rule.tok s (RE.lit s.toList)

/-- A pattern used as a terminal, named by its source text. -/
def pat (src : String) (r : RE) : Rule := Rule.tok src r

/-- Reading of `token(...)` with the name of the resulting terminal. -/
def token (kind : String) (r : RE) : Rule := Rule.tok kind r

/-- Reading of `prec(n, rule)`. -/
def prec (_n : Int) (r : Rule) : Rule := r

/-- Reading of `prec.left(n, rule)`. -/
def prec_left (_n : Int) (r : Rule) : Rule := r

/-- Reading of `prec.right(n, rule)`. -/
def prec_right (_n : Int) (r : Rule) : Rule := r

/-- Reading of `alias(rule, name)`. -/
def aliasAs (r : Rule) (_name : String) : Rule := r

/-- Reading of `field(name, rule)`. -/
def field (_name : String) (r : Rule) : Rule := r

/-- Shortcut `opseq`: `optional(seq(...rules))`. -/
def opseq (rs : List Rule) : Rule := optional (seq rs)

/-- Shortcut `rseq`: `repeat(seq(...rules))`. -/
def rseq (rs : List Rule) : Rule := rep (seq rs)

/-- Shortcut `r1seq`: `repeat1(seq(...rules))`. -/
def r1seq (rs : List Rule) : Rule := repeat1 (seq rs)

/-- Helper `sep`: `seq(rule, repeat(seq(separator, rule)))`. -/
def sep (rule separator : Rule) : Rule := seq [rule, rep (seq [separator, rule])]

/-- Helper `sep1`: `seq(rule, repeat1(seq(separator, rule)))`. -/
def sep1 (rule separator : Rule) : Rule := seq [rule, repeat1 (seq [separator, rule])]

/-- The table `PREC`. -/
structure PrecTable where
  /-- Entry `term`. -/
  term : Int := 10
  /-- Entry `connection`. -/
  connection : Int := 9
  /-- Entry `conn_identifier`. -/
  conn_identifier : Int := 8
  /-- Entry `block`. -/
  block : Int := 5
  /-- Entry `string`. -/
  string : Int := 4
  /-- Entry `label_predefined`. -/
  label_predefined : Int := 2
  /-- Entry `label`. -/
  label : Int := 1

/-- The constant `PREC`. -/
def PREC : PrecTable := {}

open Rule NT in
/-- The field `rules` of the grammar. -/
def rules (T : LetterTable) : NT → Rule
  | source_file => rep (prec_left 0 (choice [
      sym _top_level_declaratioin,
      sym comment,
      sym block_comment]))
  | comment => token "comment" Lex.comment
  | block_comment => seq [
      str "\"\"\"",
      rep (choice [
        pat "[^\"]" (RE.cls (fun c => c != dquote)),
        pat "\"[^\"]" (RE.seqs [RE.chr dquote, RE.cls (fun c => c != dquote)]),
        pat "\"\"[^\"]" (RE.seqs [RE.chr dquote, RE.chr dquote, RE.cls (fun c => c != dquote)])]),
      str "\"\"\""]
  | _top_level_declaratioin => choice [sym declaration, sym import_]
  | declaration => prec_right (-1) (seq [
      choice [sym _expr, sym connection_reference],
      optional (choice [
        seq [str ":", sym import_],
        seq [str ":", optional (sym label), optional (sym block)]]),
      optional (sym _eol)])
  | _expr => sep (sym _identifier) (sym connection)
  | method_declaration => prec_right 100 (seq [
      sym identifier,
      str "(", optional (sym arguments), str ")",
      opseq [str ":", str "(", optional (sym returns), str ")"]])
  | returns => aliasAs (sym arguments) "returns"
  | arguments => choice [
      seq [sym argument_name, sym argument_type],
      seq [
        sym argument_name, sym argument_type,
        r1seq [str ",", sym argument_name, sym argument_type]],
      r1seq [
        sym argument_name, r1seq [str ",", sym argument_name],
        sym argument_type, optional (str ",")]]
  | argument_name => token "argument_name" Lex.argument_name
  | argument_type => token "argument_type" Lex.argument_type
  | connection => token "connection" Lex.connection
  | import_ => token "import" Lex.import_
  | block => prec PREC.block (seq [
      token "\x7b" (RE.lit ['\x7b']),
      rep (sym _block_declaration),
      token "\x7d" (RE.lit ['\x7d'])])
  | _block_declaration => choice [sym _top_level_declaratioin, sym method_declaration]
  | label => choice [sym label_codeblock, sym _label_literal, sym _label_constraints]
  | label_codeblock => choice [
      seq [str "|\x60", sym codeblock_language,
        aliasAs (pat "[^\x60]*" (RE.star (RE.cls (fun c => c != backtick)))) "codeblock_content",
        str "\x60|"],
      seq [str "|||", sym codeblock_language, sym codeblock_content, str "|||"],
      seq [str "||", sym codeblock_language, sym codeblock_content, str "||"],
      seq [str "|", sym codeblock_language,
        aliasAs (pat "[^\\|]*" (RE.star (RE.cls (fun c => c != '|')))) "codeblock_content",
        str "|"]]
  | codeblock_language => token "codeblock_language" Lex.codeblock_language
  | codeblock_content => repeat1 (seq [
      pat ".+" (RE.plus (RE.cls isDot)),
      pat "\\s*" (RE.star (RE.cls isSpace))])
  | _label_constraints => seq [
      str "[",
      repeat1 (seq [sym label_constraint, optional (str ";")]),
      str "]"]
  | label_constraint => token "label_constraint" Lex.label_constraint
  | _label_literal => prec_right 0 (choice [
      sym integer,
      sym float,
      sym boolean,
      repeat1 (sym _label_base),
      token "\"[^\"]*\"" Lex.label_string])
  | _label_base => choice [
      sym _ident_base,
      token "\\\x7b" (Lex.prec PREC.label (RE.lit [backslash, '\x7b'])),
      token "[\\(\\)\\\\:.\\-%_#&\\?\\',\\'*]+" Lex.label_punct]
  | connection_reference => seq [
      str "(", sym _expr, str ")",
      sym connection_identifier,
      optional (sym _fields)]
  | connection_identifier => token "connection_identifier" Lex.connection_identifier
  | _identifier => choice [sym identifier, sym identifier_chain]
  | identifier_chain => sep1 (sym identifier_new) (token "." (RE.lit ['.']))
  | identifier => choice [sym _identifier_base, sym _single_quoted, sym _double_quoted]
  | identifier_new => prec 1 (choice [sym _ident, sym _single_quoted, sym _double_quoted])
  | _identifier_base => prec_left (-1) (seq [sym _ident, optional (sym _fields)])
  | _fields => r1seq [str ".", field "field" (sym identifier)]
  | _ident => r1seq [sym _ident_base, optional (pat "[\\s\\',]+" (RE.plus (RE.cls isIdentGap)))]
  | _ident_base => pat "_ident_base" (Lex._ident_base T)
  | _single_quoted => token "_single_quoted" Lex._single_quoted
  | _double_quoted => token "_double_quoted" Lex._double_quoted
  | integer => token "integer" Lex.integer
  | float => token "float" Lex.float
  | boolean => token "boolean" Lex.boolean
  | _eol => token "_eol" Lex._eol
  | _eol_or_space => choice [sym _eol, repeat1 (pat "\\s" (RE.cls isSpace))]

open Rule NT in
/-- The field `extras` of the grammar: tokens that may stand between any two tokens. -/
def extras : List Rule := [sym comment, sym block_comment, sym _eol, pat "\\s" (RE.cls isSpace)]

/-- The field `word` of the grammar. -/
def word : NT := NT._ident_base

/-! ## Derivations -/

/-- Rule `e` of grammar `G` derives the token sequence `w`. -/
inductive Derives (G : NT → Rule) : Rule → List Tok → Prop
  | blank : Derives G Rule.blank []
  | tok {k : String} {r : RE} {s : List Char} :
      r.rmatch s = true → Derives G (Rule.tok k r) [⟨k, s⟩]
  | sym {n : NT} {w : List Tok} : Derives G (G n) w → Derives G (Rule.sym n) w
  | cat {a b : Rule} {u v : List Tok} :
      Derives G a u → Derives G b v → Derives G (Rule.cat a b) (u ++ v)
  | altL {a b : Rule} {w : List Tok} : Derives G a w → Derives G (Rule.alt a b) w
  | altR {a b : Rule} {w : List Tok} : Derives G b w → Derives G (Rule.alt a b) w
  | repNil {a : Rule} : Derives G (Rule.rep a) []
  | repCons {a : Rule} {u v : List Tok} :
      Derives G a u → Derives G (Rule.rep a) v → Derives G (Rule.rep a) (u ++ v)

/-- The sequences a rule expression denotes when each rule name `n` stands for
the set `S n`. -/
def Den (S : NT → List Tok → Prop) : Rule → List Tok → Prop
  | Rule.blank, w => w = []
  | Rule.tok k r, w => ∃ s, w = [⟨k, s⟩] ∧ r.rmatch s = true
  | Rule.sym n, w => S n w
  | Rule.cat a b, w => ∃ u v, w = u ++ v ∧ Den S a u ∧ Den S b v
  | Rule.alt a b, w => Den S a w ∨ Den S b w
  | Rule.rep a, w => ∃ us : List (List Tok), w = us.flatten ∧ ∀ u ∈ us, Den S a u

/-- The terminal-only rule expressions read as one regular expression over
characters (a rule name reads as the empty language). -/
def toRE : Rule → RE
  | Rule.blank => RE.eps
  | Rule.tok _ r => r
  | Rule.sym _ => RE.nil
  | Rule.cat a b => RE.seq (toRE a) (toRE b)
  | Rule.alt a b => RE.alt (toRE a) (toRE b)
  | Rule.rep a => RE.star (toRE a)

/-! ## A bounded search for derivations -/

/-- All ways of cutting a sequence in two. -/
def splits (w : List Tok) : List (List Tok × List Tok) :=
  (List.range (w.length + 1)).map (fun i => (w.take i, w.drop i))

/-- Bounded search for a derivation: `fuel` bounds the nesting of the search. -/
def derivesB (G : NT → Rule) : Nat → Rule → List Tok → Bool
  | 0, _, _ => false
  | _ + 1, Rule.blank, w => w.isEmpty
  | _ + 1, Rule.tok k r, w =>
      match w with
      | [t] => t.kind == k && r.rmatch t.text
      | _ => false
  | fuel + 1, Rule.sym n, w => derivesB G fuel (G n) w
  | fuel + 1, Rule.cat a b, w =>
      (splits w).any (fun p => derivesB G fuel a p.1 && derivesB G fuel b p.2)
  | fuel + 1, Rule.alt a b, w => derivesB G fuel a w || derivesB G fuel b w
  | fuel + 1, Rule.rep a, w =>
      w.isEmpty || (splits w).any (fun p =>
        !p.1.isEmpty && derivesB G fuel a p.1 && derivesB G fuel (Rule.rep a) p.2)

/-! ## Brace balance -/

/-- The token is the opening brace of a block. -/
def isOpen (t : Tok) : Bool := t.kind == "\x7b"

/-- The token is the closing brace of a block. -/
def isClose (t : Tok) : Bool := t.kind == "\x7d"

/-- Number of opening brace tokens. -/
def opens (w : List Tok) : Nat := w.countP isOpen

/-- Number of closing brace tokens. -/
def closes (w : List Tok) : Nat := w.countP isClose

/-- Matching braces: as many closing as opening brace tokens, and no prefix
with more closing than opening ones. -/
def Balanced (w : List Tok) : Prop :=
  opens w = closes w ∧ ∀ p : List Tok, p <+: w → closes p ≤ opens p

/-- No brace terminal occurs in the rule expression itself (rule names apart). -/
def braceFree : Rule → Bool
  | Rule.blank => true
  | Rule.tok k _ => k != "\x7b" && k != "\x7d"
  | Rule.sym _ => true
  | Rule.cat a b => braceFree a && braceFree b
  | Rule.alt a b => braceFree a && braceFree b
  | Rule.rep a => braceFree a

/-! ## The shapes of an argument list -/

/-- A token of `argument_name`. -/
def isNameTok (t : Tok) : Bool :=
  t.kind == "argument_name" && Lex.argument_name.rmatch t.text

/-- A token of `argument_type`. -/
def isTypeTok (t : Tok) : Bool :=
  t.kind == "argument_type" && Lex.argument_type.rmatch t.text

/-- The token of the string literal `,`. -/
def commaTok : Tok := ⟨",", [',']⟩

/-- Shape (a): one name and one type. -/
def ArgsA (w : List Tok) : Prop :=
  ∃ n t : Tok, isNameTok n = true ∧ isTypeTok t = true ∧ w = [n, t]

/-- Shape (b): two or more name-type pairs separated by commas. -/
def ArgsB (w : List Tok) : Prop :=
  ∃ (n t : Tok) (ps : List (Tok × Tok)), isNameTok n = true ∧ isTypeTok t = true ∧ ps ≠ [] ∧
    (∀ p ∈ ps, isNameTok p.1 = true ∧ isTypeTok p.2 = true) ∧
    w = n :: t :: (ps.map (fun p => [commaTok, p.1, p.2])).flatten

/-- A bulk-typed group: a first name, the further names (each after a comma),
the shared type, and whether a comma follows the type. -/
structure ArgGroup where
  /-- first name -/
  first : Tok
  /-- further names -/
  more : List Tok
  /-- shared type -/
  type : Tok
  /-- a comma follows the type -/
  comma : Bool

/-- The group has two or more names and one type. -/
def ArgGroup.ok (g : ArgGroup) : Prop :=
  isNameTok g.first = true ∧ g.more ≠ [] ∧ (∀ n ∈ g.more, isNameTok n = true) ∧
    isTypeTok g.type = true

/-- The tokens of a group. -/
def ArgGroup.render (g : ArgGroup) : List Tok :=
  g.first :: ((g.more.map (fun n => [commaTok, n])).flatten ++
    (g.type :: (if g.comma then [commaTok] else [])))

/-- Shape (c) as the rule has it: one or more groups, each with an optional
comma after its type. -/
def ArgsC (w : List Tok) : Prop :=
  ∃ gs : List ArgGroup, gs ≠ [] ∧ (∀ g ∈ gs, g.ok) ∧ w = (gs.map ArgGroup.render).flatten

/-- Shape (c) as the specification words it: one or more groups, each a
comma-separated run of two or more names followed by one shared type; groups
follow one another (with or without a comma between them) and the list ends
with the type of the last group. -/
def ArgsCSpec (w : List Tok) : Prop :=
  ∃ (gs : List ArgGroup) (l : ArgGroup), (∀ g ∈ gs, g.ok) ∧ l.ok ∧ l.comma = false ∧
    w = (gs.map ArgGroup.render).flatten ++ l.render

/-! ## The kinds of the tokens of a rule -/

/-- Every terminal of the rule expression has a kind in `K` and every rule
name in it belongs to `N`. -/
def kindsIn (N : NT → Bool) (K : String → Bool) : Rule → Bool
  | Rule.blank => true
  | Rule.tok k _ => K k
  | Rule.sym n => N n
  | Rule.cat a b => kindsIn N K a && kindsIn N K b
  | Rule.alt a b => kindsIn N K a && kindsIn N K b
  | Rule.rep a => kindsIn N K a

/-- The rules an identifier is made of. -/
def identifierRules (n : NT) : Bool :=
  n == NT.identifier || n == NT._identifier_base || n == NT._fields || n == NT._ident ||
  n == NT._ident_base || n == NT._single_quoted || n == NT._double_quoted

/-- The kinds of the tokens an identifier is made of. -/
def identifierKinds (k : String) : Bool :=
  k == "_ident_base" || k == "[\\s\\',]+" || k == "." || k == "_single_quoted" ||
  k == "_double_quoted"

/-- The rules an argument list is made of. -/
def argumentRules (n : NT) : Bool :=
  n == NT.arguments || n == NT.returns || n == NT.argument_name || n == NT.argument_type

/-- The kinds of the tokens an argument list is made of. -/
def argumentKinds (k : String) : Bool :=
  k == "argument_name" || k == "argument_type" || k == ","

/-- The token of the string literal `(`. -/
def lparenTok : Tok := ⟨"(", ['(']⟩

/-- The token of the string literal `)`. -/
def rparenTok : Tok := ⟨")", [')']⟩

/-- The token of the string literal `:`. -/
def colonTok : Tok := ⟨":", [':']⟩

/-! ## Quoted strings -/

section
open RE

/-- Reading from left to right with `p` the character before: every `q` comes
right after a backslash. -/
def escapedFrom (q : Char) : Char → List Char → Bool
  | _, [] => true
  | p, c :: cs => (c != q || p == backslash) && escapedFrom q c cs

/-- The repeated part of a quoted token: `choice('\\' + q, /[^q]/)`. -/
def quotedUnit (q : Char) : RE := alts [lit [backslash, q], cls (fun c => c != q)]

/-- A string quoted by `q` as the specification words it: length at least 2,
first and last character `q`, and every `q` strictly between them right after a
backslash. -/
def QuotedBy (q : Char) (s : List Char) : Prop :=
  2 ≤ s.length ∧ s.head? = some q ∧ s.getLast? = some q ∧
  ∀ u v : List Char, s = u ++ q :: v → u ≠ [] → v ≠ [] → ∃ u', u = u' ++ [backslash]

end

/-! ## Unquoted identifiers -/

section
open RE

/-- The pattern `/[\s\',]+/` of `_ident`. -/
def identGap : RE := plus (cls isIdentGap)

/-- One group of an identifier: an `_ident_base` token and, optionally, a
`[\s',]+` token after it. -/
structure IdentGroup where
  /-- text of the `_ident_base` token -/
  base : List Char
  /-- text of the `[\s',]+` token, if there is one -/
  gap : Option (List Char)

/-- The texts of a group match their patterns. -/
def IdentGroup.ok (T : LetterTable) (g : IdentGroup) : Prop :=
  (Lex._ident_base T).rmatch g.base = true ∧ ∀ x, g.gap = some x → identGap.rmatch x = true

/-- The tokens of a group. -/
def IdentGroup.render (g : IdentGroup) : List Tok :=
  ⟨"_ident_base", g.base⟩ ::
    (match g.gap with
     | some x => [⟨"[\\s\\',]+", x⟩]
     | none => [])

/-- The sequences of `_ident`: one or more groups. -/
def IdentShape (T : LetterTable) (w : List Tok) : Prop :=
  ∃ gs : List IdentGroup, gs ≠ [] ∧ (∀ g ∈ gs, g.ok T) ∧ w = (gs.map IdentGroup.render).flatten

/-- One unit of `_ident_base` as the specification words it: a single letter,
a single digit, one of `/`, `*`, `_`, `+`, `-`, or the two-character escape of
`#`. -/
def IdentUnit (T : LetterTable) (u : List Char) : Prop :=
  (∃ c, u = [c] ∧ (isLetter T c = true ∨ isDigit c = true ∨ c = '/' ∨ c = '*' ∨ c = '_' ∨
    c = '+' ∨ c = '-')) ∨ u = [backslash, '#']

/-- Every element of the list with property `X` comes right after an element
with property `Y`. -/
def Preceded {α : Type} (X Y : α → Prop) (l : List α) : Prop :=
  ∀ (u v : List α) (x : α), l = u ++ x :: v → X x → ∃ (u' : List α) (y : α), u = u' ++ [y] ∧ Y y

/-- Every `#` of the string comes right after a backslash. -/
def HashEscaped (s : List Char) : Prop :=
  Preceded (fun c => c = '#') (fun c => c = backslash) s

/-- Every `[\s',]+` token of the sequence comes right after an `_ident_base` token. -/
def GapsFollowBase (w : List Tok) : Prop :=
  Preceded (fun t : Tok => t.kind = "[\\s\\',]+") (fun t : Tok => t.kind = "_ident_base") w

/-- The characters an unquoted identifier can hold. -/
def identChar (T : LetterTable) (c : Char) : Bool :=
  identBaseChar T c || c == backslash || c == '#' || isIdentGap c

end

/-! ## Texts of terminal-only rules and block comments -/

section
open RE

/-- No rule name occurs in the rule expression: it is made of terminals only. -/
def symFree : Rule → Bool
  | Rule.blank => true
  | Rule.tok _ _ => true
  | Rule.sym _ => false
  | Rule.cat a b => symFree a && symFree b
  | Rule.alt a b => symFree a && symFree b
  | Rule.rep a => symFree a

/-- The string is the text of a token sequence derived from the rule expression. -/
def Spells (G : NT → Rule) (e : Rule) (s : List Char) : Prop :=
  ∃ w : List Tok, Derives G e w ∧ yield w = s

/-- The repeated part of `block_comment`:
`repeat(choice(/[^"]/, /"[^"]/, /""[^"]/))`. -/
def blockCommentContent : Rule :=
  rep (choice [
    pat "[^\"]" (RE.cls (fun c => c != dquote)),
    pat "\"[^\"]" (RE.seqs [RE.chr dquote, RE.cls (fun c => c != dquote)]),
    pat "\"\"[^\"]" (RE.seqs [RE.chr dquote, RE.chr dquote, RE.cls (fun c => c != dquote)])])

/-- The fence of a block comment: three double quotes. -/
def fence : List Char := [dquote, dquote, dquote]

/-- One unit of the content of a block comment: a character other than the
double quote, after no, one or two double quotes. -/
def CommentUnit (u : List Char) : Prop :=
  ∃ x : Char, x ≠ dquote ∧ (u = [x] ∨ u = [dquote, x] ∨ u = [dquote, dquote, x])

end

/-! ## Fenced code labels -/

section
open RE

/-- The four styles of a fenced code label. -/
inductive FenceStyle where
  | tick | pipe3 | pipe2 | pipe1
deriving DecidableEq, Repr

/-- The opening fence of a style. -/
def FenceStyle.opening : FenceStyle → String
  | FenceStyle.tick => "|\x60"
  | FenceStyle.pipe3 => "|||"
  | FenceStyle.pipe2 => "||"
  | FenceStyle.pipe1 => "|"

/-- The closing fence of a style. -/
def FenceStyle.closing : FenceStyle → String
  | FenceStyle.tick => "\x60|"
  | FenceStyle.pipe3 => "|||"
  | FenceStyle.pipe2 => "||"
  | FenceStyle.pipe1 => "|"

/-- The token of a string literal. -/
def strTok (s : String) : Tok := ⟨s, s.toList⟩

/-- What the rule allows as content of a style: one token without backtick for
the backtick style, one token without `|` for the single-pipe style, a
`codeblock_content` for the double- and triple-pipe styles. -/
def FenceStyle.content (T : LetterTable) : FenceStyle → List Tok → Prop
  | FenceStyle.tick, c => ∃ s : List Char, c = [⟨"[^\x60]*", s⟩] ∧ backtick ∉ s
  | FenceStyle.pipe1, c => ∃ s : List Char, c = [⟨"[^\\|]*", s⟩] ∧ '|' ∉ s
  | _, c => Derives (rules T) (Rule.sym NT.codeblock_content) c

/-- A fenced code label of a style: opening fence, language tag, content,
closing fence. -/
def Fenced (T : LetterTable) (st : FenceStyle) (w : List Tok) : Prop :=
  ∃ (l : List Char) (c : List Tok),
    w = strTok st.opening :: ⟨"codeblock_language", l⟩ :: (c ++ [strTok st.closing]) ∧
    l ≠ [] ∧ (∀ x ∈ l, isAlnum x = true) ∧ st.content T c

end

/-! ## Free-text labels -/

section
open RE

/-- Every opening brace of the string comes right after a backslash. -/
def BraceEscaped (s : List Char) : Prop :=
  Preceded (fun c => c = '\x7b') (fun c => c = backslash) s

/-- The repeated part of a free-text label: `repeat1($._label_base)`. -/
def freeText : Rule := repeat1 (Rule.sym NT._label_base)

end

/-! ## The terminals of the grammar -/

section
open RE

/-- The terminals of a rule expression, each with its kind. -/
def terminals : Rule → List (String × RE)
  | Rule.blank => []
  | Rule.tok k r => [(k, r)]
  | Rule.sym _ => []
  | Rule.cat a b => terminals a ++ terminals b
  | Rule.alt a b => terminals a ++ terminals b
  | Rule.rep a => terminals a

/-- All rule names of the grammar. -/
def allRules : List NT :=
  [NT.source_file, NT.comment, NT.block_comment, NT._top_level_declaratioin, NT.declaration,
   NT._expr, NT.method_declaration, NT.returns, NT.arguments, NT.argument_name,
   NT.argument_type, NT.connection, NT.import_, NT.block, NT._block_declaration, NT.label,
   NT.label_codeblock, NT.codeblock_language, NT.codeblock_content, NT._label_constraints,
   NT.label_constraint, NT._label_literal, NT._label_base, NT.connection_reference,
   NT.connection_identifier, NT._identifier, NT.identifier_chain, NT.identifier,
   NT.identifier_new, NT._identifier_base, NT._fields, NT._ident, NT._ident_base,
   NT._single_quoted, NT._double_quoted, NT.integer, NT.float, NT.boolean, NT._eol,
   NT._eol_or_space]

/-- Every terminal of the grammar: those of the rules and those of the extras. -/
def grammarTerminals (T : LetterTable) : List (String × RE) :=
  (allRules.map (fun n => terminals (rules T n))).flatten ++ (extras.map terminals).flatten

/-- The kinds of the three starred patterns `[^q]*` (backtick), `[^\|]*` and `\s*`. -/
def starredKinds : List String := ["[^\x60]*", "[^\\|]*", "\\s*"]

/-- The repeated units of a rule expression: the bodies of its repetitions. -/
def repBodies : Rule → List Rule
  | Rule.blank => []
  | Rule.tok _ _ => []
  | Rule.sym _ => []
  | Rule.cat a b => repBodies a ++ repBodies b
  | Rule.alt a b => repBodies a ++ repBodies b
  | Rule.rep a => a :: repBodies a

/-- Sufficient check that a rule expression derives non-empty text only, the
rule names in `N` being known to do so. -/
def textNE (N : NT → Bool) : Rule → Bool
  | Rule.blank => false
  | Rule.tok _ r => !r.nullable
  | Rule.sym n => N n
  | Rule.cat a b => textNE N a || textNE N b
  | Rule.alt a b => textNE N a && textNE N b
  | Rule.rep _ => false

/-- The rules that derive non-empty text only: all but `source_file`. -/
def consuming (n : NT) : Bool := n != NT.source_file

end

/-! ## Constraint lists -/

section
open RE

/-- One entry of a constraint list: the text of the name and whether a `;`
follows it. -/
structure ConstraintItem where
  /-- text of the `label_constraint` token -/
  name : List Char
  /-- a `;` follows the name -/
  semi : Bool

/-- The name is a non-empty run of letters, digits and `_`. -/
def ConstraintItem.ok (c : ConstraintItem) : Prop :=
  c.name ≠ [] ∧ ∀ x ∈ c.name, isWordChar x = true

/-- The tokens of an entry. -/
def ConstraintItem.render (c : ConstraintItem) : List Tok :=
  ⟨"label_constraint", c.name⟩ :: (if c.semi then [strTok ";"] else [])

/-- A constraint list as the rule has it: `[`, one or more names each with an
optional `;` after it, `]`. -/
def ConstraintList (w : List Tok) : Prop :=
  ∃ cs : List ConstraintItem, cs ≠ [] ∧ (∀ c ∈ cs, c.ok) ∧
    w = strTok "[" :: ((cs.map ConstraintItem.render).flatten ++ [strTok "]"])

/-- A constraint list as the specification words it: consecutive names are
separated by `;`, which is optional only after the last name. -/
def ConstraintListSpec (w : List Tok) : Prop :=
  ∃ (cs : List ConstraintItem) (l : ConstraintItem),
    (∀ c ∈ cs, c.ok ∧ c.semi = true) ∧ l.ok ∧
    w = strTok "[" :: ((cs.map ConstraintItem.render).flatten ++ (l.render ++ [strTok "]"]))

end

/-! ## Separated lists and expressions -/

section
open RE

/-- A token of `connection`. -/
def isConnTok (t : Tok) : Bool :=
  t.kind == "connection" && Lex.connection.rmatch t.text

/-- The rules an identifier or an identifier chain is made of. -/
def chainRules (n : NT) : Bool :=
  identifierRules n || n == NT._identifier || n == NT.identifier_chain ||
  n == NT.identifier_new

/-- The sequences of `sep(rule, separator)`, the occurrences of `rule` being
those of `A` and the separators those of `B`: a first occurrence and a list of
separator-occurrence pairs. -/
def SepShape (A B : List Tok → Prop) (w : List Tok) : Prop :=
  ∃ (x : List Tok) (ps : List (List Tok × List Tok)), A x ∧ (∀ p ∈ ps, B p.1 ∧ A p.2) ∧
    w = x ++ (ps.map (fun p => p.1 ++ p.2)).flatten

/-- The sequences of `sep1(rule, separator)`: as `SepShape`, with at least one
separator-occurrence pair. -/
def Sep1Shape (A B : List Tok → Prop) (w : List Tok) : Prop :=
  ∃ (x : List Tok) (ps : List (List Tok × List Tok)), ps ≠ [] ∧ A x ∧
    (∀ p ∈ ps, B p.1 ∧ A p.2) ∧ w = x ++ (ps.map (fun p => p.1 ++ p.2)).flatten

/-- An expression in parts: a first identifier and a list of pairs of a
connection token and an identifier. -/
def ExprShape (T : LetterTable) (w : List Tok) : Prop :=
  ∃ (i : List Tok) (ps : List (Tok × List Tok)),
    Derives (rules T) (Rule.sym NT._identifier) i ∧
    (∀ p ∈ ps, isConnTok p.1 = true ∧ Derives (rules T) (Rule.sym NT._identifier) p.2) ∧
    w = i ++ (ps.map (fun p => p.1 :: p.2)).flatten

/-- No two neighbouring tokens of the sequence are both connections. -/
def NoAdjacentConnections (w : List Tok) : Prop :=
  ∀ (u v : List Tok) (s t : Tok), w = u ++ s :: t :: v →
    ¬ (s.kind = "connection" ∧ t.kind = "connection")

/-- A non-empty sequence that ends with an identifier token and in which every
connection token comes right after an identifier token. -/
def GoodExpr (w : List Tok) : Prop :=
  w ≠ [] ∧ (∀ t, w.getLast? = some t → identifierKinds t.kind = true) ∧
  Preceded (fun t : Tok => t.kind = "connection")
    (fun t : Tok => identifierKinds t.kind = true) w

end

/-! ## Connection references -/

section
open RE

/-- The rules an expression is made of. -/
def exprRules (n : NT) : Bool :=
  chainRules n || n == NT._expr || n == NT.connection

/-- The kinds of the tokens an expression is made of. -/
def exprKinds (k : String) : Bool :=
  identifierKinds k || k == "connection"

/-- The text of an index token: `[`, one or more decimal digits, `]`. -/
def IsIndexText (s : List Char) : Prop :=
  ∃ d : List Char, d ≠ [] ∧ (∀ x ∈ d, isDigit x = true) ∧ s = '[' :: (d ++ [']'])

/-- A connection reference in parts: `(`, an expression, `)`, the index token
and a list of fields, each an identifier after a `.`. -/
def ConnRefShape (T : LetterTable) (w : List Tok) : Prop :=
  ∃ (e : List Tok) (idx : List Char) (fs : List (List Tok)),
    Derives (rules T) (Rule.sym NT._expr) e ∧ IsIndexText idx ∧
    (∀ f ∈ fs, Derives (rules T) (Rule.sym NT.identifier) f) ∧
    w = lparenTok :: (e ++ rparenTok :: ⟨"connection_identifier", idx⟩ ::
      (fs.map (fun f => strTok "." :: f)).flatten)

end

/-! ## Dotted names and quoted labels -/

section
open RE

/-- The tokens of an unquoted name followed by dotted accessors: the name and,
for each accessor, a `.` and the accessor's name. -/
def dotted (b : List Char) (fs : List (List Char)) : List Tok :=
  ⟨"_ident_base", b⟩ :: (fs.map (fun f => [strTok ".", ⟨"_ident_base", f⟩])).flatten

/-- The token of a double-quoted label with the text `s` between the quotes. -/
def labelStringTok (s : List Char) : Tok := ⟨"\"[^\"]*\"", dquote :: (s ++ [dquote])⟩

end

/-! ## Reading a text with extras -/

section
open RE

/-- The fourth pattern of `connection`, the undirected one: `--+`. -/
def undirected : RE := seqs [chr '-', plus (chr '-')]

/-- The token sequence reads the text: the text is the texts of the tokens in
order, with extras allowed before, between and after them. -/
inductive Reads (G : NT → Rule) : List Tok → List Char → Prop
  | nil : Reads G [] []
  | tok {t : Tok} {w : List Tok} {s : List Char} :
      Reads G w s → Reads G (t :: w) (t.text ++ s)
  | skip {e : Rule} {x : List Char} {w : List Tok} {s : List Char} :
      e ∈ extras → Spells G e x → Reads G w s → Reads G w (x ++ s)

end

/-! ## Nested blocks -/

section
open RE

/-- The token of the terminal that opens a block. -/
def lbraceTok : Tok := ⟨"\x7b", ['\x7b']⟩

/-- The token of the terminal that closes a block. -/
def rbraceTok : Tok := ⟨"\x7d", ['\x7d']⟩

/-- The tokens of `name : { ... }` wrapped `n` times around `inner`: each
level is the name, a `:` and a block that holds the next level. -/
def nested (name : Tok) (inner : List Tok) : Nat → List Tok
  | 0 => inner
  | n + 1 => name :: colonTok :: lbraceTok :: (nested name inner n ++ [rbraceTok])

/-- The deepest brace level reached while reading the sequence from level `c`. -/
def depthAt : Nat → List Tok → Nat
  | c, [] => c
  | c, t :: w => max c (depthAt (if isOpen t then c + 1 else if isClose t then c - 1 else c) w)

/-- The nesting depth of the blocks of a sequence. -/
def depth (w : List Tok) : Nat := depthAt 0 w

/-- The check that every sequence of the rule expression starts with a token
whose kind is in `K`, rule names in `N` being assumed to do so. -/
def firstIn (N : NT → Bool) (K : String → Bool) : Rule → Bool
  | Rule.blank => false
  | Rule.tok k _ => K k
  | Rule.sym n => N n
  | Rule.cat a _ => firstIn N K a
  | Rule.alt a b => firstIn N K a && firstIn N K b
  | Rule.rep _ => false

/-- The rules a declaration of a block starts with. -/
def startRules (n : NT) : Bool :=
  n == NT._ident_base || n == NT._single_quoted || n == NT._double_quoted || n == NT._ident ||
  n == NT._identifier_base || n == NT.identifier || n == NT.identifier_new ||
  n == NT.identifier_chain || n == NT._identifier || n == NT._expr ||
  n == NT.connection_reference || n == NT.declaration || n == NT.import_ ||
  n == NT._top_level_declaratioin || n == NT.method_declaration || n == NT._block_declaration

/-- The kinds of the tokens a declaration of a block starts with. -/
def startKinds (k : String) : Bool :=
  k == "_ident_base" || k == "_single_quoted" || k == "_double_quoted" || k == "(" ||
  k == "import"

/-- The rules a label is made of. -/
def labelRules (n : NT) : Bool :=
  n == NT.label || n == NT.label_codeblock || n == NT.codeblock_language ||
  n == NT.codeblock_content || n == NT._label_constraints || n == NT.label_constraint ||
  n == NT._label_literal || n == NT._label_base || n == NT.integer || n == NT.float ||
  n == NT.boolean || n == NT._ident_base

/-- The kind is not that of a brace terminal. -/
def notBrace (k : String) : Bool := k != "\x7b" && k != "\x7d"

/-- The token of an unquoted name. -/
def nameTok (s : String) : Tok := ⟨"_ident_base", s.toList⟩

/-- The token of the connection `->`. -/
def arrowTok : Tok := ⟨"connection", ['-', '>']⟩

/-- The token of the terminator `;`. -/
def semiTok : Tok := ⟨"_eol", [';']⟩

/-- The tokens between the braces of the outer block of the example. -/
def shapeOuter : List Tok :=
  [nameTok "a", arrowTok, nameTok "b", semiTok,
   nameTok "c", colonTok, lbraceTok, nameTok "d", rbraceTok]

/-- The tokens of `shape: {a -> b; c: {d}}`, the `;` being the terminator of
the declaration `a -> b` and white space being left out. -/
def shapeExample : List Tok :=
  nameTok "shape" :: colonTok :: lbraceTok :: (shapeOuter ++ [rbraceTok])

/-- The token is of a kind an expression is made of. -/
def isExprTok (t : Tok) : Bool := exprKinds t.kind

/-- The head of a declaration: an expression or a connection reference. -/
def DeclHead (T : LetterTable) (h : List Tok) : Prop :=
  Derives (rules T) (Rule.sym NT._expr) h ∨
    Derives (rules T) (Rule.sym NT.connection_reference) h

/-- The optional terminator of a declaration. -/
def OptEol (T : LetterTable) (e : List Tok) : Prop :=
  Derives (rules T) (Rule.sym NT._eol) e ∨ e = []

/-- The sequence `w` is a declaration with the head `h`, a `:`, the optional
label `l`, the optional block `b` and the optional terminator `e`. -/
def DeclParts (T : LetterTable) (w h l b e : List Tok) : Prop :=
  w = h ++ (colonTok :: (l ++ b) ++ e) ∧ DeclHead T h ∧
  (Derives (rules T) (Rule.sym NT.label) l ∨ l = []) ∧
  (Derives (rules T) (Rule.sym NT.block) b ∨ b = []) ∧ OptEol T e

/-- The sequences of a declaration, by parts: a head and a terminator; or a
head, a `:`, an import and a terminator; or a head, a `:`, a label, a block
and a terminator. -/
def DeclShape (T : LetterTable) (w : List Tok) : Prop :=
  (∃ h e, w = h ++ e ∧ DeclHead T h ∧ OptEol T e) ∨
  (∃ h i e, w = h ++ (colonTok :: i ++ e) ∧ DeclHead T h ∧
    Derives (rules T) (Rule.sym NT.import_) i ∧ OptEol T e) ∨
  (∃ h l b e, DeclParts T w h l b e)

/-- The block `b` holds the declarations `ds`: it is `{`, the declarations
one after the other, `}`. -/
def BlockHolds (T : LetterTable) (b : List Tok) (ds : List (List Tok)) : Prop :=
  (∀ d ∈ ds, Derives (rules T) (Rule.sym NT._block_declaration) d) ∧
    b = lbraceTok :: (ds.flatten ++ [rbraceTok])

end

/-! ## Block comments with extras skipped -/

section
open RE

/-- The text of a node with the tokens `w`: the first and the last token stand
at the two ends of the text, and extras may be skipped between tokens. -/
def ReadsNode (G : NT → Rule) (w : List Tok) (s : List Char) : Prop :=
  (w = [] ∧ s = []) ∨ (∃ t : Tok, w = [t] ∧ s = t.text) ∨
  ∃ (t u : Tok) (m : List Tok) (c : List Char),
    w = t :: (m ++ [u]) ∧ Reads G m c ∧ s = t.text ++ (c ++ u.text)

/-- The string is accepted by the rule expression: it is the text of a token
sequence derived from it, with extras skipped between the tokens. -/
def Accepts (G : NT → Rule) (e : Rule) (s : List Char) : Prop :=
  ∃ w : List Tok, Derives G e w ∧ ReadsNode G w s

/-- The string is the text of one extra, as it is skipped between two tokens. -/
def Skipped (G : NT → Rule) (x : List Char) : Prop :=
  ∃ e ∈ extras, Spells G e x

/-- The string stands between the two fences of a block comment: it is read by
the tokens of the repeated part, with extras skipped before, between and after
them. -/
def CommentContent (G : NT → Rule) (c : List Char) : Prop :=
  ∃ cs : List Tok, Derives G blockCommentContent cs ∧ Reads G cs c

/-- The token of the fence of a block comment. -/
def fenceTok : Tok := ⟨"\"\"\"", fence⟩

end

/-! ## Extras inside skipped extras -/

section
open RE

/-- As `Reads`, with extras skipped inside a skipped extra as well: an extra
is skipped as the text of its tokens, extras being skipped in turn between the
first and the last of them. -/
inductive ReadsDeep (G : NT → Rule) : List Tok → List Char → Prop
  | nil : ReadsDeep G [] []
  | tok {t : Tok} {w : List Tok} {s : List Char} :
      ReadsDeep G w s → ReadsDeep G (t :: w) (t.text ++ s)
  | skipOne {e : Rule} {t : Tok} {w : List Tok} {s : List Char} :
      e ∈ extras → Derives G e [t] → ReadsDeep G w s → ReadsDeep G w (t.text ++ s)
  | skipMore {e : Rule} {t u : Tok} {m : List Tok} {c : List Char} {w : List Tok}
      {s : List Char} :
      e ∈ extras → Derives G e (t :: (m ++ [u])) → ReadsDeep G m c → ReadsDeep G w s →
      ReadsDeep G w (t.text ++ (c ++ u.text) ++ s)

/-- As `ReadsNode`, the extras between the tokens being skipped by `ReadsDeep`. -/
def ReadsNodeDeep (G : NT → Rule) (w : List Tok) (s : List Char) : Prop :=
  (w = [] ∧ s = []) ∨ (∃ t : Tok, w = [t] ∧ s = t.text) ∨
  ∃ (t u : Tok) (m : List Tok) (c : List Char),
    w = t :: (m ++ [u]) ∧ ReadsDeep G m c ∧ s = t.text ++ (c ++ u.text)

/-- As `Accepts`, the extras between the tokens being skipped by `ReadsDeep`. -/
def AcceptsDeep (G : NT → Rule) (e : Rule) (s : List Char) : Prop :=
  ∃ w : List Tok, Derives G e w ∧ ReadsNodeDeep G w s

/-- The string is the text of one extra, extras being skipped inside it. -/
def SkippedDeep (G : NT → Rule) (x : List Char) : Prop :=
  ∃ e ∈ extras, AcceptsDeep G e x

/-- As `CommentContent`, the extras being skipped by `ReadsDeep`. -/
def CommentContentDeep (G : NT → Rule) (c : List Char) : Prop :=
  ∃ cs : List Tok, Derives G blockCommentContent cs ∧ ReadsDeep G cs c

end

/-! ## Theorems -/

/-! ### The matcher decides the language -/

namespace RE

/-- Nullable expressions are those that hold the empty string. -/
theorem nullable_iff (r : RE) : r.nullable = true ↔ r.Lang [] := by
  induction r with
  | nil => simp [nullable, Lang]
  | eps => simp [nullable, Lang]
  | cls p => simp [nullable, Lang]
  | seq a b iha ihb =>
    simp only [nullable, Lang, Bool.and_eq_true, iha, ihb]
    constructor
    · rintro ⟨h1, h2⟩
      exact ⟨[], [], rfl, h1, h2⟩
    · rintro ⟨u, v, h, h1, h2⟩
      have hu : u = [] := by
        cases u with
        | nil => rfl
        | cons x xs => simp at h
      have hv : v = [] := by
        subst hu
        simpa using h.symm
      subst hu; subst hv
      exact ⟨h1, h2⟩
  | alt a b iha ihb => simp [nullable, Lang, iha, ihb]
  | star a _ =>
    simp only [nullable, Lang, true_iff]
    exact ⟨[], rfl, by simp⟩

/-- A flattened list of pieces that starts with `c`: the first non-empty piece starts with `c`. -/
theorem flatten_eq_cons {P : List Char → Prop} :
    ∀ (us : List (List Char)) (c : Char) (s : List Char),
      us.flatten = c :: s → (∀ u ∈ us, P u) →
      ∃ (u : List Char) (vs : List (List Char)), P (c :: u) ∧ s = u ++ vs.flatten ∧ ∀ v ∈ vs, P v
  | [], c, s, h, _ => by simp at h
  | [] :: rest, c, s, h, hP => by
      have h2 : rest.flatten = c :: s := by simpa using h
      exact flatten_eq_cons rest c s h2 (fun u hu => hP u (List.mem_cons_of_mem _ hu))
  | (d :: u) :: rest, c, s, h, hP => by
      simp only [List.flatten_cons, List.cons_append, List.cons.injEq] at h
      obtain ⟨hd, hs⟩ := h
      subst hd
      refine ⟨u, rest, hP _ (List.mem_cons_self _ _), hs.symm, ?_⟩
      exact fun v hv => hP v (List.mem_cons_of_mem _ hv)

/-- The derivative holds the strings that follow the character. -/
theorem deriv_iff (r : RE) : ∀ (c : Char) (s : List Char), (r.deriv c).Lang s ↔ r.Lang (c :: s) := by
  induction r with
  | nil => intro c s; simp [deriv, Lang]
  | eps => intro c s; simp [deriv, Lang]
  | cls p =>
    intro c s
    by_cases h : p c = true
    · simp only [deriv, h, if_true, Lang]
      constructor
      · rintro rfl
        exact ⟨c, rfl, h⟩
      · rintro ⟨d, hd, _⟩
        simp only [List.cons.injEq] at hd
        exact hd.2
    · simp only [deriv, h, Lang, false_iff]
      rintro ⟨d, hd, hp⟩
      simp only [List.cons.injEq] at hd
      rw [← hd.1] at hp
      exact h hp
  | seq a b iha ihb =>
    intro c s
    have key : (seq a b).Lang (c :: s) ↔
        (∃ u v, s = u ++ v ∧ a.Lang (c :: u) ∧ b.Lang v) ∨ (a.Lang [] ∧ b.Lang (c :: s)) := by
      simp only [Lang]
      constructor
      · rintro ⟨u, v, h, h1, h2⟩
        cases u with
        | nil =>
          right
          simp only [List.nil_append] at h
          subst h
          exact ⟨h1, h2⟩
        | cons x xs =>
          left
          simp only [List.cons_append, List.cons.injEq] at h
          obtain ⟨hx, hs⟩ := h
          subst hx
          exact ⟨xs, v, hs, h1, h2⟩
      · rintro (⟨u, v, h, h1, h2⟩ | ⟨h1, h2⟩)
        · exact ⟨c :: u, v, by simp [h], h1, h2⟩
        · exact ⟨[], c :: s, rfl, h1, h2⟩
    rw [key]
    by_cases hn : a.nullable = true
    · simp only [deriv, hn, if_true, Lang, iha, ihb]
      rw [← nullable_iff, hn]
      simp
    · simp only [deriv, hn, Lang, iha]
      rw [← nullable_iff]
      simp [hn]
  | alt a b iha ihb => intro c s; simp [deriv, Lang, iha, ihb]
  | star a iha =>
    intro c s
    simp only [deriv, Lang, iha]
    constructor
    · rintro ⟨u, v, h, h1, vs, hv, h2⟩
      refine ⟨(c :: u) :: vs, by simp [h, hv], ?_⟩
      intro w hw
      rcases List.mem_cons.1 hw with rfl | hw
      · exact h1
      · exact h2 w hw
    · rintro ⟨us, h, hP⟩
      obtain ⟨u, vs, h1, h2, h3⟩ := flatten_eq_cons us c s h.symm hP
      exact ⟨u, vs.flatten, h2, h1, vs, rfl, h3⟩

/-- The matcher decides the language. -/
theorem rmatch_iff : ∀ (s : List Char) (r : RE), r.rmatch s = true ↔ r.Lang s
  | [], r => by simp [rmatch, nullable_iff]
  | c :: cs, r => by
      simp only [rmatch]
      rw [rmatch_iff cs (r.deriv c), deriv_iff]

end RE

/-! ### Languages of the derived forms -/

namespace RE

/-- Unfolding of a sequence of two. -/
theorem lang_seq (a b : RE) (s : List Char) :
    (seq a b).Lang s ↔ ∃ u v, s = u ++ v ∧ a.Lang u ∧ b.Lang v := Iff.rfl

/-- Unfolding of a choice of two. -/
theorem lang_alt (a b : RE) (s : List Char) : (alt a b).Lang s ↔ a.Lang s ∨ b.Lang s := Iff.rfl

/-- Unfolding of the empty string. -/
theorem lang_eps (s : List Char) : eps.Lang s ↔ s = [] := Iff.rfl

/-- Unfolding of a character class. -/
theorem lang_cls (p : Char → Bool) (s : List Char) :
    (cls p).Lang s ↔ ∃ c, s = [c] ∧ p c = true := Iff.rfl

/-- The language of one character. -/
theorem lang_chr (c : Char) (s : List Char) : (chr c).Lang s ↔ s = [c] := by
  simp only [chr, Lang, beq_iff_eq]
  constructor
  · rintro ⟨d, rfl, rfl⟩; rfl
  · rintro rfl; exact ⟨c, rfl, rfl⟩

/-- The language of a literal. -/
theorem lang_lit : ∀ (l s : List Char), (lit l).Lang s ↔ s = l
  | [], s => by simp [lit, Lang]
  | c :: cs, s => by
      simp only [lit, lang_seq, lang_chr, lang_lit cs]
      constructor
      · rintro ⟨u, v, rfl, rfl, rfl⟩; rfl
      · rintro rfl; exact ⟨[c], cs, rfl, rfl, rfl⟩

/-- The language of an optional expression. -/
theorem lang_opt (a : RE) (s : List Char) : (opt a).Lang s ↔ a.Lang s ∨ s = [] := by
  simp [opt, lang_alt, lang_eps]

/-- A repetition holds the empty string. -/
theorem lang_star_nil (a : RE) : (star a).Lang [] := ⟨[], rfl, by simp⟩

/-- A repetition is closed under one more piece in front. -/
theorem lang_star_append (a : RE) {u v : List Char} (hu : a.Lang u) (hv : (star a).Lang v) :
    (star a).Lang (u ++ v) := by
  obtain ⟨vs, rfl, h⟩ := hv
  refine ⟨u :: vs, by simp, ?_⟩
  intro w hw
  rcases List.mem_cons.1 hw with rfl | hw
  · exact hu
  · exact h w hw

/-- A repetition is empty or one piece and a repetition. -/
theorem lang_star_iff (a : RE) (s : List Char) :
    (star a).Lang s ↔ s = [] ∨ ∃ u v, s = u ++ v ∧ a.Lang u ∧ (star a).Lang v := by
  constructor
  · rintro ⟨us, rfl, h⟩
    cases us with
    | nil => left; rfl
    | cons u vs =>
      right
      exact ⟨u, vs.flatten, by simp, h u (List.mem_cons_self _ _),
        vs, rfl, fun v hv => h v (List.mem_cons_of_mem _ hv)⟩
  · rintro (rfl | ⟨u, v, rfl, hu, hv⟩)
    · exact lang_star_nil a
    · exact lang_star_append a hu hv

/-- A repetition of a class: all characters in the class. -/
theorem lang_star_cls (p : Char → Bool) (s : List Char) :
    (star (cls p)).Lang s ↔ ∀ c ∈ s, p c = true := by
  constructor
  · rintro ⟨us, rfl, h⟩ c hc
    obtain ⟨u, hu, hcu⟩ := List.mem_flatten.1 hc
    obtain ⟨d, rfl, hd⟩ := h u hu
    simp only [List.mem_singleton] at hcu
    subst hcu
    exact hd
  · intro h
    induction s with
    | nil => exact lang_star_nil _
    | cons c cs ih =>
      have h1 : (cls p).Lang [c] := ⟨c, rfl, h c (List.mem_cons_self _ _)⟩
      exact lang_star_append (cls p) h1 (ih (fun d hd => h d (List.mem_cons_of_mem _ hd)))

/-- One or more of a class: a non-empty string over the class. -/
theorem lang_plus_cls (p : Char → Bool) (s : List Char) :
    (plus (cls p)).Lang s ↔ s ≠ [] ∧ ∀ c ∈ s, p c = true := by
  simp only [plus, lang_seq, lang_star_cls, lang_cls]
  constructor
  · rintro ⟨u, v, rfl, ⟨c, rfl, hc⟩, hv⟩
    refine ⟨by simp, ?_⟩
    intro d hd
    rcases List.mem_cons.1 hd with rfl | hd
    · exact hc
    · exact hv d hd
  · rintro ⟨hne, h⟩
    cases s with
    | nil => exact absurd rfl hne
    | cons c cs =>
      exact ⟨[c], cs, rfl, ⟨c, rfl, h c (List.mem_cons_self _ _)⟩,
        fun d hd => h d (List.mem_cons_of_mem _ hd)⟩

/-- One or more of one character. -/
theorem lang_plus_chr (c : Char) (s : List Char) :
    (plus (chr c)).Lang s ↔ ∃ n, 1 ≤ n ∧ s = List.replicate n c := by
  rw [chr, lang_plus_cls]
  constructor
  · rintro ⟨hne, h⟩
    refine ⟨s.length, ?_, ?_⟩
    · cases s with
      | nil => exact absurd rfl hne
      | cons x xs => simp
    · rw [List.eq_replicate_iff]
      exact ⟨rfl, fun b hb => by simpa using h b hb⟩
  · rintro ⟨n, hn, rfl⟩
    constructor
    · cases n with
      | zero => omega
      | succ m => simp [List.replicate_succ]
    · intro d hd
      simp [(List.mem_replicate.1 hd).2]

end RE

/-! ### Derivations and denotations -/

/-- Denotations grow with the sets the rule names stand for. -/
theorem den_mono {S S' : NT → List Tok → Prop} (h : ∀ n w, S n w → S' n w) :
    ∀ (e : Rule) (w : List Tok), Den S e w → Den S' e w
  | Rule.blank, _, hd => hd
  | Rule.tok _ _, _, hd => hd
  | Rule.sym n, w, hd => h n w hd
  | Rule.cat a b, _, ⟨u, v, hw, ha, hb⟩ => ⟨u, v, hw, den_mono h a u ha, den_mono h b v hb⟩
  | Rule.alt a _, w, Or.inl ha => Or.inl (den_mono h a w ha)
  | Rule.alt _ b, w, Or.inr hb => Or.inr (den_mono h b w hb)
  | Rule.rep a, _, ⟨us, hw, hus⟩ => ⟨us, hw, fun u hu => den_mono h a u (hus u hu)⟩

/-- Induction over derivations: a family of sets closed under the rules holds
every derived sequence. -/
theorem derives_ind {G : NT → Rule} {S : NT → List Tok → Prop}
    (hS : ∀ n w, Den S (G n) w → S n w) {e : Rule} {w : List Tok} (h : Derives G e w) :
    Den S e w := by
  induction h with
  | blank => rfl
  | tok hr => exact ⟨_, rfl, hr⟩
  | sym _ ih => exact hS _ _ ih
  | cat _ _ iha ihb => exact ⟨_, _, rfl, iha, ihb⟩
  | altL _ ih => exact Or.inl ih
  | altR _ ih => exact Or.inr ih
  | repNil => exact ⟨[], rfl, by simp⟩
  | @repCons a u v _ _ iha ihb =>
    obtain ⟨vs, rfl, hvs⟩ := ihb
    refine ⟨u :: vs, by simp, ?_⟩
    intro x hx
    rcases List.mem_cons.1 hx with rfl | hx
    · exact iha
    · exact hvs x hx

/-- Pieces derived by `a` concatenate to a sequence derived by `repeat(a)`. -/
theorem derives_rep_flatten {G : NT → Rule} {a : Rule} :
    ∀ us : List (List Tok), (∀ u ∈ us, Derives G a u) → Derives G (Rule.rep a) us.flatten
  | [], _ => Derives.repNil
  | u :: vs, h => by
      rw [List.flatten_cons]
      exact Derives.repCons (h u (List.mem_cons_self _ _))
        (derives_rep_flatten vs (fun x hx => h x (List.mem_cons_of_mem _ hx)))

/-- A denotation over the derived sets is a derivation. -/
theorem den_derives {G : NT → Rule} :
    ∀ (e : Rule) (w : List Tok), Den (fun n w => Derives G (Rule.sym n) w) e w → Derives G e w
  | Rule.blank, _, hd => by cases hd; exact Derives.blank
  | Rule.tok _ _, _, ⟨s, hw, hr⟩ => by subst hw; exact Derives.tok hr
  | Rule.sym _, _, hd => hd
  | Rule.cat a b, _, ⟨u, v, hw, ha, hb⟩ => by
      subst hw; exact Derives.cat (den_derives a u ha) (den_derives b v hb)
  | Rule.alt a _, w, Or.inl ha => Derives.altL (den_derives a w ha)
  | Rule.alt _ b, w, Or.inr hb => Derives.altR (den_derives b w hb)
  | Rule.rep a, _, ⟨us, hw, hus⟩ => by
      subst hw; exact derives_rep_flatten us (fun u hu => den_derives a u (hus u hu))

/-- A rule name derives what its rule derives. -/
theorem derives_sym_iff {G : NT → Rule} {n : NT} {w : List Tok} :
    Derives G (Rule.sym n) w ↔ Derives G (G n) w :=
  ⟨fun h => by cases h; assumption, Derives.sym⟩

/-- A derivation unfolds along the rule expression. -/
theorem derives_iff_den {G : NT → Rule} {e : Rule} {w : List Tok} :
    Derives G e w ↔ Den (fun n w => Derives G (G n) w) e w := by
  constructor
  · intro h
    exact derives_ind (S := fun n w => Derives G (G n) w)
      (fun n w hd => den_derives (G n) w (den_mono (fun _ _ h => Derives.sym h) (G n) w hd)) h
  · intro h
    exact den_derives e w (den_mono (fun _ _ h => Derives.sym h) e w h)

/-! Unfolding of the DSL forms. -/
section
variable (S : NT → List Tok → Prop)

/-- Unfolding of a blank. -/
theorem den_blank (w : List Tok) : Den S Rule.blank w ↔ w = [] := Iff.rfl
/-- Unfolding of a terminal. -/
theorem den_tok (k : String) (r : RE) (w : List Tok) :
    Den S (Rule.tok k r) w ↔ ∃ s, w = [⟨k, s⟩] ∧ r.rmatch s = true := Iff.rfl
/-- Unfolding of a rule name. -/
theorem den_sym (n : NT) (w : List Tok) : Den S (Rule.sym n) w ↔ S n w := Iff.rfl
/-- Unfolding of a sequence of two. -/
theorem den_cat (a b : Rule) (w : List Tok) :
    Den S (Rule.cat a b) w ↔ ∃ u v, w = u ++ v ∧ Den S a u ∧ Den S b v := Iff.rfl
/-- Unfolding of a choice of two. -/
theorem den_alt (a b : Rule) (w : List Tok) :
    Den S (Rule.alt a b) w ↔ Den S a w ∨ Den S b w := Iff.rfl
/-- Unfolding of a repetition. -/
theorem den_rep (a : Rule) (w : List Tok) :
    Den S (Rule.rep a) w ↔ ∃ us : List (List Tok), w = us.flatten ∧ ∀ u ∈ us, Den S a u := Iff.rfl

/-- Unfolding of `optional`. -/
theorem den_optional (a : Rule) (w : List Tok) :
    Den S (optional a) w ↔ Den S a w ∨ w = [] := Iff.rfl

/-- Unfolding of `repeat1`. -/
theorem den_repeat1 (a : Rule) (w : List Tok) :
    Den S (repeat1 a) w ↔
      ∃ u v, w = u ++ v ∧ Den S a u ∧ ∃ us : List (List Tok), v = us.flatten ∧ ∀ x ∈ us, Den S a x :=
  Iff.rfl
end

/-- The two parts of a cut give the sequence back. -/
theorem splits_append{w : List Tok} {p : List Tok × List Tok} (h : p ∈ splits w) :
    p.1 ++ p.2 = w := by
  simp only [splits, List.mem_map, List.mem_range] at h
  obtain ⟨i, _, rfl⟩ := h
  exact List.take_append_drop i w

/-- What the bounded search finds is a derivation. -/
theorem derivesB_sound (G : NT → Rule) :
    ∀ (fuel : Nat) (e : Rule) (w : List Tok), derivesB G fuel e w = true → Derives G e w
  | 0, _, _, h => by simp [derivesB] at h
  | fuel + 1, Rule.blank, w, h => by
      simp only [derivesB, List.isEmpty_iff] at h
      subst h; exact Derives.blank
  | fuel + 1, Rule.tok k r, w, h => by
      match w, h with
      | [t], h =>
        simp only [derivesB, Bool.and_eq_true, beq_iff_eq] at h
        obtain ⟨hk, hr⟩ := h
        have : t = ⟨k, t.text⟩ := by cases t; simp at hk; simp [hk]
        rw [this]
        exact Derives.tok hr
      | [], h => simp [derivesB] at h
      | _ :: _ :: _, h => simp [derivesB] at h
  | fuel + 1, Rule.sym n, w, h => by
      simp only [derivesB] at h
      exact Derives.sym (derivesB_sound G fuel _ w h)
  | fuel + 1, Rule.cat a b, w, h => by
      simp only [derivesB, List.any_eq_true, Bool.and_eq_true] at h
      obtain ⟨p, hp, ha, hb⟩ := h
      rw [← splits_append hp]
      exact Derives.cat (derivesB_sound G fuel a _ ha) (derivesB_sound G fuel b _ hb)
  | fuel + 1, Rule.alt a b, w, h => by
      simp only [derivesB, Bool.or_eq_true] at h
      rcases h with h | h
      · exact Derives.altL (derivesB_sound G fuel a w h)
      · exact Derives.altR (derivesB_sound G fuel b w h)
  | fuel + 1, Rule.rep a, w, h => by
      simp only [derivesB, Bool.or_eq_true, List.isEmpty_iff, List.any_eq_true,
        Bool.and_eq_true] at h
      rcases h with h | ⟨p, hp, ⟨_, ha⟩, hb⟩
      · subst h; exact Derives.repNil
      · rw [← splits_append hp]
        exact Derives.repCons (derivesB_sound G fuel a _ ha) (derivesB_sound G fuel _ _ hb)

/-! ### C1: the connection token -/

open RE in
/-- The language of the `connection` token, by shape. -/
theorem connection_lang (s : List Char) :
    Lex.connection.Lang s ↔
      (∃ n, 1 ≤ n ∧ s = '<' :: List.replicate n '-' ++ ['>']) ∨
      (∃ n, 1 ≤ n ∧ s = '<' :: List.replicate n '-') ∨
      (∃ n, 1 ≤ n ∧ s = List.replicate n '-' ++ ['>']) ∨
      (∃ n, 2 ≤ n ∧ s = List.replicate n '-') := by
  simp only [Lex.connection, Lex.prec, alts, seqs, lang_seq, lang_alt, lang_chr, lang_plus_chr]
  constructor
  · rintro (⟨u, v, rfl, rfl, u', v', rfl, ⟨n, hn, rfl⟩, rfl⟩ | ⟨u, v, rfl, rfl, n, hn, rfl⟩ |
      ⟨u, v, rfl, ⟨n, hn, rfl⟩, rfl⟩ | ⟨u, v, rfl, rfl, n, hn, rfl⟩)
    · exact Or.inl ⟨n, hn, by simp⟩
    · exact Or.inr (Or.inl ⟨n, hn, by simp⟩)
    · exact Or.inr (Or.inr (Or.inl ⟨n, hn, rfl⟩))
    · exact Or.inr (Or.inr (Or.inr ⟨n + 1, by omega, by simp [List.replicate_succ]⟩))
  · rintro (⟨n, hn, rfl⟩ | ⟨n, hn, rfl⟩ | ⟨n, hn, rfl⟩ | ⟨n, hn, rfl⟩)
    · exact Or.inl ⟨['<'], _, rfl, rfl, _, _, rfl, ⟨n, hn, rfl⟩, rfl⟩
    · exact Or.inr (Or.inl ⟨['<'], _, rfl, rfl, n, hn, rfl⟩)
    · exact Or.inr (Or.inr (Or.inl ⟨_, _, rfl, ⟨n, hn, rfl⟩, rfl⟩))
    · refine Or.inr (Or.inr (Or.inr ⟨['-'], List.replicate (n - 1) '-', ?_, rfl, n - 1, by omega, rfl⟩))
      obtain ⟨m, rfl⟩ : ∃ m, n = m + 1 := ⟨n - 1, by omega⟩
      simp [List.replicate_succ]

/-- C1: the `connection` token matches exactly `<` dashes `>`, `<` dashes,
dashes `>` (one or more dashes each) and runs of two or more dashes; so `--`,
`->`, `<-` and `<->` are connections and a single `-` is not. -/
theorem connection_matches :
    (∀ s : List Char, Lex.connection.rmatch s = true ↔
      (∃ n, 1 ≤ n ∧ s = '<' :: List.replicate n '-' ++ ['>']) ∨
      (∃ n, 1 ≤ n ∧ s = '<' :: List.replicate n '-') ∨
      (∃ n, 1 ≤ n ∧ s = List.replicate n '-' ++ ['>']) ∨
      (∃ n, 2 ≤ n ∧ s = List.replicate n '-')) ∧
    Lex.connection.rmatch ['-', '-'] = true ∧
    Lex.connection.rmatch ['-', '>'] = true ∧
    Lex.connection.rmatch ['<', '-'] = true ∧
    Lex.connection.rmatch ['<', '-', '>'] = true ∧
    Lex.connection.rmatch ['-'] = false := by
  refine ⟨fun s => ?_, by decide, by decide, by decide, by decide, by decide⟩
  rw [RE.rmatch_iff]
  exact connection_lang s

/-! ### C2: numbers need a white space follower -/

section
open RE
/-- A repetition grows with the repeated language. -/
theorem RE.lang_star_mono {a b : RE} (h : ∀ s, a.Lang s → b.Lang s) {s : List Char}
    (hs : (star a).Lang s) : (star b).Lang s := by
  obtain ⟨us, rfl, hus⟩ := hs
  exact ⟨us, rfl, fun u hu => h u (hus u hu)⟩

/-- A non-empty run of one class ends with a character of the class. -/
theorem RE.lang_plus_cls_last {p : Char → Bool} {s : List Char} (h : (plus (cls p)).Lang s) :
    ∃ q c, s = q ++ [c] ∧ p c = true := by
  rw [lang_plus_cls] at h
  obtain ⟨hne, hp⟩ := h
  refine ⟨s.dropLast, s.getLast hne, (List.dropLast_append_getLast hne).symm, ?_⟩
  exact hp _ (List.getLast_mem hne)

/-- No character of the identifier class is a white space character. -/
theorem identBaseChar_not_space (T : LetterTable) (c : Char) (h : identBaseChar T c = true) :
    isSpace c = false := by
  simp only [identBaseChar, Bool.or_eq_true, beq_iff_eq] at h
  rcases h with ((((((h | h) | rfl) | rfl) | rfl) | rfl) | rfl)
  · simp only [isLetter, Bool.or_eq_true, Bool.and_eq_true] at h
    rcases h with h | ⟨_, h⟩
    · simp only [isAsciiLetter, Bool.or_eq_true, Bool.and_eq_true, decide_eq_true_eq] at h
      simp only [isSpace, Bool.or_eq_false_iff, Bool.and_eq_false_iff, decide_eq_false_iff_not,
        beq_eq_false_iff_ne, ne_eq]
      omega
    · exact T.not_space c h
  · simp only [isDigit, Bool.and_eq_true, decide_eq_true_eq] at h
    simp only [isSpace, Bool.or_eq_false_iff, Bool.and_eq_false_iff, decide_eq_false_iff_not,
      beq_eq_false_iff_ne, ne_eq]
    omega
  all_goals decide

/-- The language of `integer`: optional sign, digits, white space. -/
theorem integer_lang (s : List Char) :
    Lex.integer.Lang s ↔ ∃ g d w, s = g ++ (d ++ w) ∧ (g = [] ∨ g = ['-'] ∨ g = ['+']) ∧
      (d ≠ [] ∧ ∀ c ∈ d, isDigit c = true) ∧ (w ≠ [] ∧ ∀ c ∈ w, isSpace c = true) := by
  simp only [Lex.integer, Lex.prec, seqs, lang_seq, lang_opt, lang_plus_cls, lang_cls,
    Bool.or_eq_true, beq_iff_eq]
  constructor
  · rintro ⟨g, v, rfl, hg, d, w, rfl, hd, hw⟩
    refine ⟨g, d, w, rfl, ?_, hd, hw⟩
    rcases hg with ⟨c, rfl, rfl | rfl⟩ | rfl
    · exact Or.inr (Or.inl rfl)
    · exact Or.inr (Or.inr rfl)
    · exact Or.inl rfl
  · rintro ⟨g, d, w, rfl, hg, hd, hw⟩
    refine ⟨g, _, rfl, ?_, d, w, rfl, hd, hw⟩
    rcases hg with rfl | rfl | rfl
    · exact Or.inr rfl
    · exact Or.inl ⟨'-', rfl, Or.inl rfl⟩
    · exact Or.inl ⟨'+', rfl, Or.inr rfl⟩

/-- An `integer` match ends with a white space character. -/
theorem integer_last {s : List Char} (h : Lex.integer.Lang s) :
    ∃ q c, s = q ++ [c] ∧ isSpace c = true := by
  simp only [Lex.integer, Lex.prec, seqs, lang_seq] at h
  obtain ⟨g, v, rfl, _, d, w, rfl, _, hw⟩ := h
  obtain ⟨q, c, rfl, hc⟩ := lang_plus_cls_last hw
  exact ⟨g ++ (d ++ q), c, by simp, hc⟩

/-- A `float` match ends with a white space character. -/
theorem float_last {s : List Char} (h : Lex.float.Lang s) :
    ∃ q c, s = q ++ [c] ∧ isSpace c = true := by
  simp only [Lex.float, Lex.prec, seqs, lang_seq] at h
  obtain ⟨g, v, rfl, _, d, w, rfl, _, f, x, rfl, _, hw⟩ := h
  obtain ⟨q, c, rfl, hc⟩ := lang_plus_cls_last hw
  exact ⟨g ++ (d ++ (f ++ q)), c, by simp, hc⟩

/-- A non-empty run of identifier characters is an `_ident_base` match. -/
theorem ident_base_of_chars (T : LetterTable) {s : List Char} (hne : s ≠ [])
    (h : ∀ c ∈ s, identBaseChar T c = true) : (Lex._ident_base T).Lang s := by
  have h1 : (plus (cls (identBaseChar T))).Lang s := (lang_plus_cls _ _).2 ⟨hne, h⟩
  obtain ⟨u, v, rfl, hu, hv⟩ := h1
  refine ⟨u, v, rfl, Or.inl hu, ?_⟩
  exact lang_star_mono (b := alt (cls (identBaseChar T)) (lit [backslash, '#']))
    (fun _ hx => Or.inl hx) hv

/-- Digits are identifier characters. -/
theorem digit_identBaseChar (T : LetterTable) {c : Char} (h : isDigit c = true) :
    identBaseChar T c = true := by
  simp [identBaseChar, h]

/-- C2: a non-empty digit run followed by white space is an `integer`; followed
directly by identifier characters it is neither `integer` nor `float` and is,
in full, one `_ident_base` token; every `integer` or `float` match ends with a
white space character. -/
theorem numeric_follow_set (T : LetterTable) :
    (∀ d w : List Char, d ≠ [] → (∀ c ∈ d, isDigit c = true) →
        w ≠ [] → (∀ c ∈ w, isSpace c = true) → Lex.integer.rmatch (d ++ w) = true) ∧
    (∀ d w : List Char, d ≠ [] → (∀ c ∈ d, isDigit c = true) →
        w ≠ [] → (∀ c ∈ w, identBaseChar T c = true) →
        Lex.integer.rmatch (d ++ w) = false ∧ Lex.float.rmatch (d ++ w) = false ∧
        (Lex._ident_base T).rmatch (d ++ w) = true ∧
        Derives (rules T) (Rule.sym NT._ident_base) [⟨"_ident_base", d ++ w⟩]) ∧
    (∀ s : List Char, Lex.integer.rmatch s = true ∨ Lex.float.rmatch s = true →
        ∃ q c, s = q ++ [c] ∧ isSpace c = true) := by
  have last : ∀ s : List Char, Lex.integer.rmatch s = true ∨ Lex.float.rmatch s = true →
      ∃ q c, s = q ++ [c] ∧ isSpace c = true := by
    intro s h
    rcases h with h | h
    · exact integer_last ((rmatch_iff _ _).1 h)
    · exact float_last ((rmatch_iff _ _).1 h)
  refine ⟨?_, ?_, last⟩
  · intro d w hd hdig hw hsp
    rw [rmatch_iff, integer_lang]
    exact ⟨[], d, w, rfl, Or.inl rfl, ⟨hd, hdig⟩, ⟨hw, hsp⟩⟩
  · intro d w hd hdig hw hid
    have hlast : ∀ q c, d ++ w = q ++ [c] → isSpace c = false := by
      intro q c e
      have hc : c ∈ w := by
        have hm : c ∈ (d ++ w).getLast? := by rw [e]; simp
        rw [List.getLast?_append_of_ne_nil _ hw] at hm
        exact List.mem_of_mem_getLast? hm
      exact identBaseChar_not_space T c (hid c hc)
    have hno : ∀ r : RE, (r = Lex.integer ∨ r = Lex.float) → r.rmatch (d ++ w) = false := by
      intro r hr
      cases hm : r.rmatch (d ++ w) with
      | false => rfl
      | true =>
        have hex : ∃ q c, d ++ w = q ++ [c] ∧ isSpace c = true := by
          rcases hr with rfl | rfl
          · exact last _ (Or.inl hm)
          · exact last _ (Or.inr hm)
        obtain ⟨q, c, e, hc⟩ := hex
        rw [hlast q c e] at hc
        exact absurd hc (by simp)
    have hib : (Lex._ident_base T).rmatch (d ++ w) = true := by
      rw [rmatch_iff]
      apply ident_base_of_chars T (by simp [hd])
      intro c hc
      rcases List.mem_append.1 hc with h | h
      · exact digit_identBaseChar T (hdig c h)
      · exact hid c h
    exact ⟨hno _ (Or.inl rfl), hno _ (Or.inr rfl), hib, Derives.sym (Derives.tok hib)⟩

/-- Instance of C2 at `123 ` and `123abc`. -/
theorem numeric_follow_set_witness :
    Lex.integer.rmatch ['1', '2', '3', ' '] = true ∧
    (Lex.integer.rmatch ['1', '2', '3', 'a', 'b', 'c'] = false ∧
      Lex.float.rmatch ['1', '2', '3', 'a', 'b', 'c'] = false ∧
      (Lex._ident_base asciiLetters).rmatch ['1', '2', '3', 'a', 'b', 'c'] = true ∧
      Derives (rules asciiLetters) (Rule.sym NT._ident_base)
        [⟨"_ident_base", ['1', '2', '3', 'a', 'b', 'c']⟩]) ∧
    (∃ q c, ['1', '2', '3', ' '] = q ++ [c] ∧ isSpace c = true) :=
  ⟨(numeric_follow_set asciiLetters).1 ['1', '2', '3'] [' '] (by decide) (by decide)
      (by decide) (by decide),
   (numeric_follow_set asciiLetters).2.1 ['1', '2', '3'] ['a', 'b', 'c'] (by decide) (by decide)
      (by decide) (by decide),
   (numeric_follow_set asciiLetters).2.2 ['1', '2', '3', ' '] (Or.inl (by decide))⟩
end

/-! ### C3: matching braces -/

/-- Opening braces add up over concatenation. -/
theorem opens_append (u v : List Tok) : opens (u ++ v) = opens u + opens v := by
  simp [opens, List.countP_append]

/-- Closing braces add up over concatenation. -/
theorem closes_append (u v : List Tok) : closes (u ++ v) = closes u + closes v := by
  simp [closes, List.countP_append]

/-- Balance stated over the prefixes `take k`. -/
theorem balanced_iff_take (w : List Tok) :
    Balanced w ↔ opens w = closes w ∧ ∀ k, closes (w.take k) ≤ opens (w.take k) := by
  constructor
  · rintro ⟨h1, h2⟩
    exact ⟨h1, fun k => h2 _ (List.take_prefix k w)⟩
  · rintro ⟨h1, h2⟩
    refine ⟨h1, fun p hp => ?_⟩
    rw [List.prefix_iff_eq_take] at hp
    rw [hp]
    exact h2 _

/-- The empty sequence is balanced. -/
theorem balanced_nil : Balanced [] := by
  rw [balanced_iff_take]; simp [opens, closes]

/-- Balanced sequences concatenate to a balanced sequence. -/
theorem balanced_append {u v : List Tok} (hu : Balanced u) (hv : Balanced v) :
    Balanced (u ++ v) := by
  rw [balanced_iff_take] at *
  refine ⟨by rw [opens_append, closes_append, hu.1, hv.1], fun k => ?_⟩
  rw [List.take_append_eq_append_take, opens_append, closes_append]
  have h1 := hu.2 k
  have h2 := hv.2 (k - u.length)
  omega

/-- A concatenation of balanced pieces is balanced. -/
theorem balanced_flatten : ∀ us : List (List Tok), (∀ u ∈ us, Balanced u) → Balanced us.flatten
  | [], _ => balanced_nil
  | u :: vs, h => by
      rw [List.flatten_cons]
      exact balanced_append (h u (List.mem_cons_self _ _))
        (balanced_flatten vs (fun x hx => h x (List.mem_cons_of_mem _ hx)))

/-- One token that is no brace is balanced. -/
theorem balanced_single {t : Tok} (ho : isOpen t = false) (hc : isClose t = false) :
    Balanced [t] := by
  rw [balanced_iff_take]
  refine ⟨by simp [opens, closes, ho, hc], fun k => ?_⟩
  cases k with
  | zero => simp [opens, closes]
  | succ m => simp [opens, closes, ho, hc]

/-- A balanced sequence between an opening and a closing brace is balanced. -/
theorem balanced_wrap {a b : Tok} {u : List Tok} (ha : a.kind = "\x7b") (hb : b.kind = "\x7d")
    (hu : Balanced u) : Balanced ([a] ++ (u ++ [b])) := by
  have hao : isOpen a = true := by simp [isOpen, ha]
  have hac : isClose a = false := by simp [isClose, ha]
  have hbo : isOpen b = false := by simp [isOpen, hb]
  have hbc : isClose b = true := by simp [isClose, hb]
  rw [balanced_iff_take] at *
  have oa : opens [a] = 1 := by simp [opens, hao]
  have ca : closes [a] = 0 := by simp [closes, hac]
  have ob : opens [b] = 0 := by simp [opens, hbo]
  have cb : closes [b] = 1 := by simp [closes, hbc]
  refine ⟨?_, fun k => ?_⟩
  · rw [opens_append, closes_append, opens_append, closes_append, oa, ca, ob, cb, hu.1]
    omega
  · cases k with
    | zero => simp [opens, closes]
    | succ m =>
      have e : List.take (m + 1) ([a] ++ (u ++ [b])) = [a] ++ (u.take m ++ [b].take (m - u.length)) := by
        simp [List.take_append_eq_append_take]
      rw [e, opens_append, closes_append, opens_append, closes_append, oa, ca]
      have h1 := hu.2 m
      have h2 : closes ([b].take (m - u.length)) ≤ 1 := by
        cases (m - u.length) with
        | zero => simp [closes]
        | succ j => simp [cb]
      omega

/-- A rule expression without brace terminals keeps balance. -/
theorem den_balanced_of_braceFree :
    ∀ (e : Rule) (w : List Tok), braceFree e = true → Den (fun _ w => Balanced w) e w → Balanced w
  | Rule.blank, _, _, hd => by cases hd; exact balanced_nil
  | Rule.tok k r, _, hf, ⟨s, hw, _⟩ => by
      subst hw
      simp only [braceFree, Bool.and_eq_true, bne_iff_ne, ne_eq] at hf
      exact balanced_single (by simp [isOpen, hf.1]) (by simp [isClose, hf.2])
  | Rule.sym _, _, _, hd => hd
  | Rule.cat a b, _, hf, ⟨u, v, hw, ha, hb⟩ => by
      subst hw
      simp only [braceFree, Bool.and_eq_true] at hf
      exact balanced_append (den_balanced_of_braceFree a u hf.1 ha)
        (den_balanced_of_braceFree b v hf.2 hb)
  | Rule.alt a b, w, hf, hd => by
      simp only [braceFree, Bool.and_eq_true] at hf
      rcases hd with ha | hb
      · exact den_balanced_of_braceFree a w hf.1 ha
      · exact den_balanced_of_braceFree b w hf.2 hb
  | Rule.rep a, _, hf, ⟨us, hw, hus⟩ => by
      subst hw
      simp only [braceFree] at hf
      exact balanced_flatten us (fun u hu => den_balanced_of_braceFree a u hf (hus u hu))

/-- The rule `block` keeps balance. -/
theorem block_balanced (T : LetterTable) (w : List Tok)
    (h : Den (fun _ w => Balanced w) (rules T NT.block) w) : Balanced w := by
  simp only [rules, prec, seq, rep, token, den_cat, den_tok, den_rep, den_sym] at h
  obtain ⟨u, v, rfl, ⟨s1, rfl, _⟩, x, y, rfl, ⟨us, rfl, hus⟩, s2, rfl, _⟩ := h
  exact balanced_wrap rfl rfl (balanced_flatten us hus)

/-- Every rule keeps balance. -/
theorem rules_balanced (T : LetterTable) :
    ∀ (n : NT) (w : List Tok), Den (fun _ w => Balanced w) (rules T n) w → Balanced w := by
  intro n w h
  cases n
  case block => exact block_balanced T w h
  all_goals exact den_balanced_of_braceFree _ w (by rfl) h

/-- Every sequence derived from a rule name is balanced. -/
theorem derives_balanced (T : LetterTable) {n : NT} {w : List Tok}
    (h : Derives (rules T) (Rule.sym n) w) : Balanced w :=
  derives_ind (S := fun _ w => Balanced w) (rules_balanced T) h

/-- The opening braces of a sequence, counted on its kinds. -/
theorem opens_eq_kinds (w : List Tok) :
    opens w = (w.map Tok.kind).countP (fun k => k == "\x7b") := by
  rw [List.countP_map]; rfl

/-- The closing braces of a sequence, counted on its kinds. -/
theorem closes_eq_kinds (w : List Tok) :
    closes w = (w.map Tok.kind).countP (fun k => k == "\x7d") := by
  rw [List.countP_map]; rfl

/-- C3: every token sequence derived from a rule of the grammar (from `block`,
`declaration` and `source_file` in particular) has as many closing as opening
brace tokens and no prefix with more closing than opening ones; so the tokens
of `a: {b` (identifier, colon, opening brace, identifier) are derived by no
rule. -/
theorem block_braces_match (T : LetterTable) :
    (∀ (n : NT) (w : List Tok), Derives (rules T) (Rule.sym n) w → Balanced w) ∧
    (∀ w : List Tok, w.map Tok.kind = ["_ident_base", ":", "\x7b", "_ident_base"] →
      ∀ n : NT, ¬ Derives (rules T) (Rule.sym n) w) := by
  refine ⟨fun n w h => derives_balanced T h, ?_⟩
  intro w hk n h
  have hb := (derives_balanced T h).1
  rw [opens_eq_kinds, closes_eq_kinds, hk] at hb
  revert hb
  decide

set_option maxRecDepth 100000 in
/-- Instance of C3: the block `{d}` is derived and balanced, and the tokens of
`a: {b` are not derived from `source_file`. -/
theorem block_braces_match_witness :
    Balanced [⟨"\x7b", ['\x7b']⟩, ⟨"_ident_base", ['d']⟩, ⟨"\x7d", ['\x7d']⟩] ∧
    ¬ Derives (rules asciiLetters) (Rule.sym NT.source_file)
      [⟨"_ident_base", ['a']⟩, ⟨":", [':']⟩, ⟨"\x7b", ['\x7b']⟩, ⟨"_ident_base", ['b']⟩] :=
  ⟨(block_braces_match asciiLetters).1 NT.block _ (derivesB_sound _ 40 _ _ (by decide)),
   (block_braces_match asciiLetters).2 _ (by decide) NT.source_file⟩

/-! ### C5: the shapes of `arguments` -/

/-- Pieces that each have a shape come from a list of shape parameters. -/
theorem exists_map_of_forall {α β : Type} {f : β → α} {Q : β → Prop} :
    ∀ us : List α, (∀ u ∈ us, ∃ p, u = f p ∧ Q p) → ∃ ps : List β, us = ps.map f ∧ ∀ p ∈ ps, Q p
  | [], _ => ⟨[], rfl, by simp⟩
  | u :: vs, h => by
      obtain ⟨p, hp, hq⟩ := h u (List.mem_cons_self _ _)
      obtain ⟨ps, hps, hqs⟩ := exists_map_of_forall vs (fun x hx => h x (List.mem_cons_of_mem _ hx))
      refine ⟨p :: ps, by simp [hp, hps], ?_⟩
      intro x hx
      rcases List.mem_cons.1 hx with rfl | hx
      · exact hq
      · exact hqs x hx

/-- A terminal derives exactly the single tokens it matches. -/
theorem derives_tok_iff {G : NT → Rule} {k : String} {r : RE} {w : List Tok} :
    Derives G (Rule.tok k r) w ↔ ∃ s, w = [⟨k, s⟩] ∧ r.rmatch s = true :=
  derives_iff_den

/-- A string literal denotes its one token. -/
theorem den_str (S : NT → List Tok → Prop) (k : String) (w : List Tok) :
    Den S (str k) w ↔ w = [⟨k, k.toList⟩] := by
  simp only [str, den_tok, RE.rmatch_iff, RE.lang_lit]
  constructor
  · rintro ⟨s, rfl, rfl⟩; rfl
  · rintro rfl; exact ⟨_, rfl, rfl⟩


/-- A repetition of shaped pieces, by the list of shape parameters. -/
theorem den_rep_shape {S : NT → List Tok → Prop} {β : Type} {a : Rule} {f : β → List Tok}
    {Q : β → Prop} (h : ∀ u, Den S a u ↔ ∃ p, Q p ∧ u = f p) (w : List Tok) :
    Den S (Rule.rep a) w ↔ ∃ ps : List β, (∀ p ∈ ps, Q p) ∧ w = (ps.map f).flatten := by
  rw [den_rep]
  constructor
  · rintro ⟨us, rfl, hus⟩
    obtain ⟨ps, rfl, hps⟩ := exists_map_of_forall (f := f) (Q := Q) us
      (fun u hu => by
        obtain ⟨p, hq, hp⟩ := (h u).1 (hus u hu)
        exact ⟨p, hp, hq⟩)
    exact ⟨ps, hps, rfl⟩
  · rintro ⟨ps, hps, rfl⟩
    refine ⟨ps.map f, rfl, ?_⟩
    intro u hu
    obtain ⟨p, hp, rfl⟩ := List.mem_map.1 hu
    exact (h _).2 ⟨p, hps p hp, rfl⟩

/-- A non-empty repetition of shaped pieces, by the list of shape parameters. -/
theorem den_repeat1_shape {S : NT → List Tok → Prop} {β : Type} {a : Rule} {f : β → List Tok}
    {Q : β → Prop} (h : ∀ u, Den S a u ↔ ∃ p, Q p ∧ u = f p) (w : List Tok) :
    Den S (repeat1 a) w ↔
      ∃ ps : List β, ps ≠ [] ∧ (∀ p ∈ ps, Q p) ∧ w = (ps.map f).flatten := by
  rw [repeat1, den_cat]
  constructor
  · rintro ⟨u, v, rfl, hu, hv⟩
    obtain ⟨p, hq, rfl⟩ := (h u).1 hu
    obtain ⟨ps, hps, rfl⟩ := (den_rep_shape h v).1 hv
    refine ⟨p :: ps, by simp, ?_, by simp⟩
    intro x hx
    rcases List.mem_cons.1 hx with rfl | hx
    · exact hq
    · exact hps x hx
  · rintro ⟨ps, hne, hps, rfl⟩
    cases ps with
    | nil => exact absurd rfl hne
    | cons p qs =>
      refine ⟨f p, (qs.map f).flatten, by simp, (h _).2 ⟨p, hps p (List.mem_cons_self _ _), rfl⟩, ?_⟩
      exact (den_rep_shape h _).2 ⟨qs, fun x hx => hps x (List.mem_cons_of_mem _ hx), rfl⟩

section
variable (T : LetterTable)


/-- The rule `argument_name` derives its single tokens. -/
theorem den_argument_name (w : List Tok) :
    Den (fun n w => Derives (rules T) (rules T n) w) (Rule.sym NT.argument_name) w ↔
      ∃ t, isNameTok t = true ∧ w = [t] := by
  rw [den_sym]
  simp only [rules, token, derives_tok_iff]
  constructor
  · rintro ⟨s, rfl, hs⟩
    exact ⟨_, by simp [isNameTok, hs], rfl⟩
  · rintro ⟨t, ht, rfl⟩
    simp only [isNameTok, Bool.and_eq_true, beq_iff_eq] at ht
    refine ⟨t.text, ?_, ht.2⟩
    cases t; simp at ht; simp [ht.1]

/-- The rule `argument_type` derives its single tokens. -/
theorem den_argument_type (w : List Tok) :
    Den (fun n w => Derives (rules T) (rules T n) w) (Rule.sym NT.argument_type) w ↔
      ∃ t, isTypeTok t = true ∧ w = [t] := by
  rw [den_sym]
  simp only [rules, token, derives_tok_iff]
  constructor
  · rintro ⟨s, rfl, hs⟩
    exact ⟨_, by simp [isTypeTok, hs], rfl⟩
  · rintro ⟨t, ht, rfl⟩
    simp only [isTypeTok, Bool.and_eq_true, beq_iff_eq] at ht
    refine ⟨t.text, ?_, ht.2⟩
    cases t; simp at ht; simp [ht.1]

/-- The literal `,` denotes the comma token. -/
theorem den_comma (S : NT → List Tok → Prop) (w : List Tok) :
    Den S (str ",") w ↔ w = [commaTok] := den_str S "," w

/-- First alternative of `arguments`. -/
theorem den_name_type (w : List Tok) :
    Den (fun n w => Derives (rules T) (rules T n) w)
      (Rule.cat (Rule.sym NT.argument_name) (Rule.sym NT.argument_type)) w ↔ ArgsA w := by
  simp only [den_cat, den_argument_name, den_argument_type, ArgsA]
  constructor
  · rintro ⟨u, v, rfl, ⟨n, hn, rfl⟩, t, ht, rfl⟩
    exact ⟨n, t, hn, ht, rfl⟩
  · rintro ⟨n, t, hn, ht, rfl⟩
    exact ⟨[n], [t], rfl, ⟨n, hn, rfl⟩, t, ht, rfl⟩

/-- The repeated part of the second alternative of `arguments`. -/
theorem den_comma_name_type (w : List Tok) :
    Den (fun n w => Derives (rules T) (rules T n) w)
      (Rule.cat (str ",") (Rule.cat (Rule.sym NT.argument_name) (Rule.sym NT.argument_type))) w ↔
      ∃ p : Tok × Tok, (isNameTok p.1 = true ∧ isTypeTok p.2 = true) ∧ w = [commaTok, p.1, p.2] := by
  simp only [den_cat, den_argument_name, den_argument_type, den_comma]
  constructor
  · rintro ⟨c, v, rfl, rfl, u, v, rfl, ⟨n, hn, rfl⟩, t, ht, rfl⟩
    exact ⟨(n, t), ⟨hn, ht⟩, rfl⟩
  · rintro ⟨⟨n, t⟩, ⟨hn, ht⟩, rfl⟩
    exact ⟨[commaTok], [n, t], rfl, rfl, [n], [t], rfl, ⟨n, hn, rfl⟩, t, ht, rfl⟩

/-- Second alternative of `arguments`. -/
theorem den_pairs (w : List Tok) :
    Den (fun n w => Derives (rules T) (rules T n) w)
      (Rule.cat (Rule.sym NT.argument_name) (Rule.cat (Rule.sym NT.argument_type)
        (repeat1 (Rule.cat (str ",")
          (Rule.cat (Rule.sym NT.argument_name) (Rule.sym NT.argument_type)))))) w ↔ ArgsB w := by
  rw [den_cat]
  simp only [den_cat, den_argument_name, den_argument_type,
    den_repeat1_shape (den_comma_name_type T), ArgsB]
  constructor
  · rintro ⟨u, v, rfl, ⟨n, hn, rfl⟩, x, y, rfl, ⟨t, ht, rfl⟩, ps, hne, hps, rfl⟩
    exact ⟨n, t, ps, hn, ht, hne, hps, rfl⟩
  · rintro ⟨n, t, ps, hn, ht, hne, hps, rfl⟩
    exact ⟨[n], _, rfl, ⟨n, hn, rfl⟩, [t], _, rfl, ⟨t, ht, rfl⟩, ps, hne, hps, rfl⟩

/-- The repeated part inside a bulk-typed group. -/
theorem den_comma_name (w : List Tok) :
    Den (fun n w => Derives (rules T) (rules T n) w)
      (Rule.cat (str ",") (Rule.sym NT.argument_name)) w ↔
      ∃ n : Tok, isNameTok n = true ∧ w = [commaTok, n] := by
  simp only [den_cat, den_argument_name, den_comma]
  constructor
  · rintro ⟨c, v, rfl, rfl, n, hn, rfl⟩
    exact ⟨n, hn, rfl⟩
  · rintro ⟨n, hn, rfl⟩
    exact ⟨[commaTok], [n], rfl, rfl, n, hn, rfl⟩

/-- One bulk-typed group of the third alternative of `arguments`. -/
theorem den_group (w : List Tok) :
    Den (fun n w => Derives (rules T) (rules T n) w)
      (Rule.cat (Rule.sym NT.argument_name)
        (Rule.cat (repeat1 (Rule.cat (str ",") (Rule.sym NT.argument_name)))
          (Rule.cat (Rule.sym NT.argument_type) (optional (str ","))))) w ↔
      ∃ g : ArgGroup, g.ok ∧ w = g.render := by
  rw [den_cat]
  simp only [den_cat, den_argument_name, den_argument_type, den_optional, den_comma,
    den_repeat1_shape (den_comma_name T)]
  constructor
  · rintro ⟨u, v, rfl, ⟨n, hn, rfl⟩, x, y, rfl, ⟨ns, hne, hns, rfl⟩, z, c, rfl, ⟨t, ht, rfl⟩, hc⟩
    rcases hc with rfl | rfl
    · exact ⟨⟨n, ns, t, true⟩, ⟨hn, hne, hns, ht⟩, by simp [ArgGroup.render]⟩
    · exact ⟨⟨n, ns, t, false⟩, ⟨hn, hne, hns, ht⟩, by simp [ArgGroup.render]⟩
  · rintro ⟨⟨n, ns, t, c⟩, ⟨hn, hne, hns, ht⟩, rfl⟩
    refine ⟨[n], _, rfl, ⟨n, hn, rfl⟩, _, _, rfl, ⟨ns, hne, hns, rfl⟩, [t], _, rfl, ⟨t, ht, rfl⟩, ?_⟩
    cases c
    · right; rfl
    · left; rfl

/-- The sequences derived from `arguments`, by shape. -/
theorem arguments_iff (w : List Tok) :
    Derives (rules T) (Rule.sym NT.arguments) w ↔ ArgsA w ∨ ArgsB w ∨ ArgsC w := by
  rw [derives_sym_iff, derives_iff_den]
  have e : rules T NT.arguments = Rule.alt
      (Rule.cat (Rule.sym NT.argument_name) (Rule.sym NT.argument_type))
      (Rule.alt
        (Rule.cat (Rule.sym NT.argument_name) (Rule.cat (Rule.sym NT.argument_type)
          (repeat1 (Rule.cat (str ",")
            (Rule.cat (Rule.sym NT.argument_name) (Rule.sym NT.argument_type))))))
        (repeat1 (Rule.cat (Rule.sym NT.argument_name)
          (Rule.cat (repeat1 (Rule.cat (str ",") (Rule.sym NT.argument_name)))
            (Rule.cat (Rule.sym NT.argument_type) (optional (str ","))))))) := rfl
  rw [e, den_alt, den_alt, den_name_type, den_pairs, den_repeat1_shape (den_group T)]
  rfl

end

/-- A type token is no name token. -/
theorem type_not_name {t : Tok} (h : isTypeTok t = true) : isNameTok t = false := by
  simp only [isTypeTok, Bool.and_eq_true, beq_iff_eq] at h
  simp [isNameTok, h.1]

/-- A name token is no type token. -/
theorem name_not_type {t : Tok} (h : isNameTok t = true) : isTypeTok t = false := by
  simp only [isNameTok, Bool.and_eq_true, beq_iff_eq] at h
  simp [isTypeTok, h.1]

/-- Names and types among the further names of a group. -/
theorem count_names_more : ∀ ns : List Tok, (∀ n ∈ ns, isNameTok n = true) →
    ((ns.map (fun n => [commaTok, n])).flatten.countP isNameTok = ns.length ∧
     (ns.map (fun n => [commaTok, n])).flatten.countP isTypeTok = 0)
  | [], _ => by simp
  | n :: ns, h => by
      have hn := h n (List.mem_cons_self _ _)
      have ih := count_names_more ns (fun x hx => h x (List.mem_cons_of_mem _ hx))
      have c1 : isNameTok commaTok = false := by decide
      have c2 : isTypeTok commaTok = false := by decide
      simp only [List.map_cons, List.flatten_cons, List.cons_append, List.nil_append,
        List.countP_cons, c1, c2, hn, name_not_type hn, ih.1, ih.2, List.length_cons]
      simp

/-- A group holds two or more names and exactly one type. -/
theorem group_counts (g : ArgGroup) (h : g.ok) :
    2 ≤ g.render.countP isNameTok ∧ g.render.countP isTypeTok = 1 := by
  obtain ⟨h1, h2, h3, h4⟩ := h
  have hm := count_names_more g.more h3
  have c1 : isNameTok commaTok = false := by decide
  have c2 : isTypeTok commaTok = false := by decide
  have hlen : 1 ≤ g.more.length := by
    cases hg : g.more with
    | nil => exact absurd hg h2
    | cons x xs => simp
  have tail : ∀ b : Bool, (if b then [commaTok] else []).countP isNameTok = 0 ∧
      (if b then [commaTok] else []).countP isTypeTok = 0 := by
    intro b; cases b <;> simp [c1, c2]
  simp only [ArgGroup.render, List.countP_cons, List.countP_append, h1, name_not_type h1, h4,
    type_not_name h4, hm.1, hm.2, (tail g.comma).1, (tail g.comma).2]
  constructor
  · simp; omega
  · simp

/-- Each of the three shapes as specified ends with a type token. -/
theorem spec_shapes_end_in_type {w : List Tok} (h : ArgsA w ∨ ArgsB w ∨ ArgsCSpec w) :
    ∃ p t, w = p ++ [t] ∧ isTypeTok t = true := by
  rcases h with ⟨n, t, _, ht, rfl⟩ | ⟨n, t, ps, _, _, hne, hps, rfl⟩ | ⟨gs, l, _, hl, hc, rfl⟩
  · exact ⟨[n], t, rfl, ht⟩
  · rcases List.eq_nil_or_concat ps with rfl | ⟨qs, q, rfl⟩
    · exact absurd rfl hne
    · refine ⟨n :: t :: ((qs.map (fun p => [commaTok, p.1, p.2])).flatten ++ [commaTok, q.1]),
        q.2, by simp, ?_⟩
      exact (hps q (by simp)).2
  · refine ⟨(gs.map ArgGroup.render).flatten ++
      (l.first :: (l.more.map (fun n => [commaTok, n])).flatten), l.type, ?_, hl.2.2.2⟩
    simp [ArgGroup.render, hc]

/-- C5 (amended): `arguments` derives exactly the sequences of shape (a) one
name and one type, (b) two or more name-type pairs separated by commas, or (c)
one or more groups, each a comma-separated run of two or more names, one shared
type and an optional comma after the type; each group has at least two names
and exactly one type, and `arg1, arg2 type1, arg3, arg4 type2` is derived. -/
theorem arguments_shapes (T : LetterTable) :
    (∀ w : List Tok,
      Derives (rules T) (Rule.sym NT.arguments) w ↔ ArgsA w ∨ ArgsB w ∨ ArgsC w) ∧
    (∀ g : ArgGroup, g.ok → 2 ≤ g.render.countP isNameTok ∧ g.render.countP isTypeTok = 1) ∧
    Derives (rules T) (Rule.sym NT.arguments)
      [⟨"argument_name", "arg1".toList⟩, commaTok, ⟨"argument_name", "arg2".toList⟩,
       ⟨"argument_type", "type1".toList⟩, commaTok, ⟨"argument_name", "arg3".toList⟩, commaTok,
       ⟨"argument_name", "arg4".toList⟩, ⟨"argument_type", "type2".toList⟩] := by
  refine ⟨arguments_iff T, group_counts, ?_⟩
  rw [arguments_iff]
  refine Or.inr (Or.inr ⟨[⟨⟨"argument_name", "arg1".toList⟩, [⟨"argument_name", "arg2".toList⟩],
      ⟨"argument_type", "type1".toList⟩, true⟩,
    ⟨⟨"argument_name", "arg3".toList⟩, [⟨"argument_name", "arg4".toList⟩],
      ⟨"argument_type", "type2".toList⟩, false⟩], by simp, ?_, rfl⟩)
  intro g hg
  simp only [List.mem_cons, List.mem_singleton, List.not_mem_nil, or_false] at hg
  rcases hg with rfl | rfl
  · exact ⟨by decide, by simp, by decide, by decide⟩
  · exact ⟨by decide, by simp, by decide, by decide⟩

/-- Instance of the group count of C5 at the group `a, b int`. -/
theorem arguments_shapes_witness :
    2 ≤ (ArgGroup.render ⟨⟨"argument_name", ['a']⟩, [⟨"argument_name", ['b']⟩],
        ⟨"argument_type", ['i', 'n', 't']⟩, false⟩).countP isNameTok ∧
    (ArgGroup.render ⟨⟨"argument_name", ['a']⟩, [⟨"argument_name", ['b']⟩],
        ⟨"argument_type", ['i', 'n', 't']⟩, false⟩).countP isTypeTok = 1 :=
  (arguments_shapes asciiLetters).2.1 _ ⟨by decide, by simp, by decide, by decide⟩

set_option maxRecDepth 100000 in
/-- C5 (counterexample): `a, b int,` with its trailing comma is derived from
`arguments` and has none of the three shapes as specified, which all end with a
type. -/
theorem arguments_trailing_comma :
    Derives (rules asciiLetters) (Rule.sym NT.arguments)
      [⟨"argument_name", ['a']⟩, commaTok, ⟨"argument_name", ['b']⟩,
       ⟨"argument_type", ['i', 'n', 't']⟩, commaTok] ∧
    ¬ (ArgsA [⟨"argument_name", ['a']⟩, commaTok, ⟨"argument_name", ['b']⟩,
         ⟨"argument_type", ['i', 'n', 't']⟩, commaTok] ∨
       ArgsB [⟨"argument_name", ['a']⟩, commaTok, ⟨"argument_name", ['b']⟩,
         ⟨"argument_type", ['i', 'n', 't']⟩, commaTok] ∨
       ArgsCSpec [⟨"argument_name", ['a']⟩, commaTok, ⟨"argument_name", ['b']⟩,
         ⟨"argument_type", ['i', 'n', 't']⟩, commaTok]) := by
  refine ⟨derivesB_sound _ 40 _ _ (by decide), fun h => ?_⟩
  obtain ⟨p, t, e, ht⟩ := spec_shapes_end_in_type h
  have hl := congrArg List.getLast? e
  simp only [List.getLast?_append, List.getLast?_singleton] at hl
  simp at hl
  subst hl
  revert ht
  decide

/-! ### C4: method declarations and their return lists -/

/-- A rule expression over `N` and `K` denotes sequences of kinds in `K`. -/
theorem den_kinds {N : NT → Bool} {K : String → Bool} :
    ∀ (e : Rule) (w : List Tok), kindsIn N K e = true →
      Den (fun n w => N n = true → ∀ t ∈ w, K t.kind = true) e w → ∀ t ∈ w, K t.kind = true
  | Rule.blank, _, _, hd => by cases hd; simp
  | Rule.tok k r, _, hk, ⟨s, hw, _⟩ => by
      subst hw
      intro t ht
      simp only [List.mem_singleton] at ht
      subst ht
      exact hk
  | Rule.sym _, _, hk, hd => hd hk
  | Rule.cat a b, _, hk, ⟨u, v, hw, ha, hb⟩ => by
      subst hw
      simp only [kindsIn, Bool.and_eq_true] at hk
      intro t ht
      rcases List.mem_append.1 ht with h | h
      · exact den_kinds a u hk.1 ha t h
      · exact den_kinds b v hk.2 hb t h
  | Rule.alt a b, w, hk, hd => by
      simp only [kindsIn, Bool.and_eq_true] at hk
      rcases hd with ha | hb
      · exact den_kinds a w hk.1 ha
      · exact den_kinds b w hk.2 hb
  | Rule.rep a, _, hk, ⟨us, hw, hus⟩ => by
      subst hw
      simp only [kindsIn] at hk
      intro t ht
      obtain ⟨u, hu, htu⟩ := List.mem_flatten.1 ht
      exact den_kinds a u hk (hus u hu) t htu

/-- The tokens derived inside a set of rules closed under reference have the
kinds of the terminals of these rules. -/
theorem derives_kinds {G : NT → Rule} {N : NT → Bool} {K : String → Bool}
    (hG : ∀ n, N n = true → kindsIn N K (G n) = true) {n : NT} {w : List Tok}
    (h : Derives G (Rule.sym n) w) (hn : N n = true) : ∀ t ∈ w, K t.kind = true := by
  have := derives_ind (S := fun n w => N n = true → ∀ t ∈ w, K t.kind = true)
    (fun n w hd hN => den_kinds (G n) w (hG n hN) hd) h
  exact this hn

/-- The kinds of the tokens of an identifier. -/
theorem identifier_kinds (T : LetterTable) {w : List Tok}
    (h : Derives (rules T) (Rule.sym NT.identifier) w) : ∀ t ∈ w, identifierKinds t.kind = true := by
  refine derives_kinds (N := identifierRules) ?_ h rfl
  intro n hn
  cases n <;> first | rfl | exact absurd hn (by decide)

/-- The kinds of the tokens of an argument list. -/
theorem argument_kinds (T : LetterTable) {n : NT} {w : List Tok}
    (h : Derives (rules T) (Rule.sym n) w) (hn : argumentRules n = true) :
    ∀ t ∈ w, argumentKinds t.kind = true := by
  refine derives_kinds (N := argumentRules) ?_ h hn
  intro n hn
  cases n <;> first | rfl | exact absurd hn (by decide)

/-- A sequence cut at the first token with property `p`. -/
theorem split_first {p : Tok → Bool} {x : Tok} :
    ∀ {i rest w : List Tok}, w = i ++ x :: rest → (∀ t ∈ i, p t = false) → p x = true →
      i = w.takeWhile (fun t => !p t) ∧ x :: rest = w.dropWhile (fun t => !p t)
  | [], rest, w, hw, _, hx => by subst hw; simp [List.takeWhile, List.dropWhile, hx]
  | a :: i, rest, w, hw, hi, hx => by
      subst hw
      have ha := hi a (List.mem_cons_self _ _)
      have ih := @split_first p x i rest _ rfl
        (fun t ht => hi t (List.mem_cons_of_mem _ ht)) hx
      rw [List.cons_append, List.takeWhile_cons, List.dropWhile_cons]
      simp only [ha, Bool.not_false, if_true]
      exact ⟨congrArg (List.cons a) ih.1, ih.2⟩

/-- The rule `returns` derives what `arguments` derives. -/
theorem returns_iff (T : LetterTable) (w : List Tok) :
    Derives (rules T) (Rule.sym NT.returns) w ↔ Derives (rules T) (Rule.sym NT.arguments) w :=
  derives_sym_iff

/-- Every argument list holds a type token. -/
theorem arguments_has_type (T : LetterTable) {w : List Tok}
    (h : Derives (rules T) (Rule.sym NT.arguments) w) : ∃ t ∈ w, isTypeTok t = true := by
  rcases (arguments_iff T w).1 h with ⟨n, t, _, ht, rfl⟩ | ⟨n, t, ps, _, ht, _, _, rfl⟩ |
    ⟨gs, hne, hgs, rfl⟩
  · exact ⟨t, by simp, ht⟩
  · exact ⟨t, by simp, ht⟩
  · cases gs with
    | nil => exact absurd rfl hne
    | cons g gs =>
      refine ⟨g.type, ?_, (hgs g (List.mem_cons_self _ _)).2.2.2⟩
      simp [ArgGroup.render]


/-- The sequences derived from `method_declaration`, by parts. -/
theorem method_declaration_iff (T : LetterTable) (w : List Tok) :
    Derives (rules T) (Rule.sym NT.method_declaration) w ↔
      ∃ i a tl : List Tok, w = i ++ lparenTok :: (a ++ rparenTok :: tl) ∧
        Derives (rules T) (Rule.sym NT.identifier) i ∧
        (Derives (rules T) (Rule.sym NT.arguments) a ∨ a = []) ∧
        ((∃ r : List Tok, tl = colonTok :: lparenTok :: (r ++ [rparenTok]) ∧
            (Derives (rules T) (Rule.sym NT.returns) r ∨ r = [])) ∨ tl = []) := by
  rw [derives_sym_iff, derives_iff_den]
  have e : rules T NT.method_declaration =
      Rule.cat (Rule.sym NT.identifier) (Rule.cat (str "(")
        (Rule.cat (optional (Rule.sym NT.arguments)) (Rule.cat (str ")")
          (optional (Rule.cat (str ":") (Rule.cat (str "(")
            (Rule.cat (optional (Rule.sym NT.returns)) (str ")")))))))) := rfl
  rw [e]
  simp only [den_cat, den_optional, den_str, den_sym, ← derives_sym_iff (G := rules T)]
  constructor
  · rintro ⟨i, _, rfl, hi, _, _, rfl, rfl, a, _, rfl, ha, _, tl, rfl, rfl, htl⟩
    refine ⟨i, a, tl, rfl, hi, ha, ?_⟩
    rcases htl with ⟨_, _, rfl, rfl, _, _, rfl, rfl, r, _, rfl, hr, rfl⟩ | rfl
    · exact Or.inl ⟨r, rfl, hr⟩
    · exact Or.inr rfl
  · rintro ⟨i, a, tl, rfl, hi, ha, htl⟩
    refine ⟨i, _, rfl, hi, _, _, rfl, rfl, a, _, rfl, ha, _, tl, rfl, rfl, ?_⟩
    rcases htl with ⟨r, rfl, hr⟩ | rfl
    · exact Or.inl ⟨_, _, rfl, rfl, _, _, rfl, rfl, r, _, rfl, hr, rfl⟩
    · exact Or.inr rfl

/-- No token of an identifier is an opening parenthesis. -/
theorem identifier_no_lparen (T : LetterTable) {w : List Tok}
    (h : Derives (rules T) (Rule.sym NT.identifier) w) :
    ∀ t ∈ w, (t.kind == "(") = false := by
  intro t ht
  have hk := identifier_kinds T h t ht
  cases hp : t.kind == "(" with
  | false => rfl
  | true =>
    rw [beq_iff_eq] at hp
    rw [hp] at hk
    exact absurd hk (by decide)

/-- No token of an argument list is a closing parenthesis. -/
theorem arguments_no_rparen (T : LetterTable) {w : List Tok}
    (h : Derives (rules T) (Rule.sym NT.arguments) w ∨ w = []) :
    ∀ t ∈ w, (t.kind == ")") = false := by
  intro t ht
  rcases h with h | rfl
  · have hk := argument_kinds T h rfl t ht
    cases hp : t.kind == ")" with
    | false => rfl
    | true =>
      rw [beq_iff_eq] at hp
      rw [hp] at hk
      exact absurd hk (by decide)
  · simp at ht

/-- C4 (counterexample): the return list `(err)`, one name and no type, is not
derived from `returns`, and the tokens of `f(a, b int): (err)` are not derived
from `method_declaration`. -/
theorem method_declaration_rejects_untyped_return :
    ¬ Derives (rules asciiLetters) (Rule.sym NT.returns) [⟨"argument_name", ['e', 'r', 'r']⟩] ∧
    ¬ Derives (rules asciiLetters) (Rule.sym NT.method_declaration)
      [⟨"_ident_base", ['f']⟩, lparenTok, ⟨"argument_name", ['a']⟩, commaTok,
       ⟨"argument_name", ['b']⟩, ⟨"argument_type", ['i', 'n', 't']⟩, rparenTok,
       colonTok, lparenTok, ⟨"argument_name", ['e', 'r', 'r']⟩, rparenTok] := by
  have hret : ¬ Derives (rules asciiLetters) (Rule.sym NT.returns)
      [⟨"argument_name", ['e', 'r', 'r']⟩] := by
    intro h
    obtain ⟨t, ht, hty⟩ := arguments_has_type _ ((returns_iff _ _).1 h)
    simp only [List.mem_singleton] at ht
    subst ht
    revert hty
    decide
  refine ⟨hret, fun h => ?_⟩
  obtain ⟨i, a, tl, hw, hi, ha, htl⟩ := (method_declaration_iff _ _).1 h
  obtain ⟨h1, h2⟩ := split_first (p := fun t => t.kind == "(") hw
    (identifier_no_lparen _ hi) (by decide)
  have e2 : lparenTok :: (a ++ rparenTok :: tl) =
      [lparenTok, ⟨"argument_name", ['a']⟩, commaTok,
       ⟨"argument_name", ['b']⟩, ⟨"argument_type", ['i', 'n', 't']⟩, rparenTok,
       colonTok, lparenTok, ⟨"argument_name", ['e', 'r', 'r']⟩, rparenTok] := by
    rw [h2]; decide
  have e3 := (List.cons.inj e2).2
  obtain ⟨h3, h4⟩ := split_first (p := fun t => t.kind == ")") e3.symm
    (arguments_no_rparen _ ha) (by decide)
  have e4 : rparenTok :: tl =
      [rparenTok, colonTok, lparenTok, ⟨"argument_name", ['e', 'r', 'r']⟩, rparenTok] := by
    rw [h4]; decide
  have e5 := (List.cons.inj e4).2
  rcases htl with ⟨r, hr, hd⟩ | rfl
  · rw [hr] at e5
    have e6 : r ++ [rparenTok] = [⟨"argument_name", ['e', 'r', 'r']⟩] ++ [rparenTok] := by
      simpa using e5
    have e7 := List.append_cancel_right e6
    subst e7
    rcases hd with hd | hd
    · exact hret hd
    · simp at hd
  · simp at e5


set_option maxRecDepth 100000 in
/-- C4 (amended): `method_declaration` derives `f(a, b int)` and
`f(a, b int): (err error)`; the list `a, b int` is derived from `arguments` as
one group of the two names `a` and `b` sharing the type `int`; `returns` derives
exactly what `arguments` derives, and so every return list holds a type. -/
theorem method_declaration_typed_returns (T : LetterTable) :
    Derives (rules T) (Rule.sym NT.method_declaration)
      [⟨"_ident_base", ['f']⟩, lparenTok, ⟨"argument_name", ['a']⟩, commaTok,
       ⟨"argument_name", ['b']⟩, ⟨"argument_type", ['i', 'n', 't']⟩, rparenTok] ∧
    Derives (rules T) (Rule.sym NT.method_declaration)
      [⟨"_ident_base", ['f']⟩, lparenTok, ⟨"argument_name", ['a']⟩, commaTok,
       ⟨"argument_name", ['b']⟩, ⟨"argument_type", ['i', 'n', 't']⟩, rparenTok,
       colonTok, lparenTok, ⟨"argument_name", ['e', 'r', 'r']⟩,
       ⟨"argument_type", ['e', 'r', 'r', 'o', 'r']⟩, rparenTok] ∧
    Derives (rules T) (Rule.sym NT.arguments)
      [⟨"argument_name", ['a']⟩, commaTok, ⟨"argument_name", ['b']⟩,
       ⟨"argument_type", ['i', 'n', 't']⟩] ∧
    (∃ g : ArgGroup, g.ok ∧ g.first = ⟨"argument_name", ['a']⟩ ∧
      g.more = [⟨"argument_name", ['b']⟩] ∧ g.type = ⟨"argument_type", ['i', 'n', 't']⟩ ∧
      [⟨"argument_name", ['a']⟩, commaTok, ⟨"argument_name", ['b']⟩,
       ⟨"argument_type", ['i', 'n', 't']⟩] = g.render) ∧
    (∀ w : List Tok, Derives (rules T) (Rule.sym NT.returns) w ↔
      Derives (rules T) (Rule.sym NT.arguments) w) ∧
    (∀ w : List Tok, Derives (rules T) (Rule.sym NT.returns) w →
      ∃ t ∈ w, isTypeTok t = true) := by
  refine ⟨derivesB_sound _ 40 _ _ (by rfl), derivesB_sound _ 40 _ _ (by rfl),
    derivesB_sound _ 40 _ _ (by rfl), ?_, returns_iff T, ?_⟩
  · exact ⟨⟨⟨"argument_name", ['a']⟩, [⟨"argument_name", ['b']⟩],
      ⟨"argument_type", ['i', 'n', 't']⟩, false⟩,
      ⟨by decide, by simp, by decide, by decide⟩, rfl, rfl, rfl, rfl⟩
  · intro w h
    exact arguments_has_type T ((returns_iff T w).1 h)

set_option maxRecDepth 100000 in
/-- Instance of C4 at the return list `err error`. -/
theorem method_declaration_typed_returns_witness :
    ∃ t ∈ [(⟨"argument_name", ['e', 'r', 'r']⟩ : Tok),
        ⟨"argument_type", ['e', 'r', 'r', 'o', 'r']⟩], isTypeTok t = true :=
  (method_declaration_typed_returns asciiLetters).2.2.2.2.2 _
    (derivesB_sound _ 40 _ _ (by decide))

/-! ### C6: quoted strings -/

section
open RE

/-- The token body of a quoted identifier, in two-place form. -/
theorem quoted_eq (q : Char) :
    Lex.quoted q = RE.seq (chr q) (RE.seq (star (quotedUnit q)) (chr q)) := rfl

/-- The repeated unit: an escaped quote or one character other than the quote. -/
theorem quotedUnit_lang (q : Char) (u : List Char) :
    (quotedUnit q).Lang u ↔ u = [backslash, q] ∨ ∃ c, u = [c] ∧ c ≠ q := by
  simp only [quotedUnit, alts, lang_alt, lang_lit, lang_cls, bne_iff_ne, ne_eq]

/-- In a run of units every quote comes right after a backslash. -/
theorem escaped_of_units (q : Char) (hq : q ≠ backslash) :
    ∀ us : List (List Char), (∀ u ∈ us, (quotedUnit q).Lang u) →
      ∀ p, escapedFrom q p us.flatten = true
  | [], _, p => rfl
  | u :: us, h, p => by
      have ih := escaped_of_units q hq us (fun x hx => h x (List.mem_cons_of_mem _ hx))
      have hu := (quotedUnit_lang q u).1 (h u (List.mem_cons_self _ _))
      rcases hu with rfl | ⟨c, rfl, hc⟩
      · have hb : backslash ≠ q := fun e => hq e.symm
        simp [escapedFrom, hb, ih]
      · simp [escapedFrom, hc, ih]

/-- After a character other than the backslash no quote can stand. -/
theorem escaped_head (q : Char) {p : Char} (hp : p ≠ backslash) :
    ∀ l : List Char, escapedFrom q p l = true → l.head? ≠ some q
  | [], _ => by simp
  | c :: cs, h => by
      simp only [escapedFrom, Bool.and_eq_true, Bool.or_eq_true, bne_iff_ne, ne_eq,
        beq_iff_eq] at h
      simp only [List.head?_cons, ne_eq, Option.some.injEq]
      rcases h.1 with h1 | h1
      · exact h1
      · exact absurd h1 hp

/-- A string whose quotes all come right after a backslash is a run of units. -/
theorem units_of_escaped (q : Char) (hq : q ≠ backslash) :
    ∀ (l : List Char) (p : Char), escapedFrom q p l = true → l.head? ≠ some q →
      (star (quotedUnit q)).Lang l
  | [], _, _, _ => lang_star_nil _
  | [c], _, _, hh => by
      have hc : c ≠ q := by simpa using hh
      have : (quotedUnit q).Lang [c] := (quotedUnit_lang q _).2 (Or.inr ⟨c, rfl, hc⟩)
      simpa using lang_star_append _ this (lang_star_nil _)
  | c :: d :: ds, p, h, hh => by
      have hc : c ≠ q := by simpa using hh
      simp only [escapedFrom, Bool.and_eq_true, Bool.or_eq_true, bne_iff_ne, ne_eq,
        beq_iff_eq] at h
      obtain ⟨_, hd, hds⟩ := h
      by_cases hdq : d = q
      · have hcb : c = backslash := by
          rcases hd with hd | hd
          · exact absurd hdq hd
          · exact hd
        rw [hdq] at hds
        have hrec := units_of_escaped q hq ds q hds (escaped_head q hq ds hds)
        have : (quotedUnit q).Lang [c, d] := by
          rw [hcb, hdq]
          exact (quotedUnit_lang q _).2 (Or.inl rfl)
        exact lang_star_append _ this hrec
      · have hcs : escapedFrom q c (d :: ds) = true := by
          simp [escapedFrom, hdq, hds]
        have hrec := units_of_escaped q hq (d :: ds) c hcs (by simpa using hdq)
        have : (quotedUnit q).Lang [c] := (quotedUnit_lang q _).2 (Or.inr ⟨c, rfl, hc⟩)
        exact lang_star_append _ this hrec

/-- The text between the quotes, by the escape condition. -/
theorem quoted_inner_iff (q : Char) (hq : q ≠ backslash) (l : List Char) :
    (star (quotedUnit q)).Lang l ↔ escapedFrom q q l = true := by
  constructor
  · rintro ⟨us, rfl, h⟩
    exact escaped_of_units q hq us h q
  · intro h
    exact units_of_escaped q hq l q h (escaped_head q hq l h)

/-- The characters before each `q` of `l`, `p` standing before `l`. -/
theorem escapedFrom_iff_split (q : Char) :
    ∀ (l : List Char) (p : Char), escapedFrom q p l = true ↔
      ∀ u v : List Char, l = u ++ q :: v → ∃ u', p :: u = u' ++ [backslash]
  | [], p => by simp [escapedFrom]
  | c :: cs, p => by
      simp only [escapedFrom, Bool.and_eq_true, Bool.or_eq_true, bne_iff_ne, ne_eq, beq_iff_eq,
        escapedFrom_iff_split q cs c]
      constructor
      · rintro ⟨h1, h2⟩ u v e
        cases u with
        | nil =>
          simp only [List.nil_append, List.cons.injEq] at e
          rcases h1 with h1 | h1
          · exact absurd e.1 h1
          · exact ⟨[], by simp [h1]⟩
        | cons x u =>
          simp only [List.cons_append, List.cons.injEq] at e
          obtain ⟨rfl, e⟩ := e
          obtain ⟨u', hu'⟩ := h2 u v e
          exact ⟨p :: u', by simp [hu']⟩
      · intro h
        constructor
        · by_cases hc : c = q
          · right
            subst hc
            obtain ⟨u', hu'⟩ := h [] cs rfl
            cases u' with
            | nil => simpa using hu'
            | cons y ys =>
              have := congrArg List.length hu'
              simp at this
          · left; exact hc
        · intro u v e
          obtain ⟨u', hu'⟩ := h (c :: u) v (by simp [e])
          cases u' with
          | nil =>
            have := congrArg List.length hu'
            simp at this
          | cons y ys =>
            simp only [List.cons_append, List.cons.injEq] at hu'
            exact ⟨ys, hu'.2⟩


/-- Length at least 2 with first and last character `q`: a text between two `q`. -/
theorem quoted_frame (q : Char) (s : List Char) :
    (2 ≤ s.length ∧ s.head? = some q ∧ s.getLast? = some q) ↔ ∃ l, s = q :: (l ++ [q]) := by
  constructor
  · rintro ⟨hlen, hh, hl⟩
    cases s with
    | nil => simp at hlen
    | cons c t =>
      simp only [List.head?_cons, Option.some.injEq] at hh
      subst hh
      rcases List.eq_nil_or_concat t with rfl | ⟨l, x, rfl⟩
      · simp at hlen
      · rw [List.concat_eq_append] at hl ⊢
        refine ⟨l, ?_⟩
        have e : (c :: (l ++ [x])).getLast? = some x := by
          rw [← List.cons_append, List.getLast?_append]; simp
        rw [e] at hl
        simp only [Option.some.injEq] at hl
        rw [hl]
  · rintro ⟨l, rfl⟩
    refine ⟨by simp, by simp, ?_⟩
    rw [← List.cons_append, List.getLast?_append]; simp

/-- The escape condition on the whole string and on the text between the quotes. -/
theorem quoted_between (q : Char) (l : List Char) :
    (∀ u v : List Char, q :: (l ++ [q]) = u ++ q :: v → u ≠ [] → v ≠ [] →
        ∃ u', u = u' ++ [backslash]) ↔
      ∀ u v : List Char, l = u ++ q :: v → ∃ u', q :: u = u' ++ [backslash] := by
  constructor
  · intro h u v e
    exact h (q :: u) (v ++ [q]) (by simp [e]) (by simp) (by simp)
  · intro h u v e hu hv
    cases u with
    | nil => exact absurd rfl hu
    | cons c u =>
      simp only [List.cons_append, List.cons.injEq] at e
      obtain ⟨rfl, e⟩ := e
      rcases List.eq_nil_or_concat v with rfl | ⟨v', x, rfl⟩
      · exact absurd rfl hv
      · rw [List.concat_eq_append] at e
        have e2 : l ++ [q] = (u ++ q :: v') ++ [x] := by simpa using e
        have e3 := List.append_inj_left' e2 rfl
        exact h u v' e3

/-- The language of a quoted identifier. -/
theorem quoted_lang (q : Char) (hq : q ≠ backslash) (s : List Char) :
    (Lex.quoted q).Lang s ↔ QuotedBy q s := by
  rw [quoted_eq]
  simp only [lang_seq, lang_chr, quoted_inner_iff q hq, escapedFrom_iff_split]
  unfold QuotedBy
  rw [← and_assoc, ← and_assoc, and_assoc (a := 2 ≤ s.length), quoted_frame]
  constructor
  · rintro ⟨_, _, rfl, rfl, l, _, rfl, hl, rfl⟩
    exact ⟨⟨l, rfl⟩, (quoted_between q l).2 hl⟩
  · rintro ⟨⟨l, rfl⟩, h⟩
    exact ⟨[q], _, rfl, rfl, l, [q], rfl, (quoted_between q l).1 h, rfl⟩

/-- C6: `_double_quoted` (and `_single_quoted` with its own quote) matches
exactly the strings of length at least 2 that begin and end with the quote and
in which every quote strictly between the first and the last character comes
right after a backslash; so a string with an opening and no closing quote is
not matched. -/
theorem quoted_strings_closed :
    (∀ s : List Char, Lex._double_quoted.rmatch s = true ↔ QuotedBy dquote s) ∧
    (∀ s : List Char, Lex._single_quoted.rmatch s = true ↔ QuotedBy squote s) ∧
    Lex._double_quoted.rmatch [dquote, 'a', backslash, dquote, 'b', dquote] = true ∧
    Lex._double_quoted.rmatch [dquote, 'a', 'b'] = false ∧
    Lex._single_quoted.rmatch [squote, 'a', 'b'] = false := by
  refine ⟨fun s => ?_, fun s => ?_, by decide, by decide, by decide⟩
  · rw [rmatch_iff]; exact quoted_lang dquote (by decide) s
  · rw [rmatch_iff]; exact quoted_lang squote (by decide) s

end

/-! ### C7 and C8: unquoted identifiers -/

section
open RE

/-- One group of `_ident`. -/
theorem den_ident_group (T : LetterTable) (w : List Tok) :
    Den (fun n w => Derives (rules T) (rules T n) w)
      (Rule.cat (Rule.sym NT._ident_base) (optional (pat "[\\s\\',]+" identGap))) w ↔
      ∃ g : IdentGroup, g.ok T ∧ w = g.render := by
  have hb : ∀ u, Derives (rules T) (rules T NT._ident_base) u ↔
      ∃ s, u = [⟨"_ident_base", s⟩] ∧ (Lex._ident_base T).rmatch s = true :=
    fun u => derives_tok_iff
  simp only [den_cat, den_optional, den_sym, hb, pat, den_tok]
  constructor
  · rintro ⟨u, v, rfl, ⟨b, rfl, hb⟩, hv⟩
    rcases hv with ⟨x, rfl, hx⟩ | rfl
    · refine ⟨⟨b, some x⟩, ⟨hb, ?_⟩, rfl⟩
      intro y hy
      simp only [Option.some.injEq] at hy
      subst hy
      exact hx
    · exact ⟨⟨b, none⟩, ⟨hb, by simp⟩, rfl⟩
  · rintro ⟨⟨b, g⟩, ⟨hb, hg⟩, rfl⟩
    cases g with
    | none => exact ⟨_, [], rfl, ⟨b, rfl, hb⟩, Or.inr rfl⟩
    | some x => exact ⟨_, _, rfl, ⟨b, rfl, hb⟩, Or.inl ⟨x, rfl, hg x rfl⟩⟩

/-- The sequences derived from `_ident`, by groups. -/
theorem ident_iff (T : LetterTable) (w : List Tok) :
    Derives (rules T) (Rule.sym NT._ident) w ↔ IdentShape T w := by
  rw [derives_sym_iff, derives_iff_den]
  have e : rules T NT._ident =
      repeat1 (Rule.cat (Rule.sym NT._ident_base) (optional (pat "[\\s\\',]+" identGap))) := rfl
  rw [e, den_repeat1_shape (den_ident_group T)]
  rfl

/-- One or more repetitions, by the list of pieces. -/
theorem lang_plus_iff (a : RE) (s : List Char) :
    (plus a).Lang s ↔ ∃ us : List (List Char), us ≠ [] ∧ s = us.flatten ∧ ∀ u ∈ us, a.Lang u := by
  simp only [plus, lang_seq]
  constructor
  · rintro ⟨u, v, rfl, hu, vs, rfl, hvs⟩
    refine ⟨u :: vs, by simp, by simp, ?_⟩
    intro x hx
    rcases List.mem_cons.1 hx with rfl | hx
    · exact hu
    · exact hvs x hx
  · rintro ⟨us, hne, rfl, hus⟩
    cases us with
    | nil => exact absurd rfl hne
    | cons u vs =>
      exact ⟨u, vs.flatten, by simp, hus u (List.mem_cons_self _ _), vs, rfl,
        fun x hx => hus x (List.mem_cons_of_mem _ hx)⟩

/-- The repeated unit of `_ident_base`. -/
theorem identUnit_iff (T : LetterTable) (u : List Char) :
    (alt (cls (identBaseChar T)) (lit [backslash, '#'])).Lang u ↔ IdentUnit T u := by
  simp only [lang_alt, lang_cls, lang_lit, identBaseChar, Bool.or_eq_true, beq_iff_eq, IdentUnit,
    or_assoc]

/-- The language of `_ident_base`, by units. -/
theorem ident_base_lang (T : LetterTable) (s : List Char) :
    (Lex._ident_base T).Lang s ↔
      ∃ us : List (List Char), us ≠ [] ∧ s = us.flatten ∧ ∀ u ∈ us, IdentUnit T u := by
  simp only [Lex._ident_base, lang_plus_iff, identUnit_iff]

/-- The property `Preceded` passes to concatenations. -/
theorem preceded_append {α : Type} {X Y : α → Prop} {a b : List α}
    (ha : Preceded X Y a) (hb : Preceded X Y b) : Preceded X Y (a ++ b) := by
  intro u v x e hx
  rcases List.append_eq_append_iff.1 e with ⟨m, rfl, hm⟩ | ⟨m, rfl, hm⟩
  · obtain ⟨u', y, hu', hy⟩ := hb m v x hm hx
    exact ⟨a ++ u', y, by rw [hu']; simp, hy⟩
  · cases m with
    | nil =>
      simp only [List.nil_append] at hm
      obtain ⟨u', y, hu', _⟩ := hb [] v x hm.symm hx
      simp at hu'
    | cons z m =>
      simp only [List.cons_append, List.cons.injEq] at hm
      obtain ⟨rfl, rfl⟩ := hm
      exact ha u m x rfl hx

/-- The property `Preceded` passes to concatenations of several pieces. -/
theorem preceded_flatten {α : Type} {X Y : α → Prop} :
    ∀ us : List (List α), (∀ u ∈ us, Preceded X Y u) → Preceded X Y us.flatten
  | [], _ => by intro u v x e; simp at e
  | u :: us, h => by
      rw [List.flatten_cons]
      exact preceded_append (h u (List.mem_cons_self _ _))
        (preceded_flatten us (fun x hx => h x (List.mem_cons_of_mem _ hx)))

/-- A list with no element of property `X` has the property `Preceded`. -/
theorem preceded_of_none {α : Type} {X Y : α → Prop} {l : List α} (h : ∀ x ∈ l, ¬ X x) :
    Preceded X Y l := by
  intro u v x e hx
  exact absurd hx (h x (by rw [e]; simp))

/-- In a unit every `#` comes right after a backslash. -/
theorem identUnit_hash (T : LetterTable) {u : List Char} (h : IdentUnit T u) : HashEscaped u := by
  rcases h with ⟨c, rfl, hc⟩ | rfl
  · apply preceded_of_none
    intro x hx
    simp only [List.mem_singleton] at hx
    subst hx
    rintro rfl
    revert hc
    simp [isLetter, isAsciiLetter, isDigit]
  · intro u v x e hx
    subst hx
    rcases u with _ | ⟨x, _ | ⟨y, u⟩⟩
    · simp at e
      exact absurd e.1 (by decide)
    · simp at e
      exact ⟨[], x, by simp, e.1.symm⟩
    · simp at e

/-- The characters of a unit. -/
theorem identUnit_chars (T : LetterTable) {u : List Char} (h : IdentUnit T u) :
    ∀ c ∈ u, identChar T c = true := by
  rcases h with ⟨c, rfl, hc⟩ | rfl
  · intro d hd
    simp only [List.mem_singleton] at hd
    subst hd
    have : identBaseChar T d = true := by
      simp only [identBaseChar, Bool.or_eq_true, beq_iff_eq]
      tauto
    simp [identChar, this]
  · intro d hd
    simp only [List.mem_cons, List.mem_singleton, List.not_mem_nil, or_false] at hd
    rcases hd with rfl | rfl <;> simp [identChar]

/-- The text of an `_ident_base` token. -/
theorem ident_base_text (T : LetterTable) {s : List Char}
    (h : (Lex._ident_base T).rmatch s = true) :
    HashEscaped s ∧ ∀ c ∈ s, identChar T c = true := by
  rw [rmatch_iff, ident_base_lang] at h
  obtain ⟨us, _, rfl, hus⟩ := h
  refine ⟨preceded_flatten us (fun u hu => identUnit_hash T (hus u hu)), ?_⟩
  intro c hc
  obtain ⟨u, hu, hcu⟩ := List.mem_flatten.1 hc
  exact identUnit_chars T (hus u hu) c hcu

/-- The text of a `[\s',]+` token. -/
theorem ident_gap_text (T : LetterTable) {s : List Char} (h : identGap.rmatch s = true) :
    HashEscaped s ∧ ∀ c ∈ s, identChar T c = true := by
  rw [rmatch_iff, identGap, lang_plus_cls] at h
  constructor
  · apply preceded_of_none
    rintro x hx rfl
    exact absurd (h.2 _ hx) (by decide)
  · intro c hc
    simp [identChar, h.2 c hc]

/-- The text of a group of `_ident`. -/
theorem ident_group_text (T : LetterTable) {g : IdentGroup} (h : g.ok T) :
    HashEscaped (yield g.render) ∧ ∀ c ∈ yield g.render, identChar T c = true := by
  obtain ⟨hb, hg⟩ := h
  have h1 := ident_base_text T hb
  cases hgap : g.gap with
  | none =>
    simp only [IdentGroup.render, hgap, yield, List.map_cons, List.map_nil, List.flatten_cons,
      List.flatten_nil, List.append_nil]
    exact h1
  | some x =>
    have h2 := ident_gap_text T (hg x hgap)
    simp only [IdentGroup.render, hgap, yield, List.map_cons, List.map_nil, List.flatten_cons,
      List.flatten_nil, List.append_nil]
    refine ⟨preceded_append h1.1 h2.1, ?_⟩
    intro c hc
    rcases List.mem_append.1 hc with h | h
    · exact h1.2 c h
    · exact h2.2 c h

/-- The text of a concatenation. -/
theorem yield_append (u v : List Tok) : yield (u ++ v) = yield u ++ yield v := by
  simp [yield]

/-- The text of a concatenation of several pieces. -/
theorem yield_flatten (us : List (List Tok)) : yield us.flatten = (us.map yield).flatten := by
  induction us with
  | nil => rfl
  | cons u us ih => simp [yield_append, ih]

/-- The text of an unquoted identifier. -/
theorem ident_text (T : LetterTable) {w : List Tok}
    (h : Derives (rules T) (Rule.sym NT._ident) w) :
    HashEscaped (yield w) ∧ ∀ c ∈ yield w, identChar T c = true := by
  obtain ⟨gs, _, hgs, rfl⟩ := (ident_iff T w).1 h
  rw [yield_flatten]
  constructor
  · apply preceded_flatten
    intro u hu
    simp only [List.map_map, List.mem_map, Function.comp] at hu
    obtain ⟨g, hg, rfl⟩ := hu
    exact (ident_group_text T (hgs g hg)).1
  · intro c hc
    obtain ⟨u, hu, hcu⟩ := List.mem_flatten.1 hc
    simp only [List.map_map, List.mem_map, Function.comp] at hu
    obtain ⟨g, hg, rfl⟩ := hu
    exact (ident_group_text T (hgs g hg)).2 c hcu

/-- The colon is no character of an unquoted identifier. -/
theorem colon_not_identChar (T : LetterTable) : identChar T ':' = false := by
  simp [identChar, identBaseChar, isLetter, isAsciiLetter, isDigit, isIdentGap, isSpace]
  decide

/-- In a group the `[\s',]+` token comes right after the `_ident_base` token. -/
theorem ident_group_gaps (g : IdentGroup) : GapsFollowBase g.render := by
  have hk : ("_ident_base" : String) ≠ "[\\s\\',]+" := by decide
  intro u v x e hx
  cases hgap : g.gap with
  | none =>
    simp only [IdentGroup.render, hgap] at e
    rcases u with _ | ⟨y, u⟩
    · simp only [List.nil_append, List.cons.injEq] at e
      rw [← e.1] at hx
      exact absurd hx hk
    · simp at e
  | some s =>
    simp only [IdentGroup.render, hgap] at e
    rcases u with _ | ⟨y, _ | ⟨z, u⟩⟩
    · simp only [List.nil_append, List.cons.injEq] at e
      rw [← e.1] at hx
      exact absurd hx hk
    · simp only [List.cons_append, List.nil_append, List.cons.injEq] at e
      exact ⟨[], y, rfl, by rw [← e.1]⟩
    · simp at e

/-- C8: `_ident_base` matches exactly the non-empty concatenations of units, a
unit being one letter, one digit, one of `/`, `*`, `_`, `+`, `-`, or the
two-character escape of `#`; no text derived from `_ident_base` or `_ident`
holds a `:`, and every `#` in it comes right after a backslash. -/
theorem ident_base_units (T : LetterTable) :
    (∀ s : List Char, (Lex._ident_base T).rmatch s = true ↔
      ∃ us : List (List Char), us ≠ [] ∧ s = us.flatten ∧ ∀ u ∈ us, IdentUnit T u) ∧
    (∀ w : List Tok, Derives (rules T) (Rule.sym NT._ident_base) w →
      ':' ∉ yield w ∧ HashEscaped (yield w)) ∧
    (∀ w : List Tok, Derives (rules T) (Rule.sym NT._ident) w →
      ':' ∉ yield w ∧ HashEscaped (yield w)) := by
  refine ⟨fun s => ?_, fun w h => ?_, fun w h => ?_⟩
  · rw [rmatch_iff]; exact ident_base_lang T s
  · rw [derives_sym_iff] at h
    obtain ⟨s, rfl, hs⟩ := derives_tok_iff.1 h
    have ht := ident_base_text T hs
    have e : yield [⟨"_ident_base", s⟩] = s := by simp [yield]
    rw [e]
    refine ⟨fun hc => ?_, ht.1⟩
    have := ht.2 _ hc
    rw [colon_not_identChar] at this
    exact absurd this (by simp)
  · have ht := ident_text T h
    refine ⟨fun hc => ?_, ht.1⟩
    have := ht.2 _ hc
    rw [colon_not_identChar] at this
    exact absurd this (by simp)

set_option maxRecDepth 100000 in
/-- Instance of C8 at the tokens of `a\#1` and of `a b`. -/
theorem ident_base_units_witness :
    (':' ∉ yield [⟨"_ident_base", ['a', backslash, '#', '1']⟩] ∧
      HashEscaped (yield [⟨"_ident_base", ['a', backslash, '#', '1']⟩])) ∧
    (':' ∉ yield [⟨"_ident_base", ['a']⟩, ⟨"[\\s\\',]+", [' ']⟩, ⟨"_ident_base", ['b']⟩] ∧
      HashEscaped (yield [⟨"_ident_base", ['a']⟩, ⟨"[\\s\\',]+", [' ']⟩,
        ⟨"_ident_base", ['b']⟩])) :=
  ⟨(ident_base_units asciiLetters).2.1 _ (derivesB_sound _ 40 _ _ (by decide)),
   (ident_base_units asciiLetters).2.2 _ (derivesB_sound _ 40 _ _ (by decide))⟩

set_option maxRecDepth 100000 in
/-- C7 (amended): `_ident` derives exactly the sequences of one or more groups,
a group being an `_ident_base` token optionally followed by one `[\s',]+` token;
so every derived sequence begins with an `_ident_base` token, every `[\s',]+`
token comes right after an `_ident_base` token, and such a run may end the
identifier, as in `a` followed by a space. -/
theorem ident_gap_runs (T : LetterTable) :
    (∀ w : List Tok, Derives (rules T) (Rule.sym NT._ident) w ↔ IdentShape T w) ∧
    (∀ w : List Tok, Derives (rules T) (Rule.sym NT._ident) w →
      ∃ (t : Tok) (rest : List Tok), w = t :: rest ∧ t.kind = "_ident_base") ∧
    (∀ w : List Tok, Derives (rules T) (Rule.sym NT._ident) w → GapsFollowBase w) ∧
    Derives (rules T) (Rule.sym NT._ident) [⟨"_ident_base", ['a']⟩, ⟨"[\\s\\',]+", [' ']⟩] := by
  refine ⟨ident_iff T, fun w h => ?_, fun w h => ?_, derivesB_sound _ 40 _ _ (by rfl)⟩
  · obtain ⟨gs, hne, _, rfl⟩ := (ident_iff T w).1 h
    cases gs with
    | nil => exact absurd rfl hne
    | cons g gs =>
      exact ⟨⟨"_ident_base", g.base⟩, _, by
        rw [List.map_cons, List.flatten_cons, IdentGroup.render, List.cons_append], rfl⟩
  · obtain ⟨gs, _, _, rfl⟩ := (ident_iff T w).1 h
    apply preceded_flatten
    intro u hu
    obtain ⟨g, _, rfl⟩ := List.mem_map.1 hu
    exact ident_group_gaps g

set_option maxRecDepth 100000 in
/-- Instance of C7 at the tokens of `a b,`. -/
theorem ident_gap_runs_witness :
    (∃ (t : Tok) (rest : List Tok),
      [(⟨"_ident_base", ['a']⟩ : Tok), ⟨"[\\s\\',]+", [' ']⟩, ⟨"_ident_base", ['b']⟩,
        ⟨"[\\s\\',]+", [',']⟩] = t :: rest ∧ t.kind = "_ident_base") ∧
    GapsFollowBase [⟨"_ident_base", ['a']⟩, ⟨"[\\s\\',]+", [' ']⟩, ⟨"_ident_base", ['b']⟩,
      ⟨"[\\s\\',]+", [',']⟩] :=
  ⟨(ident_gap_runs asciiLetters).2.1 _ (derivesB_sound _ 40 _ _ (by decide)),
   (ident_gap_runs asciiLetters).2.2.1 _ (derivesB_sound _ 40 _ _ (by decide))⟩

set_option maxRecDepth 100000 in
/-- C7 (counterexample): `a,` is derived from `_ident` with the run `,` as its
last token, and its text ends with `,`, which is no identifier-base
character. -/
theorem ident_trailing_run :
    Derives (rules asciiLetters) (Rule.sym NT._ident)
      [⟨"_ident_base", ['a']⟩, ⟨"[\\s\\',]+", [',']⟩] ∧
    yield [⟨"_ident_base", ['a']⟩, ⟨"[\\s\\',]+", [',']⟩] = ['a', ','] ∧
    [(⟨"_ident_base", ['a']⟩ : Tok), ⟨"[\\s\\',]+", [',']⟩].getLast? =
      some ⟨"[\\s\\',]+", [',']⟩ ∧
    ¬ (∃ p c, yield [⟨"_ident_base", ['a']⟩, ⟨"[\\s\\',]+", [',']⟩] = p ++ [c] ∧
        (identBaseChar asciiLetters c = true ∨ c = '#')) := by
  refine ⟨derivesB_sound _ 40 _ _ (by decide), rfl, rfl, ?_⟩
  rintro ⟨p, c, e, hc⟩
  have e1 : yield [⟨"_ident_base", ['a']⟩, ⟨"[\\s\\',]+", [',']⟩] = ['a'] ++ [','] := rfl
  rw [e1] at e
  have e2 := List.append_inj_right' e rfl
  simp only [List.cons.injEq, and_true] at e2
  subst e2
  revert hc
  decide

end

/-! ### C9: block comments -/

section
open RE

/-- Texts that are each spelled come from a list of token sequences. -/
theorem exists_yield_of_forall {P : List Tok → Prop} {Q : List Char → Prop}
    (h : ∀ x, Q x → ∃ u, P u ∧ yield u = x) :
    ∀ ss : List (List Char), (∀ x ∈ ss, Q x) →
      ∃ us : List (List Tok), (∀ u ∈ us, P u) ∧ us.map yield = ss
  | [], _ => ⟨[], by simp, rfl⟩
  | x :: ss, hq => by
      obtain ⟨u, hu, hx⟩ := h x (hq x (List.mem_cons_self _ _))
      obtain ⟨us, hus, hss⟩ := exists_yield_of_forall h ss
        (fun y hy => hq y (List.mem_cons_of_mem _ hy))
      refine ⟨u :: us, ?_, by simp [hx, hss]⟩
      intro v hv
      rcases List.mem_cons.1 hv with rfl | hv
      · exact hu
      · exact hus v hv

/-- The texts of a terminal-only rule expression are the language of its
regular expression. -/
theorem den_yield_lang (S : NT → List Tok → Prop) :
    ∀ (e : Rule), symFree e = true → ∀ s : List Char,
      (∃ w, Den S e w ∧ yield w = s) ↔ (toRE e).Lang s
  | Rule.blank, _, s => by
      simp only [den_blank, toRE, lang_eps]
      constructor
      · rintro ⟨w, rfl, rfl⟩; rfl
      · rintro rfl; exact ⟨[], rfl, rfl⟩
  | Rule.tok k r, _, s => by
      simp only [den_tok, toRE, ← rmatch_iff]
      constructor
      · rintro ⟨w, ⟨t, rfl, ht⟩, rfl⟩
        simpa [yield] using ht
      · intro h
        exact ⟨[⟨k, s⟩], ⟨s, rfl, h⟩, by simp [yield]⟩
  | Rule.sym _, h, _ => by simp [symFree] at h
  | Rule.cat a b, h, s => by
      simp only [symFree, Bool.and_eq_true] at h
      simp only [den_cat, toRE, lang_seq, ← den_yield_lang S a h.1, ← den_yield_lang S b h.2]
      constructor
      · rintro ⟨w, ⟨u, v, rfl, hu, hv⟩, rfl⟩
        exact ⟨yield u, yield v, yield_append u v, ⟨u, hu, rfl⟩, ⟨v, hv, rfl⟩⟩
      · rintro ⟨_, _, rfl, ⟨u, hu, rfl⟩, ⟨v, hv, rfl⟩⟩
        exact ⟨u ++ v, ⟨u, v, rfl, hu, hv⟩, yield_append u v⟩
  | Rule.alt a b, h, s => by
      simp only [symFree, Bool.and_eq_true] at h
      simp only [den_alt, toRE, lang_alt, ← den_yield_lang S a h.1, ← den_yield_lang S b h.2]
      constructor
      · rintro ⟨w, hw | hw, rfl⟩
        · exact Or.inl ⟨w, hw, rfl⟩
        · exact Or.inr ⟨w, hw, rfl⟩
      · rintro (⟨w, hw, rfl⟩ | ⟨w, hw, rfl⟩)
        · exact ⟨w, Or.inl hw, rfl⟩
        · exact ⟨w, Or.inr hw, rfl⟩
  | Rule.rep a, h, s => by
      simp only [symFree] at h
      have ih := den_yield_lang S a h
      simp only [den_rep, toRE]
      constructor
      · rintro ⟨w, ⟨us, rfl, hus⟩, rfl⟩
        refine ⟨us.map yield, yield_flatten us, ?_⟩
        intro x hx
        obtain ⟨u, hu, rfl⟩ := List.mem_map.1 hx
        exact (ih _).1 ⟨u, hus u hu, rfl⟩
      · rintro ⟨ss, rfl, hss⟩
        obtain ⟨us, hus, rfl⟩ := exists_yield_of_forall (P := fun u => Den S a u)
          (Q := fun x => (toRE a).Lang x) (fun x hx => (ih x).2 hx) ss hss
        exact ⟨us.flatten, ⟨us, rfl, hus⟩, yield_flatten us⟩

/-- The strings spelled by a terminal-only rule expression are those its
regular expression matches. -/
theorem spells_iff (G : NT → Rule) (e : Rule) (h : symFree e = true) (s : List Char) :
    Spells G e s ↔ (toRE e).rmatch s = true := by
  rw [rmatch_iff, ← den_yield_lang (fun n w => Derives G (G n) w) e h s]
  constructor
  · rintro ⟨w, hw, hs⟩
    exact ⟨w, derives_iff_den.1 hw, hs⟩
  · rintro ⟨w, hw, hs⟩
    exact ⟨w, derives_iff_den.2 hw, hs⟩

/-- A rule name spells what its rule spells. -/
theorem spells_sym (G : NT → Rule) (n : NT) (s : List Char) :
    Spells G (Rule.sym n) s ↔ Spells G (G n) s := by
  simp only [Spells, derives_sym_iff]

/-- The content of a block comment as one regular expression. -/
theorem blockCommentContent_re :
    toRE blockCommentContent =
      star (alt (cls (fun c => c != dquote))
        (alt (RE.seq (chr dquote) (cls (fun c => c != dquote)))
          (RE.seq (chr dquote) (RE.seq (chr dquote) (cls (fun c => c != dquote)))))) := rfl

/-- The repeated unit of the content of a block comment. -/
theorem commentUnit_iff (u : List Char) :
    (alt (cls (fun c => c != dquote))
        (alt (RE.seq (chr dquote) (cls (fun c => c != dquote)))
          (RE.seq (chr dquote) (RE.seq (chr dquote) (cls (fun c => c != dquote)))))).Lang u ↔
      CommentUnit u := by
  simp only [lang_alt, lang_seq, lang_cls, lang_chr, bne_iff_ne, ne_eq, CommentUnit]
  constructor
  · rintro (⟨x, rfl, hx⟩ | ⟨_, _, rfl, rfl, x, rfl, hx⟩ |
      ⟨_, _, rfl, rfl, _, _, rfl, rfl, x, rfl, hx⟩)
    · exact ⟨x, hx, Or.inl rfl⟩
    · exact ⟨x, hx, Or.inr (Or.inl rfl)⟩
    · exact ⟨x, hx, Or.inr (Or.inr rfl)⟩
  · rintro ⟨x, hx, rfl | rfl | rfl⟩
    · exact Or.inl ⟨x, rfl, hx⟩
    · exact Or.inr (Or.inl ⟨_, _, rfl, rfl, x, rfl, hx⟩)
    · exact Or.inr (Or.inr ⟨_, _, rfl, rfl, _, _, rfl, rfl, x, rfl, hx⟩)

/-- A fence cannot begin at a character other than the double quote. -/
theorem fence_infix_cons {x : Char} (hx : x ≠ dquote) (l : List Char) :
    fence <:+: x :: l ↔ fence <:+: l := by
  have hx' : ¬ dquote = x := fun e => hx e.symm
  simp [fence, List.infix_cons_iff, List.cons_prefix_cons, hx']

/-- A fence cannot begin at one double quote before another character. -/
theorem fence_infix_quote_cons {x : Char} (hx : x ≠ dquote) (l : List Char) :
    fence <:+: dquote :: x :: l ↔ fence <:+: l := by
  have hx' : ¬ dquote = x := fun e => hx e.symm
  rw [List.infix_cons_iff, fence_infix_cons hx]
  simp [fence, List.cons_prefix_cons, hx']

/-- A fence cannot begin at two double quotes before another character. -/
theorem fence_infix_quote_quote_cons {x : Char} (hx : x ≠ dquote) (l : List Char) :
    fence <:+: dquote :: dquote :: x :: l ↔ fence <:+: l := by
  have hx' : ¬ dquote = x := fun e => hx e.symm
  rw [List.infix_cons_iff, fence_infix_quote_cons hx]
  simp [fence, List.cons_prefix_cons, hx']

/-- The last character of a string with a non-empty second part. -/
theorem getLast?_append_cons (u : List Char) (x : Char) (l : List Char) :
    (u ++ x :: l).getLast? = (x :: l).getLast? := by
  rw [List.getLast?_append]
  cases h : (x :: l).getLast? with
  | none => simp at h
  | some y => simp

/-- A run of units holds no fence and does not end with a double quote. -/
theorem content_of_units :
    ∀ us : List (List Char), (∀ u ∈ us, CommentUnit u) →
      ¬ fence <:+: us.flatten ∧ us.flatten.getLast? ≠ some dquote
  | [], _ => by simp [fence]
  | u :: us, h => by
      obtain ⟨h1, h2⟩ := content_of_units us (fun x hx => h x (List.mem_cons_of_mem _ hx))
      obtain ⟨x, hx, hu⟩ := h u (List.mem_cons_self _ _)
      have hlast : ∀ p : List Char, (p ++ x :: us.flatten).getLast? ≠ some dquote := by
        intro p
        rw [getLast?_append_cons]
        cases hr : us.flatten with
        | nil => simpa using hx
        | cons y r =>
          rw [List.getLast?_cons_cons, ← hr]
          exact h2
      rcases hu with rfl | rfl | rfl
      · exact ⟨by simpa [fence_infix_cons hx] using h1, by simpa using hlast []⟩
      · exact ⟨by simpa [fence_infix_quote_cons hx] using h1, by simpa using hlast [dquote]⟩
      · exact ⟨by simpa [fence_infix_quote_quote_cons hx] using h1,
          by simpa using hlast [dquote, dquote]⟩

/-- A string without fence that does not end with a double quote is a run of units. -/
theorem units_of_content :
    ∀ c : List Char, ¬ fence <:+: c → c.getLast? ≠ some dquote →
      ∃ us : List (List Char), c = us.flatten ∧ ∀ u ∈ us, CommentUnit u
  | [], _, _ => ⟨[], rfl, by simp⟩
  | [x], _, hl => by
      have hx : x ≠ dquote := by simpa using hl
      exact ⟨[[x]], by simp, by simpa using ⟨x, hx, Or.inl rfl⟩⟩
  | [x, y], _, hl => by
      have hy : y ≠ dquote := by simpa using hl
      by_cases hx : x = dquote
      · subst hx
        exact ⟨[[dquote, y]], by simp, by simpa using ⟨y, hy, Or.inr (Or.inl rfl)⟩⟩
      · refine ⟨[[x], [y]], by simp, ?_⟩
        intro u hu
        simp only [List.mem_cons, List.mem_singleton, List.not_mem_nil, or_false] at hu
        rcases hu with rfl | rfl
        · exact ⟨x, hx, Or.inl rfl⟩
        · exact ⟨y, hy, Or.inl rfl⟩
  | x :: y :: z :: r, hf, hl => by
      rw [List.getLast?_cons_cons] at hl
      by_cases hx : x = dquote
      · by_cases hy : y = dquote
        · have hz : z ≠ dquote := by
            intro hz
            apply hf
            rw [hx, hy, hz]
            exact ⟨[], r, rfl⟩
          rw [List.getLast?_cons_cons] at hl
          have hf' : ¬ fence <:+: r := by
            rw [hx, hy, fence_infix_quote_quote_cons hz] at hf
            exact hf
          have hl' : r.getLast? ≠ some dquote := by
            cases r with
            | nil => simp
            | cons a r => rw [List.getLast?_cons_cons] at hl; exact hl
          obtain ⟨us, hus, hu⟩ := units_of_content r hf' hl'
          refine ⟨[x, y, z] :: us, by simp [hus], ?_⟩
          intro u hm
          rcases List.mem_cons.1 hm with rfl | hm
          · exact ⟨z, hz, Or.inr (Or.inr (by rw [hx, hy]))⟩
          · exact hu u hm
        · have hf' : ¬ fence <:+: z :: r := by
            rw [hx, fence_infix_quote_cons hy] at hf
            exact hf
          rw [List.getLast?_cons_cons] at hl
          obtain ⟨us, hus, hu⟩ := units_of_content (z :: r) hf' hl
          refine ⟨[x, y] :: us, by simp [hus], ?_⟩
          intro u hm
          rcases List.mem_cons.1 hm with rfl | hm
          · exact ⟨y, hy, Or.inr (Or.inl (by rw [hx]))⟩
          · exact hu u hm
      · have hf' : ¬ fence <:+: y :: z :: r := by
          rw [fence_infix_cons hx] at hf
          exact hf
        obtain ⟨us, hus, hu⟩ := units_of_content (y :: z :: r) hf' hl
        refine ⟨[x] :: us, by simp [hus], ?_⟩
        intro u hm
        rcases List.mem_cons.1 hm with rfl | hm
        · exact ⟨x, hx, Or.inl rfl⟩
        · exact hu u hm

/-- The language of the content of a block comment. -/
theorem content_lang (c : List Char) :
    (toRE blockCommentContent).Lang c ↔ ¬ fence <:+: c ∧ c.getLast? ≠ some dquote := by
  rw [blockCommentContent_re]
  constructor
  · rintro ⟨us, rfl, hus⟩
    exact content_of_units us (fun u hu => (commentUnit_iff u).1 (hus u hu))
  · rintro ⟨hf, hl⟩
    obtain ⟨us, rfl, hus⟩ := units_of_content c hf hl
    exact ⟨us, rfl, fun u hu => (commentUnit_iff u).2 (hus u hu)⟩

/-- The rule `block_comment`: fence, content, fence. -/
theorem block_comment_rule (T : LetterTable) :
    rules T NT.block_comment =
      Rule.cat (str "\"\"\"") (Rule.cat blockCommentContent (str "\"\"\"")) := rfl

/-- The content spelled is the content matched. -/
theorem spells_content (G : NT → Rule) (c : List Char) :
    Spells G blockCommentContent c ↔ (toRE blockCommentContent).Lang c := by
  rw [spells_iff G blockCommentContent rfl, rmatch_iff]

/-- The texts of `block_comment`. -/
theorem block_comment_spells (T : LetterTable) (s : List Char) :
    Spells (rules T) (Rule.sym NT.block_comment) s ↔
      ∃ c, s = fence ++ c ++ fence ∧ Spells (rules T) blockCommentContent c := by
  rw [spells_sym, block_comment_rule,
    spells_iff (rules T) (Rule.cat (str "\"\"\"") (Rule.cat blockCommentContent (str "\"\"\"")))
      rfl, rmatch_iff]
  show (RE.seq (lit fence) (RE.seq (toRE blockCommentContent) (lit fence))).Lang s ↔ _
  simp only [lang_seq, lang_lit, ← spells_content (rules T)]
  constructor
  · rintro ⟨_, _, rfl, rfl, c, _, rfl, hc, rfl⟩
    exact ⟨c, by simp, hc⟩
  · rintro ⟨c, rfl, hc⟩
    exact ⟨_, _, by simp, rfl, c, _, rfl, hc, rfl⟩

end

/-! ### C10: fenced code labels -/

section
open RE

/-- A string literal denotes its token. -/
theorem den_str_tok (S : NT → List Tok → Prop) (k : String) (w : List Tok) :
    Den S (str k) w ↔ w = [strTok k] := den_str S k w

/-- The rule `codeblock_language` derives its non-empty alphanumeric tokens. -/
theorem den_codeblock_language (T : LetterTable) (w : List Tok) :
    Den (fun n w => Derives (rules T) (rules T n) w) (Rule.sym NT.codeblock_language) w ↔
      ∃ l : List Char, w = [⟨"codeblock_language", l⟩] ∧ l ≠ [] ∧ ∀ x ∈ l, isAlnum x = true := by
  rw [den_sym]
  have e : rules T NT.codeblock_language = Rule.tok "codeblock_language" (plus (cls isAlnum)) := rfl
  rw [e, derives_tok_iff]
  simp only [rmatch_iff, lang_plus_cls]

/-- A pattern that excludes one character denotes the tokens without it. -/
theorem den_not_class (S : NT → List Tok → Prop) (k : String) (q : Char) (w : List Tok) :
    Den S (pat k (star (cls (fun c => c != q)))) w ↔ ∃ s : List Char, w = [⟨k, s⟩] ∧ q ∉ s := by
  simp only [pat, den_tok, rmatch_iff, lang_star_cls, bne_iff_ne, ne_eq]
  constructor
  · rintro ⟨s, rfl, hs⟩
    exact ⟨s, rfl, fun hq => hs q hq rfl⟩
  · rintro ⟨s, rfl, hs⟩
    exact ⟨s, rfl, fun c hc e => hs (e ▸ hc)⟩

/-- An alternative of `label_codeblock` whose content is one token. -/
theorem den_fenced_token (T : LetterTable) (o k cl : String) (q : Char) (w : List Tok) :
    Den (fun n w => Derives (rules T) (rules T n) w)
      (Rule.cat (str o) (Rule.cat (Rule.sym NT.codeblock_language)
        (Rule.cat (pat k (star (cls (fun c => c != q)))) (str cl)))) w ↔
      ∃ (l : List Char) (c : List Tok), w = strTok o :: ⟨"codeblock_language", l⟩ ::
        (c ++ [strTok cl]) ∧ l ≠ [] ∧ (∀ x ∈ l, isAlnum x = true) ∧
        ∃ s : List Char, c = [⟨k, s⟩] ∧ q ∉ s := by
  simp only [den_cat, den_str_tok, den_codeblock_language, den_not_class]
  constructor
  · rintro ⟨_, _, rfl, rfl, _, _, rfl, ⟨l, rfl, hl, ha⟩, _, _, rfl, ⟨s, rfl, hs⟩, rfl⟩
    exact ⟨l, _, rfl, hl, ha, s, rfl, hs⟩
  · rintro ⟨l, _, rfl, hl, ha, s, rfl, hs⟩
    exact ⟨_, _, rfl, rfl, _, _, rfl, ⟨l, rfl, hl, ha⟩, _, _, rfl, ⟨s, rfl, hs⟩, rfl⟩

/-- An alternative of `label_codeblock` whose content is a `codeblock_content`. -/
theorem den_fenced_content (T : LetterTable) (o cl : String) (w : List Tok) :
    Den (fun n w => Derives (rules T) (rules T n) w)
      (Rule.cat (str o) (Rule.cat (Rule.sym NT.codeblock_language)
        (Rule.cat (Rule.sym NT.codeblock_content) (str cl)))) w ↔
      ∃ (l : List Char) (c : List Tok), w = strTok o :: ⟨"codeblock_language", l⟩ ::
        (c ++ [strTok cl]) ∧ l ≠ [] ∧ (∀ x ∈ l, isAlnum x = true) ∧
        Derives (rules T) (Rule.sym NT.codeblock_content) c := by
  simp only [den_cat, den_str_tok, den_codeblock_language]
  simp only [den_sym, ← derives_sym_iff (G := rules T)]
  constructor
  · rintro ⟨_, _, rfl, rfl, _, _, rfl, ⟨l, rfl, hl, ha⟩, c, _, rfl, hc, rfl⟩
    exact ⟨l, c, rfl, hl, ha, hc⟩
  · rintro ⟨l, c, rfl, hl, ha, hc⟩
    exact ⟨_, _, rfl, rfl, _, _, rfl, ⟨l, rfl, hl, ha⟩, c, _, rfl, hc, rfl⟩

/-- The sequences derived from `label_codeblock`, by style. -/
theorem label_codeblock_iff (T : LetterTable) (w : List Tok) :
    Derives (rules T) (Rule.sym NT.label_codeblock) w ↔ ∃ st : FenceStyle, Fenced T st w := by
  rw [derives_sym_iff, derives_iff_den]
  have e : rules T NT.label_codeblock =
      Rule.alt
        (Rule.cat (str "|\x60") (Rule.cat (Rule.sym NT.codeblock_language)
          (Rule.cat (pat "[^\x60]*" (star (cls (fun c => c != backtick)))) (str "\x60|"))))
        (Rule.alt
          (Rule.cat (str "|||") (Rule.cat (Rule.sym NT.codeblock_language)
            (Rule.cat (Rule.sym NT.codeblock_content) (str "|||"))))
          (Rule.alt
            (Rule.cat (str "||") (Rule.cat (Rule.sym NT.codeblock_language)
              (Rule.cat (Rule.sym NT.codeblock_content) (str "||"))))
            (Rule.cat (str "|") (Rule.cat (Rule.sym NT.codeblock_language)
              (Rule.cat (pat "[^\\|]*" (star (cls (fun c => c != '|')))) (str "|")))))) := rfl
  rw [e, den_alt, den_alt, den_alt, den_fenced_token, den_fenced_content, den_fenced_content,
    den_fenced_token]
  constructor
  · rintro (h | h | h | h)
    · exact ⟨FenceStyle.tick, h⟩
    · exact ⟨FenceStyle.pipe3, h⟩
    · exact ⟨FenceStyle.pipe2, h⟩
    · exact ⟨FenceStyle.pipe1, h⟩
  · rintro ⟨st, h⟩
    cases st
    · exact Or.inl h
    · exact Or.inr (Or.inl h)
    · exact Or.inr (Or.inr (Or.inl h))
    · exact Or.inr (Or.inr (Or.inr h))

/-- The text of a fenced code label. -/
theorem fenced_text (T : LetterTable) (st : FenceStyle) (w : List Tok) (h : Fenced T st w) :
    ∃ (l : List Char) (c : List Tok), l ≠ [] ∧ (∀ x ∈ l, isAlnum x = true) ∧
      yield w = st.opening.toList ++ l ++ yield c ++ st.closing.toList ∧
      (st = FenceStyle.tick → backtick ∉ yield c) ∧
      (st = FenceStyle.pipe1 → '|' ∉ yield c) := by
  obtain ⟨l, c, rfl, hl, ha, hc⟩ := h
  refine ⟨l, c, hl, ha, by simp [yield, strTok], ?_, ?_⟩
  · rintro rfl
    obtain ⟨s, rfl, hs⟩ := hc
    simpa [yield] using hs
  · rintro rfl
    obtain ⟨s, rfl, hs⟩ := hc
    simpa [yield] using hs

/-- C10 (amended): every sequence derived from `label_codeblock` is, for one of
the four styles, the opening fence, a non-empty alphanumeric language tag, a
content and the closing fence of the same style; the content holds no backtick
in the backtick style and no `|` in the single-pipe style, and is a
`codeblock_content` in the double- and triple-pipe styles. -/
theorem label_codeblock_fences (T : LetterTable) :
    (∀ w : List Tok, Derives (rules T) (Rule.sym NT.label_codeblock) w ↔
      ∃ st : FenceStyle, Fenced T st w) ∧
    (∀ (st : FenceStyle) (w : List Tok), Fenced T st w →
      ∃ (l : List Char) (c : List Tok), l ≠ [] ∧ (∀ x ∈ l, isAlnum x = true) ∧
        yield w = st.opening.toList ++ l ++ yield c ++ st.closing.toList ∧
        (st = FenceStyle.tick → backtick ∉ yield c) ∧
        (st = FenceStyle.pipe1 → '|' ∉ yield c)) :=
  ⟨label_codeblock_iff T, fenced_text T⟩

/-- Instance of C10 at the single-pipe label of language `js` and content ` x `. -/
theorem label_codeblock_fences_witness :
    ∃ (l : List Char) (c : List Tok), l ≠ [] ∧ (∀ x ∈ l, isAlnum x = true) ∧
      yield [strTok "|", ⟨"codeblock_language", ['j', 's']⟩, ⟨"[^\\|]*", [' ', 'x', ' ']⟩,
        strTok "|"] =
        FenceStyle.pipe1.opening.toList ++ l ++ yield c ++ FenceStyle.pipe1.closing.toList ∧
      (FenceStyle.pipe1 = FenceStyle.tick → backtick ∉ yield c) ∧
      (FenceStyle.pipe1 = FenceStyle.pipe1 → '|' ∉ yield c) :=
  (label_codeblock_fences asciiLetters).2 FenceStyle.pipe1 _
    ⟨['j', 's'], [⟨"[^\\|]*", [' ', 'x', ' ']⟩], rfl, by simp, by decide,
      [' ', 'x', ' '], rfl, by decide⟩

set_option maxRecDepth 100000 in
/-- C10 (counterexample): in the double-pipe style the content ` a||b` before a
line break holds the closing fence `||`, and in the triple-pipe style the
content ` a|||b` holds the closing fence `|||`; both labels are derived. -/
theorem label_codeblock_content_holds_fence :
    Derives (rules asciiLetters) (Rule.sym NT.label_codeblock)
      [strTok "||", ⟨"codeblock_language", ['j', 's']⟩,
       ⟨".+", [' ', 'a', '|', '|', 'b']⟩, ⟨"\\s*", ['\n']⟩, strTok "||"] ∧
    ['|', '|'] <:+: yield [⟨".+", [' ', 'a', '|', '|', 'b']⟩, ⟨"\\s*", ['\n']⟩] ∧
    Derives (rules asciiLetters) (Rule.sym NT.label_codeblock)
      [strTok "|||", ⟨"codeblock_language", ['j', 's']⟩,
       ⟨".+", [' ', 'a', '|', '|', '|', 'b']⟩, ⟨"\\s*", ['\n']⟩, strTok "|||"] ∧
    ['|', '|', '|'] <:+: yield [⟨".+", [' ', 'a', '|', '|', '|', 'b']⟩, ⟨"\\s*", ['\n']⟩] :=
  ⟨derivesB_sound _ 40 _ _ (by decide), by decide, derivesB_sound _ 40 _ _ (by decide),
    by decide⟩

end

/-! ### C17 and C20: the import token and the quoted label -/

section
open RE

/-- The language of the `import` token. -/
theorem import_lang (s : List Char) :
    Lex.import_.Lang s ↔
      ∃ p r : List Char, s = p ++ r ∧ (p = ['@'] ∨ p = ['.', '.', '.', '@']) ∧ r ≠ [] ∧
        ∀ c ∈ r, isSpace c = false := by
  simp only [Lex.import_, seqs, alts, lang_seq, lang_alt, lang_lit, lang_plus_cls,
    Bool.not_eq_true']

/-- C17: the `import` token matches exactly `@` or `...@` followed by one or
more characters that are no white space; no matched string holds white space,
and a bare `@` or `...@` is no import. -/
theorem import_token :
    (∀ s : List Char, Lex.import_.rmatch s = true ↔
      ∃ p r : List Char, s = p ++ r ∧ (p = ['@'] ∨ p = ['.', '.', '.', '@']) ∧ r ≠ [] ∧
        ∀ c ∈ r, isSpace c = false) ∧
    (∀ s : List Char, Lex.import_.rmatch s = true → ∀ c ∈ s, isSpace c = false) ∧
    Lex.import_.rmatch ['@'] = false ∧
    Lex.import_.rmatch ['.', '.', '.', '@'] = false ∧
    Lex.import_.rmatch ['@', 'x', '/', 'y'] = true ∧
    Lex.import_.rmatch ['.', '.', '.', '@', 'x'] = true := by
  refine ⟨fun s => ?_, fun s h => ?_, by decide, by decide, by decide, by decide⟩
  · rw [rmatch_iff]; exact import_lang s
  · rw [rmatch_iff, import_lang] at h
    obtain ⟨p, r, rfl, hp, _, hr⟩ := h
    intro c hc
    rcases List.mem_append.1 hc with h | h
    · rcases hp with rfl | rfl
      · simp only [List.mem_singleton] at h
        subst h; decide
      · simp only [List.mem_cons, List.mem_singleton, List.not_mem_nil, or_false] at h
        rcases h with rfl | rfl | rfl | rfl <;> decide
    · exact hr c h

/-- Instance of C17 at `@x/y`. -/
theorem import_token_witness :
    ∀ c ∈ ['@', 'x', '/', 'y'], isSpace c = false :=
  import_token.2.1 ['@', 'x', '/', 'y'] (by decide)

/-- The language of the quoted label token. -/
theorem label_string_lang (s : List Char) :
    Lex.label_string.Lang s ↔ ∃ l : List Char, s = dquote :: (l ++ [dquote]) ∧ dquote ∉ l := by
  simp only [Lex.label_string, seqs, lang_seq, lang_chr, lang_star_cls, bne_iff_ne, ne_eq]
  constructor
  · rintro ⟨_, _, rfl, rfl, l, _, rfl, hl, rfl⟩
    exact ⟨l, rfl, fun h => hl _ h rfl⟩
  · rintro ⟨l, rfl, hl⟩
    exact ⟨_, _, rfl, rfl, l, _, rfl, fun c hc e => hl (e ▸ hc), rfl⟩

/-- A string without the quote meets the escape condition. -/
theorem escapedFrom_of_not_mem (q : Char) :
    ∀ (l : List Char) (p : Char), q ∉ l → escapedFrom q p l = true
  | [], _, _ => rfl
  | c :: cs, p, h => by
      have hc : c ≠ q := fun e => h (by simp [e])
      have hcs : q ∉ cs := fun e => h (List.mem_cons_of_mem _ e)
      simp [escapedFrom, hc, escapedFrom_of_not_mem q cs c hcs]

/-- C20: every string matched by the label token (a double quote, characters
other than the double quote, a double quote) is matched by `_double_quoted` and
holds exactly two double quotes, while `_double_quoted` also matches a string
with an escaped quote inside, which the label token does not. -/
theorem label_string_sublanguage :
    (∀ s : List Char, Lex.label_string.rmatch s = true → Lex._double_quoted.rmatch s = true) ∧
    (∀ s : List Char, Lex.label_string.rmatch s = true → s.count dquote = 2) ∧
    Lex._double_quoted.rmatch [dquote, 'a', backslash, dquote, 'b', dquote] = true ∧
    Lex.label_string.rmatch [dquote, 'a', backslash, dquote, 'b', dquote] = false := by
  refine ⟨fun s h => ?_, fun s h => ?_, by decide, by decide⟩
  · rw [rmatch_iff, label_string_lang] at h
    obtain ⟨l, rfl, hl⟩ := h
    rw [rmatch_iff]
    show (Lex.quoted dquote).Lang _
    rw [quoted_eq]
    refine ⟨[dquote], _, rfl, (lang_chr _ _).2 rfl, l, [dquote], rfl, ?_, (lang_chr _ _).2 rfl⟩
    rw [quoted_inner_iff dquote (by decide)]
    exact escapedFrom_of_not_mem dquote l dquote hl
  · rw [rmatch_iff, label_string_lang] at h
    obtain ⟨l, rfl, hl⟩ := h
    have : l.count dquote = 0 := List.count_eq_zero_of_not_mem hl
    simp [List.count_append, this]

/-- Instance of C20 at the quoted string `label`. -/
theorem label_string_sublanguage_witness :
    Lex._double_quoted.rmatch [dquote, 'l', 'a', 'b', 'e', 'l', dquote] = true ∧
    [dquote, 'l', 'a', 'b', 'e', 'l', dquote].count dquote = 2 :=
  ⟨label_string_sublanguage.1 _ (by decide), label_string_sublanguage.2.1 _ (by decide)⟩

end

/-! ### C19: free-text labels -/

section
open RE

/-- The braces are no characters of an unquoted identifier. -/
theorem brace_not_identChar (T : LetterTable) :
    identChar T '\x7b' = false ∧ identChar T '\x7d' = false := by
  constructor <;>
  · simp [identChar, identBaseChar, isLetter, isAsciiLetter, isDigit, isIdentGap, isSpace]
    decide

/-- The tokens derived from `_label_base`. -/
theorem label_base_iff (T : LetterTable) (w : List Tok) :
    Derives (rules T) (Rule.sym NT._label_base) w ↔
      ∃ (k : String) (s : List Char), w = [⟨k, s⟩] ∧
        ((k = "_ident_base" ∧ (Lex._ident_base T).rmatch s = true) ∨
         (k = "\\\x7b" ∧ s = [backslash, '\x7b']) ∨
         (k = "[\\(\\)\\\\:.\\-%_#&\\?\\',\\'*]+" ∧ Lex.label_punct.rmatch s = true)) := by
  rw [derives_sym_iff, derives_iff_den]
  have e : rules T NT._label_base = Rule.alt (Rule.sym NT._ident_base)
      (Rule.alt (Rule.tok "\\\x7b" (lit [backslash, '\x7b']))
        (Rule.tok "[\\(\\)\\\\:.\\-%_#&\\?\\',\\'*]+" Lex.label_punct)) := rfl
  have hb : ∀ u, Derives (rules T) (rules T NT._ident_base) u ↔
      ∃ s, u = [⟨"_ident_base", s⟩] ∧ (Lex._ident_base T).rmatch s = true :=
    fun u => derives_tok_iff
  rw [e]
  simp only [den_alt, den_sym, den_tok, hb, rmatch_iff, lang_lit]
  constructor
  · rintro (⟨s, rfl, hs⟩ | ⟨s, rfl, hs⟩ | ⟨s, rfl, hs⟩)
    · exact ⟨_, s, rfl, Or.inl ⟨rfl, hs⟩⟩
    · exact ⟨_, s, rfl, Or.inr (Or.inl ⟨rfl, hs⟩)⟩
    · exact ⟨_, s, rfl, Or.inr (Or.inr ⟨rfl, hs⟩)⟩
  · rintro ⟨k, s, rfl, ⟨rfl, hs⟩ | ⟨rfl, hs⟩ | ⟨rfl, hs⟩⟩
    · exact Or.inl ⟨s, rfl, hs⟩
    · exact Or.inr (Or.inl ⟨s, rfl, hs⟩)
    · exact Or.inr (Or.inr ⟨s, rfl, hs⟩)

/-- The text of a `_label_base` token. -/
theorem label_base_text (T : LetterTable) {w : List Tok}
    (h : Derives (rules T) (Rule.sym NT._label_base) w) :
    '\x7d' ∉ yield w ∧ BraceEscaped (yield w) := by
  obtain ⟨k, s, rfl, hk⟩ := (label_base_iff T w).1 h
  have e : yield [⟨k, s⟩] = s := by simp [yield]
  rw [e]
  rcases hk with ⟨_, hs⟩ | ⟨_, rfl⟩ | ⟨_, hs⟩
  · have ht := (ident_base_text T hs).2
    constructor
    · intro hm
      have := ht _ hm
      rw [(brace_not_identChar T).2] at this
      exact absurd this (by simp)
    · apply preceded_of_none
      rintro x hx rfl
      have := ht _ hx
      rw [(brace_not_identChar T).1] at this
      exact absurd this (by simp)
  · constructor
    · decide
    · intro u v x e hx
      subst hx
      rcases u with _ | ⟨y, _ | ⟨z, u⟩⟩
      · simp at e
        exact absurd e.1 (by decide)
      · simp at e
        exact ⟨[], y, by simp, e.1.symm⟩
      · simp at e
  · rw [rmatch_iff, Lex.label_punct, Lex.prec, lang_plus_cls] at hs
    constructor
    · intro hm
      exact absurd (hs.2 _ hm) (by decide)
    · apply preceded_of_none
      rintro x hx rfl
      exact absurd (hs.2 _ hx) (by decide)

/-- C19: the text of one or more `_label_base` tokens holds no closing brace,
and every opening brace in it comes right after a backslash. -/
theorem free_text_label_braces (T : LetterTable) :
    ∀ w : List Tok, Derives (rules T) freeText w →
      '\x7d' ∉ yield w ∧ BraceEscaped (yield w) := by
  intro w h
  rw [freeText, derives_iff_den, den_repeat1] at h
  obtain ⟨u, v, rfl, hu, us, rfl, hus⟩ := h
  have key : ∀ x ∈ u :: us, '\x7d' ∉ yield x ∧ BraceEscaped (yield x) := by
    intro x hx
    apply label_base_text T
    rw [derives_sym_iff]
    rcases List.mem_cons.1 hx with rfl | hx
    · exact hu
    · exact hus x hx
  have e : yield (u ++ us.flatten) = ((u :: us).map yield).flatten := by
    rw [← yield_flatten]; rfl
  rw [e]
  constructor
  · intro hm
    obtain ⟨s, hs, hc⟩ := List.mem_flatten.1 hm
    obtain ⟨x, hx, rfl⟩ := List.mem_map.1 hs
    exact (key x hx).1 hc
  · apply preceded_flatten
    intro s hs
    obtain ⟨x, hx, rfl⟩ := List.mem_map.1 hs
    exact (key x hx).2

set_option maxRecDepth 100000 in
/-- Instance of C19 at the free text made of `a`, an escaped brace and `.:`. -/
theorem free_text_label_braces_witness :
    '\x7d' ∉ yield [⟨"_ident_base", ['a']⟩, ⟨"\\\x7b", [backslash, '\x7b']⟩,
        ⟨"[\\(\\)\\\\:.\\-%_#&\\?\\',\\'*]+", ['.', ':']⟩] ∧
      BraceEscaped (yield [⟨"_ident_base", ['a']⟩, ⟨"\\\x7b", [backslash, '\x7b']⟩,
        ⟨"[\\(\\)\\\\:.\\-%_#&\\?\\',\\'*]+", ['.', ':']⟩]) :=
  free_text_label_braces asciiLetters _ (derivesB_sound _ 40 _ _ (by decide))

/-- A free text is a `_label_literal`. -/
theorem freeText_label_literal (T : LetterTable) {w : List Tok}
    (h : Derives (rules T) freeText w) : Derives (rules T) (Rule.sym NT._label_literal) w :=
  Derives.sym (Derives.altR (Derives.altR (Derives.altR (Derives.altL h))))

end

/-! ### C11: which terminals match the empty string -/

section
open RE

/-- The list of all rule names is complete. -/
theorem mem_allRules (n : NT) : n ∈ allRules := by
  cases n <;> simp [allRules]

/-- A rule expression that passes the check denotes non-empty text only. -/
theorem den_textNE {N : NT → Bool} :
    ∀ (e : Rule) (w : List Tok), textNE N e = true →
      Den (fun n w => N n = true → yield w ≠ []) e w → yield w ≠ []
  | Rule.blank, _, h, _ => by simp [textNE] at h
  | Rule.tok k r, _, h, ⟨s, hw, hs⟩ => by
      subst hw
      simp only [textNE, Bool.not_eq_true'] at h
      intro e
      have e' : s = [] := by simpa [yield] using e
      subst e'
      rw [rmatch] at hs
      rw [hs] at h
      exact absurd h (by simp)
  | Rule.sym _, _, h, hd => hd h
  | Rule.cat a b, _, h, ⟨u, v, hw, ha, hb⟩ => by
      subst hw
      simp only [textNE, Bool.or_eq_true] at h
      rw [yield_append]
      intro e
      rcases h with h | h
      · exact den_textNE a u h ha (List.append_eq_nil.1 e).1
      · exact den_textNE b v h hb (List.append_eq_nil.1 e).2
  | Rule.alt a b, w, h, hd => by
      simp only [textNE, Bool.and_eq_true] at h
      rcases hd with ha | hb
      · exact den_textNE a w h.1 ha
      · exact den_textNE b w h.2 hb
  | Rule.rep _, _, h, _ => by simp [textNE] at h

/-- Every rule but `source_file` passes the check. -/
theorem consuming_rules (T : LetterTable) (n : NT) (h : consuming n = true) :
    textNE consuming (rules T n) = true := by
  cases n <;> first | rfl | exact absurd h (by decide)

/-- A rule expression that passes the check derives non-empty text only. -/
theorem derives_textNE (T : LetterTable) {e : Rule} {w : List Tok}
    (he : textNE consuming e = true) (h : Derives (rules T) e w) : yield w ≠ [] :=
  den_textNE e w he
    (derives_ind (S := fun n w => consuming n = true → yield w ≠ [])
      (fun n w hd hn => den_textNE (rules T n) w (consuming_rules T n hn) hd) h)

/-- Evaluation: a terminal of the grammar is nullable exactly when it is starred. -/
theorem terminals_check (T : LetterTable) :
    (grammarTerminals T).all
      (fun p => (!p.2.nullable || starredKinds.contains p.1) &&
        (!starredKinds.contains p.1 || p.2.nullable)) = true := by
  rfl

/-- Evaluation: every repeated unit of every rule passes the check. -/
theorem repBodies_check (T : LetterTable) :
    allRules.all (fun n => (repBodies (rules T n)).all (textNE consuming)) = true := by
  rfl

/-- C11 (amended): a terminal of the grammar (of a rule or of the extras)
matches the empty string if and only if it is one of the three starred
patterns; every repeated unit of every rule, and every extra, derives non-empty
text only, so each repetition step consumes at least one character. -/
theorem terminals_nonempty_but_starred (T : LetterTable) :
    (∀ p ∈ grammarTerminals T, p.2.rmatch [] = true ↔ p.1 ∈ starredKinds) ∧
    (∀ (n : NT) (b : Rule), b ∈ repBodies (rules T n) →
      ∀ w : List Tok, Derives (rules T) b w → yield w ≠ []) ∧
    (∀ e ∈ extras, ∀ w : List Tok, Derives (rules T) e w → yield w ≠ []) := by
  refine ⟨fun p hp => ?_, fun n b hb w h => ?_, fun e he w h => ?_⟩
  · have h := List.all_eq_true.1 (terminals_check T) p hp
    have hc : starredKinds.contains p.1 = true ↔ p.1 ∈ starredKinds := by simp
    show p.2.nullable = true ↔ _
    rw [← hc]
    cases hn : p.2.nullable <;> cases hk : starredKinds.contains p.1 <;>
      simp [hn, hk] at h ⊢
    · exact h (hc.1 hk)
    · rw [← hc, hk] at h
      exact absurd h (by simp)
  · have h1 := List.all_eq_true.1 (repBodies_check T) n (mem_allRules n)
    exact derives_textNE T (List.all_eq_true.1 h1 b hb) h
  · have : textNE consuming e = true := by
      simp only [extras, List.mem_cons, List.mem_singleton, List.not_mem_nil, or_false] at he
      rcases he with rfl | rfl | rfl | rfl <;> rfl
    exact derives_textNE T this h

set_option maxRecDepth 100000 in
/-- Instance of C11 at one unit of `codeblock_content` and at the white space extra. -/
theorem terminals_nonempty_but_starred_witness :
    yield [⟨".+", ['a']⟩, ⟨"\\s*", []⟩] ≠ [] ∧ yield [⟨"\\s", [' ']⟩] ≠ [] :=
  ⟨(terminals_nonempty_but_starred asciiLetters).2.1 NT.codeblock_content _
      (List.mem_cons_self _ _) _ (derivesB_sound _ 40 _ _ (by decide)),
   (terminals_nonempty_but_starred asciiLetters).2.2 _
      (List.mem_cons_of_mem _ (List.mem_cons_of_mem _ (List.mem_cons_of_mem _
        (List.mem_cons_self _ _)))) _ (derivesB_sound _ 40 _ _ (by decide))⟩

set_option maxRecDepth 100000 in
/-- C11 (counterexample): the terminal `\s*` of `codeblock_content` matches the
empty string, and tokens with empty text are derived: `\s*` after `.+`, and the
content of the single-pipe label `|js|`. -/
theorem starred_terminal_matches_empty :
    (("\\s*", star (cls isSpace)) : String × RE) ∈ grammarTerminals asciiLetters ∧
    (star (cls isSpace)).rmatch [] = true ∧
    Derives (rules asciiLetters) (Rule.sym NT.codeblock_content)
      [⟨".+", ['a']⟩, ⟨"\\s*", []⟩] ∧
    Derives (rules asciiLetters) (Rule.sym NT.label_codeblock)
      [strTok "|", ⟨"codeblock_language", ['j', 's']⟩, ⟨"[^\\|]*", []⟩, strTok "|"] := by
  refine ⟨?_, rfl, derivesB_sound _ 40 _ _ (by decide), derivesB_sound _ 40 _ _ (by decide)⟩
  apply List.mem_append_left
  apply List.mem_flatten.2
  refine ⟨terminals (rules asciiLetters NT.codeblock_content), ?_, ?_⟩
  · exact List.mem_map.2 ⟨NT.codeblock_content, mem_allRules _, rfl⟩
  · exact List.mem_cons_of_mem _ (List.mem_cons_self _ _)

end

/-! ### C16: constraint lists -/

section
open RE

/-- One entry of a constraint list. -/
theorem den_constraint_item (T : LetterTable) (w : List Tok) :
    Den (fun n w => Derives (rules T) (rules T n) w)
      (Rule.cat (Rule.sym NT.label_constraint) (optional (str ";"))) w ↔
      ∃ c : ConstraintItem, c.ok ∧ w = c.render := by
  have hn : ∀ u, Derives (rules T) (rules T NT.label_constraint) u ↔
      ∃ s, u = [⟨"label_constraint", s⟩] ∧ Lex.label_constraint.rmatch s = true :=
    fun u => derives_tok_iff
  simp only [den_cat, den_optional, den_sym, hn, den_str_tok, rmatch_iff, Lex.label_constraint,
    lang_plus_cls]
  constructor
  · rintro ⟨_, _, rfl, ⟨s, rfl, hs⟩, rfl | rfl⟩
    · exact ⟨⟨s, true⟩, hs, rfl⟩
    · exact ⟨⟨s, false⟩, hs, rfl⟩
  · rintro ⟨⟨s, b⟩, hs, rfl⟩
    cases b
    · exact ⟨_, _, rfl, ⟨s, rfl, hs⟩, Or.inr rfl⟩
    · exact ⟨_, _, rfl, ⟨s, rfl, hs⟩, Or.inl rfl⟩

/-- The sequences derived from `_label_constraints`. -/
theorem label_constraints_iff (T : LetterTable) (w : List Tok) :
    Derives (rules T) (Rule.sym NT._label_constraints) w ↔ ConstraintList w := by
  rw [derives_sym_iff, derives_iff_den]
  have e : rules T NT._label_constraints =
      Rule.cat (str "[")
        (Rule.cat (repeat1 (Rule.cat (Rule.sym NT.label_constraint) (optional (str ";"))))
          (str "]")) := rfl
  rw [e, den_cat]
  simp only [den_cat, den_str_tok, den_repeat1_shape (den_constraint_item T), ConstraintList]
  constructor
  · rintro ⟨_, _, rfl, rfl, _, _, rfl, ⟨cs, hne, hcs, rfl⟩, rfl⟩
    exact ⟨cs, hne, hcs, rfl⟩
  · rintro ⟨cs, hne, hcs, rfl⟩
    exact ⟨_, _, rfl, rfl, _, _, rfl, ⟨cs, hne, hcs, rfl⟩, rfl⟩

/-- C16 (amended): a constraint list is `[`, one or more names and `]`, each
name a non-empty run of letters, digits and `_` with an optional `;` after it;
`[c1;c2;c3]` and `[c1;c2;c3;]` are derived with three constraints and `[]` is
not derived. -/
theorem constraint_list_shape (T : LetterTable) :
    (∀ w : List Tok, Derives (rules T) (Rule.sym NT._label_constraints) w ↔ ConstraintList w) ∧
    Derives (rules T) (Rule.sym NT._label_constraints)
      [strTok "[", ⟨"label_constraint", ['c', '1']⟩, strTok ";",
       ⟨"label_constraint", ['c', '2']⟩, strTok ";", ⟨"label_constraint", ['c', '3']⟩,
       strTok "]"] ∧
    Derives (rules T) (Rule.sym NT._label_constraints)
      [strTok "[", ⟨"label_constraint", ['c', '1']⟩, strTok ";",
       ⟨"label_constraint", ['c', '2']⟩, strTok ";", ⟨"label_constraint", ['c', '3']⟩,
       strTok ";", strTok "]"] ∧
    ¬ Derives (rules T) (Rule.sym NT._label_constraints) [strTok "[", strTok "]"] := by
  refine ⟨label_constraints_iff T, ?_, ?_, ?_⟩
  · rw [label_constraints_iff]
    refine ⟨[⟨['c', '1'], true⟩, ⟨['c', '2'], true⟩, ⟨['c', '3'], false⟩], by simp, ?_, rfl⟩
    intro c hc
    simp only [List.mem_cons, List.mem_singleton, List.not_mem_nil, or_false] at hc
    rcases hc with rfl | rfl | rfl <;> exact ⟨by simp, by decide⟩
  · rw [label_constraints_iff]
    refine ⟨[⟨['c', '1'], true⟩, ⟨['c', '2'], true⟩, ⟨['c', '3'], true⟩], by simp, ?_, rfl⟩
    intro c hc
    simp only [List.mem_cons, List.mem_singleton, List.not_mem_nil, or_false] at hc
    rcases hc with rfl | rfl | rfl <;> exact ⟨by simp, by decide⟩
  · rw [label_constraints_iff]
    rintro ⟨cs, hne, _, e⟩
    cases cs with
    | nil => exact hne rfl
    | cons c cs =>
      have := congrArg List.length e
      simp [ConstraintItem.render] at this

set_option maxRecDepth 100000 in
/-- C16 (counterexample): the list of the two names `c1` and `c2` with no `;`
between them is derived, although the `;` between consecutive names is
specified as required. -/
theorem constraint_list_without_semicolon :
    Derives (rules asciiLetters) (Rule.sym NT._label_constraints)
      [strTok "[", ⟨"label_constraint", ['c', '1']⟩, ⟨"label_constraint", ['c', '2']⟩,
       strTok "]"] ∧
    ¬ ConstraintListSpec
      [strTok "[", ⟨"label_constraint", ['c', '1']⟩, ⟨"label_constraint", ['c', '2']⟩,
       strTok "]"] := by
  refine ⟨derivesB_sound _ 40 _ _ (by decide), ?_⟩
  rintro ⟨cs, l, hcs, _, e⟩
  cases cs with
  | nil =>
    cases hl : l.semi <;>
      simp [ConstraintItem.render, hl, strTok] at e
  | cons c cs =>
    have hc := (hcs c (List.mem_cons_self _ _)).2
    simp [ConstraintItem.render, hc, strTok] at e

set_option maxRecDepth 100000 in
/-- Instance of C16 at `[c1;c2]`. -/
theorem constraint_list_shape_witness :
    ConstraintList [strTok "[", ⟨"label_constraint", ['c', '1']⟩, strTok ";",
      ⟨"label_constraint", ['c', '2']⟩, strTok "]"] :=
  ((constraint_list_shape asciiLetters).1 _).1 (derivesB_sound _ 40 _ _ (by decide))

end

/-! ### C14: separated lists and expressions -/

section
open RE

/-- The repeated part of `sep` and `sep1`: a separator and an occurrence. -/
theorem den_sep_pair (S : NT → List Tok → Prop) (a b : Rule) (u : List Tok) :
    Den S (Rule.cat b a) u ↔
      ∃ p : List Tok × List Tok, (Den S b p.1 ∧ Den S a p.2) ∧ u = p.1 ++ p.2 := by
  rw [den_cat]
  constructor
  · rintro ⟨x, y, rfl, hx, hy⟩
    exact ⟨(x, y), ⟨hx, hy⟩, rfl⟩
  · rintro ⟨⟨x, y⟩, ⟨hx, hy⟩, rfl⟩
    exact ⟨x, y, rfl, hx, hy⟩

/-- The denotation of `sep`. -/
theorem den_sep (S : NT → List Tok → Prop) (a b : Rule) (w : List Tok) :
    Den S (sep a b) w ↔ SepShape (Den S a) (Den S b) w := by
  have e : sep a b = Rule.cat a (Rule.rep (Rule.cat b a)) := rfl
  rw [e, den_cat]
  simp only [den_rep_shape (den_sep_pair S a b), SepShape]
  constructor
  · rintro ⟨x, _, rfl, hx, ps, hps, rfl⟩
    exact ⟨x, ps, hx, hps, rfl⟩
  · rintro ⟨x, ps, hx, hps, rfl⟩
    exact ⟨x, _, rfl, hx, ps, hps, rfl⟩

/-- The denotation of `sep1`. -/
theorem den_sep1 (S : NT → List Tok → Prop) (a b : Rule) (w : List Tok) :
    Den S (sep1 a b) w ↔ Sep1Shape (Den S a) (Den S b) w := by
  have e : sep1 a b = Rule.cat a (repeat1 (Rule.cat b a)) := rfl
  rw [e, den_cat]
  simp only [den_repeat1_shape (den_sep_pair S a b), Sep1Shape]
  constructor
  · rintro ⟨x, _, rfl, hx, ps, hne, hps, rfl⟩
    exact ⟨x, ps, hne, hx, hps, rfl⟩
  · rintro ⟨x, ps, hne, hx, hps, rfl⟩
    exact ⟨x, _, rfl, hx, ps, hne, hps, rfl⟩

/-- The sequences derived from `sep(rule, separator)`. -/
theorem derives_sep (G : NT → Rule) (a b : Rule) (w : List Tok) :
    Derives G (sep a b) w ↔ SepShape (Derives G a) (Derives G b) w := by
  rw [derives_iff_den, den_sep]
  simp only [SepShape, ← derives_iff_den]

/-- The sequences derived from `sep1(rule, separator)`. -/
theorem derives_sep1 (G : NT → Rule) (a b : Rule) (w : List Tok) :
    Derives G (sep1 a b) w ↔ Sep1Shape (Derives G a) (Derives G b) w := by
  rw [derives_iff_den, den_sep1]
  simp only [Sep1Shape, ← derives_iff_den]

/-- The rule `connection` derives its single tokens. -/
theorem den_connection (T : LetterTable) (u : List Tok) :
    Derives (rules T) (Rule.sym NT.connection) u ↔ ∃ c : Tok, isConnTok c = true ∧ u = [c] := by
  rw [derives_sym_iff]
  have e : rules T NT.connection = Rule.tok "connection" Lex.connection := rfl
  rw [e, derives_tok_iff]
  constructor
  · rintro ⟨s, rfl, hs⟩
    exact ⟨_, by simp [isConnTok, hs], rfl⟩
  · rintro ⟨c, hc, rfl⟩
    simp only [isConnTok, Bool.and_eq_true, beq_iff_eq] at hc
    refine ⟨c.text, ?_, hc.2⟩
    cases c; simp at hc; simp [hc.1]

/-- The sequences derived from `_expr`, in parts. -/
theorem expr_iff (T : LetterTable) (w : List Tok) :
    Derives (rules T) (Rule.sym NT._expr) w ↔ ExprShape T w := by
  rw [derives_sym_iff]
  have e : rules T NT._expr = sep (Rule.sym NT._identifier) (Rule.sym NT.connection) := rfl
  rw [e, derives_sep]
  constructor
  · rintro ⟨x, ps, hx, hps, rfl⟩
    obtain ⟨qs, hq, hqs⟩ := exists_map_of_forall
      (f := fun q : Tok × List Tok => (([q.1], q.2) : List Tok × List Tok))
      (Q := fun q => isConnTok q.1 = true ∧ Derives (rules T) (Rule.sym NT._identifier) q.2) ps
      (fun p hp => by
        obtain ⟨h1, h2⟩ := hps p hp
        obtain ⟨c, hc, e1⟩ := (den_connection T _).1 h1
        exact ⟨(c, p.2), Prod.ext e1 rfl, hc, h2⟩)
    refine ⟨x, qs, hx, hqs, ?_⟩
    rw [hq, List.map_map]
    rfl
  · rintro ⟨i, ps, hi, hps, rfl⟩
    refine ⟨i, ps.map (fun q => ([q.1], q.2)), hi, ?_, ?_⟩
    · intro p hp
      obtain ⟨q, hq, rfl⟩ := List.mem_map.1 hp
      exact ⟨(den_connection T _).2 ⟨q.1, (hps q hq).1, rfl⟩, (hps q hq).2⟩
    · rw [List.map_map]
      rfl

/-- The kinds of the tokens of an identifier or identifier chain. -/
theorem chain_kinds (T : LetterTable) {n : NT} {w : List Tok}
    (h : Derives (rules T) (Rule.sym n) w) (hn : chainRules n = true) :
    ∀ t ∈ w, identifierKinds t.kind = true := by
  refine derives_kinds (N := chainRules) ?_ h hn
  intro n hn
  cases n <;> first | rfl | exact absurd hn (by decide)

/-- An identifier is non-empty and made of identifier tokens. -/
theorem identifier_good (T : LetterTable) {i : List Tok}
    (h : Derives (rules T) (Rule.sym NT._identifier) i) :
    i ≠ [] ∧ ∀ t ∈ i, identifierKinds t.kind = true := by
  refine ⟨?_, chain_kinds T h rfl⟩
  rintro rfl
  exact derives_textNE T (e := Rule.sym NT._identifier) rfl h rfl

/-- An identifier token is no connection. -/
theorem not_conn_of_identifierKind {t : Tok} (h : identifierKinds t.kind = true) :
    ¬ t.kind = "connection" := by
  intro e
  rw [e] at h
  exact absurd h (by decide)

/-- An identifier is a good expression. -/
theorem goodExpr_of_identifier {i : List Tok} (hne : i ≠ [])
    (hk : ∀ t ∈ i, identifierKinds t.kind = true) : GoodExpr i := by
  refine ⟨hne, fun t ht => hk t (List.mem_of_mem_getLast? ht), ?_⟩
  exact preceded_of_none (fun x hx => not_conn_of_identifierKind (hk x hx))

/-- A good expression stays good with a connection and an identifier after it. -/
theorem goodExpr_extend {g i : List Tok} (c : Tok) (hg : GoodExpr g) (hne : i ≠ [])
    (hk : ∀ t ∈ i, identifierKinds t.kind = true) : GoodExpr (g ++ c :: i) := by
  obtain ⟨hgne, hlast, hpre⟩ := hg
  have glast : ∃ (u' : List Tok) (y : Tok), g = u' ++ [y] ∧ identifierKinds y.kind = true := by
    rcases List.eq_nil_or_concat g with rfl | ⟨g', y, rfl⟩
    · exact absurd rfl hgne
    · rw [List.concat_eq_append] at hlast ⊢
      exact ⟨g', y, rfl, hlast y (by simp)⟩
  refine ⟨by simp, ?_, ?_⟩
  · intro t ht
    rw [List.getLast?_append_of_ne_nil _ (by simp)] at ht
    cases i with
    | nil => exact absurd rfl hne
    | cons y r =>
      rw [List.getLast?_cons_cons] at ht
      exact hk t (List.mem_of_mem_getLast? ht)
  · have h1 : Preceded (fun t : Tok => t.kind = "connection")
        (fun t : Tok => identifierKinds t.kind = true) (g ++ [c]) := by
      intro u v x e hx
      rcases List.append_eq_append_iff.1 e with ⟨m, rfl, hm⟩ | ⟨m, rfl, hm⟩
      · cases m with
        | nil =>
          obtain ⟨u', y, hu', hy⟩ := glast
          exact ⟨u', y, by simp [hu'], hy⟩
        | cons z m =>
          simp only [List.cons_append, List.cons.injEq] at hm
          have := congrArg List.length hm.2
          simp at this
          omega
      · cases m with
        | nil =>
          obtain ⟨u', y, hu', hy⟩ := glast
          exact ⟨u', y, by simpa using hu', hy⟩
        | cons z m =>
          simp only [List.cons_append, List.cons.injEq] at hm
          obtain ⟨rfl, _⟩ := hm
          exact hpre u m x rfl hx
    have h2 := preceded_append h1
      (preceded_of_none (Y := fun t : Tok => identifierKinds t.kind = true)
        (fun x hx => not_conn_of_identifierKind (hk x hx)))
    simpa using h2

/-- A good expression stays good with pairs of connection and identifier after it. -/
theorem goodExpr_pairs (T : LetterTable) :
    ∀ (ps : List (Tok × List Tok)) (g : List Tok), GoodExpr g →
      (∀ p ∈ ps, isConnTok p.1 = true ∧ Derives (rules T) (Rule.sym NT._identifier) p.2) →
      GoodExpr (g ++ (ps.map (fun p => p.1 :: p.2)).flatten)
  | [], g, hg, _ => by simpa using hg
  | p :: ps, g, hg, h => by
      have hp := (h p (List.mem_cons_self _ _)).2
      have hgood := goodExpr_extend p.1 hg (identifier_good T hp).1 (identifier_good T hp).2
      have ih := goodExpr_pairs T ps (g ++ p.1 :: p.2) hgood
        (fun q hq => h q (List.mem_cons_of_mem _ hq))
      simpa using ih

/-- Every expression is a good expression. -/
theorem expr_good (T : LetterTable) {w : List Tok}
    (h : Derives (rules T) (Rule.sym NT._expr) w) : GoodExpr w := by
  obtain ⟨i, ps, hi, hps, rfl⟩ := (expr_iff T w).1 h
  exact goodExpr_pairs T ps i
    (goodExpr_of_identifier (identifier_good T hi).1 (identifier_good T hi).2) hps

/-- A good expression has no two neighbouring connections. -/
theorem noAdjacent_of_good {w : List Tok} (h : GoodExpr w) : NoAdjacentConnections w := by
  intro u v s t e hst
  obtain ⟨u', y, hu', hy⟩ := h.2.2 (u ++ [s]) v t (by simp [e]) hst.2
  have := List.append_inj_right' hu' rfl
  simp only [List.cons.injEq, and_true] at this
  subst this
  exact not_conn_of_identifierKind hy hst.1

/-- The pairs of an expression hold one connection token each. -/
theorem count_connections (T : LetterTable) :
    ∀ (ps : List (Tok × List Tok)),
      (∀ p ∈ ps, isConnTok p.1 = true ∧ Derives (rules T) (Rule.sym NT._identifier) p.2) →
      ((ps.map (fun p => p.1 :: p.2)).flatten).countP (fun t => t.kind == "connection")
        = ps.length
  | [], _ => rfl
  | p :: ps, h => by
      obtain ⟨hc, hi⟩ := h p (List.mem_cons_self _ _)
      have ih := count_connections T ps (fun q hq => h q (List.mem_cons_of_mem _ hq))
      have h0 : p.2.countP (fun t => t.kind == "connection") = 0 := by
        rw [List.countP_eq_zero]
        intro t ht
        simpa using not_conn_of_identifierKind ((identifier_good T hi).2 t ht)
      have h1 : (p.1.kind == "connection") = true := by
        simp only [isConnTok, Bool.and_eq_true] at hc
        exact hc.1
      simp only [List.map_cons, List.flatten_cons, List.countP_append, List.countP_cons, h1,
        if_true, h0, ih, List.length_cons, List.cons_append]
      omega

/-- The sequences derived from `identifier_chain`. -/
theorem identifier_chain_iff (T : LetterTable) (w : List Tok) :
    Derives (rules T) (Rule.sym NT.identifier_chain) w ↔
      Sep1Shape (Derives (rules T) (Rule.sym NT.identifier_new))
        (Derives (rules T) (token "." (lit ['.']))) w := by
  rw [derives_sym_iff]
  have e : rules T NT.identifier_chain =
      sep1 (Rule.sym NT.identifier_new) (token "." (lit ['.'])) := rfl
  rw [e, derives_sep1]

set_option maxRecDepth 100000 in
/-- C14: `sep` derives exactly one or more occurrences of the rule separated by
the separator and `sep1` exactly two or more; every sequence derived from
`_expr` is an identifier followed by pairs of a connection and an identifier:
it starts and ends with an identifier token, has no two neighbouring
connections and as many connection tokens as pairs, so one identifier more than
connections; `a -> b` is an expression and `a ->` is not; an `identifier_chain`
has a first component and at least one further one. -/
theorem sep_and_expr_shape (T : LetterTable) :
    (∀ (G : NT → Rule) (a b : Rule) (w : List Tok),
      Derives G (sep a b) w ↔ SepShape (Derives G a) (Derives G b) w) ∧
    (∀ (G : NT → Rule) (a b : Rule) (w : List Tok),
      Derives G (sep1 a b) w ↔ Sep1Shape (Derives G a) (Derives G b) w) ∧
    (∀ w : List Tok, Derives (rules T) (Rule.sym NT._expr) w ↔ ExprShape T w) ∧
    (∀ w : List Tok, Derives (rules T) (Rule.sym NT._expr) w →
      (∃ (t : Tok) (r : List Tok), w = t :: r ∧ identifierKinds t.kind = true) ∧
      (∃ (r : List Tok) (t : Tok), w = r ++ [t] ∧ identifierKinds t.kind = true) ∧
      NoAdjacentConnections w) ∧
    (∀ (i : List Tok) (ps : List (Tok × List Tok)),
      Derives (rules T) (Rule.sym NT._identifier) i →
      (∀ p ∈ ps, isConnTok p.1 = true ∧ Derives (rules T) (Rule.sym NT._identifier) p.2) →
      (i ++ (ps.map (fun p => p.1 :: p.2)).flatten).countP (fun t => t.kind == "connection")
        = ps.length) ∧
    Derives (rules T) (Rule.sym NT._expr)
      [⟨"_ident_base", ['a']⟩, ⟨"connection", ['-', '>']⟩, ⟨"_ident_base", ['b']⟩] ∧
    ¬ Derives (rules T) (Rule.sym NT._expr)
      [⟨"_ident_base", ['a']⟩, ⟨"connection", ['-', '>']⟩] ∧
    (∀ w : List Tok, Derives (rules T) (Rule.sym NT.identifier_chain) w ↔
      Sep1Shape (Derives (rules T) (Rule.sym NT.identifier_new))
        (Derives (rules T) (token "." (RE.lit ['.']))) w) := by
  refine ⟨derives_sep, derives_sep1, expr_iff T, fun w h => ?_, fun i ps hi hps => ?_,
    derivesB_sound _ 40 _ _ (by rfl), fun h => ?_, identifier_chain_iff T⟩
  · have hg := expr_good T h
    refine ⟨?_, ?_, noAdjacent_of_good hg⟩
    · obtain ⟨i, ps, hi, _, rfl⟩ := (expr_iff T w).1 h
      obtain ⟨hne, hk⟩ := identifier_good T hi
      cases i with
      | nil => exact absurd rfl hne
      | cons t r => exact ⟨t, _, rfl, hk t (List.mem_cons_self _ _)⟩
    · rcases List.eq_nil_or_concat w with rfl | ⟨r, t, rfl⟩
      · exact absurd rfl hg.1
      · rw [List.concat_eq_append] at hg ⊢
        exact ⟨r, t, rfl, hg.2.1 t (by simp)⟩
  · rw [List.countP_append, count_connections T ps hps]
    have h0 : i.countP (fun t => t.kind == "connection") = 0 := by
      rw [List.countP_eq_zero]
      intro t ht
      simpa using not_conn_of_identifierKind ((identifier_good T hi).2 t ht)
    omega
  · have hg := expr_good T h
    have := hg.2.1 ⟨"connection", ['-', '>']⟩ rfl
    exact absurd this (by decide)

set_option maxRecDepth 100000 in
/-- Instance of C14 at `a -> b -- c` and at the parts of `a -> b`. -/
theorem sep_and_expr_shape_witness :
    ((∃ (t : Tok) (r : List Tok),
        [(⟨"_ident_base", ['a']⟩ : Tok), ⟨"connection", ['-', '>']⟩, ⟨"_ident_base", ['b']⟩,
          ⟨"connection", ['-', '-']⟩, ⟨"_ident_base", ['c']⟩] = t :: r ∧
        identifierKinds t.kind = true) ∧
      (∃ (r : List Tok) (t : Tok),
        [(⟨"_ident_base", ['a']⟩ : Tok), ⟨"connection", ['-', '>']⟩, ⟨"_ident_base", ['b']⟩,
          ⟨"connection", ['-', '-']⟩, ⟨"_ident_base", ['c']⟩] = r ++ [t] ∧
        identifierKinds t.kind = true) ∧
      NoAdjacentConnections
        [⟨"_ident_base", ['a']⟩, ⟨"connection", ['-', '>']⟩, ⟨"_ident_base", ['b']⟩,
          ⟨"connection", ['-', '-']⟩, ⟨"_ident_base", ['c']⟩]) ∧
    ([(⟨"_ident_base", ['a']⟩ : Tok)] ++
        ([((⟨"connection", ['-', '>']⟩ : Tok), [(⟨"_ident_base", ['b']⟩ : Tok)])].map
          (fun p => p.1 :: p.2)).flatten).countP (fun t => t.kind == "connection") =
      [((⟨"connection", ['-', '>']⟩ : Tok), [(⟨"_ident_base", ['b']⟩ : Tok)])].length :=
  ⟨(sep_and_expr_shape asciiLetters).2.2.2.1 _ (derivesB_sound _ 40 _ _ (by decide)),
   (sep_and_expr_shape asciiLetters).2.2.2.2.1 _ _ (derivesB_sound _ 40 _ _ (by decide))
     (fun p hp => by
       simp only [List.mem_singleton] at hp
       subst hp
       exact ⟨by decide, derivesB_sound _ 40 _ _ (by decide)⟩)⟩

end

/-! ### C12: connection references -/

section
open RE

/-- The language of the `connection_identifier` token. -/
theorem index_text_iff (s : List Char) :
    Lex.connection_identifier.rmatch s = true ↔ IsIndexText s := by
  rw [rmatch_iff]
  simp only [Lex.connection_identifier, seqs, lang_seq, lang_chr, lang_plus_cls, IsIndexText]
  constructor
  · rintro ⟨_, _, rfl, rfl, d, _, rfl, hd, rfl⟩
    exact ⟨d, hd.1, hd.2, rfl⟩
  · rintro ⟨d, hne, hd, rfl⟩
    exact ⟨_, _, rfl, rfl, d, _, rfl, ⟨hne, hd⟩, rfl⟩

/-- One field: a `.` and an identifier. -/
theorem den_field (T : LetterTable) (u : List Tok) :
    Den (fun n w => Derives (rules T) (rules T n) w)
      (Rule.cat (str ".") (Rule.sym NT.identifier)) u ↔
      ∃ f : List Tok, Derives (rules T) (Rule.sym NT.identifier) f ∧ u = strTok "." :: f := by
  simp only [den_cat, den_str_tok, den_sym, ← derives_sym_iff (G := rules T)]
  constructor
  · rintro ⟨_, f, rfl, rfl, hf⟩
    exact ⟨f, hf, rfl⟩
  · rintro ⟨f, hf, rfl⟩
    exact ⟨_, f, rfl, rfl, hf⟩

/-- The sequences derived from `_fields`: one or more fields. -/
theorem fields_iff (T : LetterTable) (w : List Tok) :
    Derives (rules T) (Rule.sym NT._fields) w ↔
      ∃ fs : List (List Tok), fs ≠ [] ∧
        (∀ f ∈ fs, Derives (rules T) (Rule.sym NT.identifier) f) ∧
        w = (fs.map (fun f => strTok "." :: f)).flatten := by
  rw [derives_sym_iff, derives_iff_den]
  have e : rules T NT._fields = repeat1 (Rule.cat (str ".") (Rule.sym NT.identifier)) := rfl
  rw [e, den_repeat1_shape (den_field T)]

/-- The sequences derived from `connection_reference`, in parts. -/
theorem connection_reference_iff (T : LetterTable) (w : List Tok) :
    Derives (rules T) (Rule.sym NT.connection_reference) w ↔ ConnRefShape T w := by
  rw [derives_sym_iff, derives_iff_den]
  have e : rules T NT.connection_reference =
      Rule.cat (str "(") (Rule.cat (Rule.sym NT._expr) (Rule.cat (str ")")
        (Rule.cat (Rule.sym NT.connection_identifier) (optional (Rule.sym NT._fields))))) := rfl
  have hi : ∀ u, Derives (rules T) (Rule.sym NT.connection_identifier) u ↔
      ∃ s, u = [⟨"connection_identifier", s⟩] ∧ IsIndexText s := by
    intro u
    rw [derives_sym_iff]
    have e2 : rules T NT.connection_identifier =
        Rule.tok "connection_identifier" Lex.connection_identifier := rfl
    rw [e2, derives_tok_iff]
    simp only [index_text_iff]
  rw [e]
  simp only [den_cat, den_optional, den_str_tok, den_sym, ← derives_sym_iff (G := rules T), hi,
    fields_iff, ConnRefShape]
  constructor
  · rintro ⟨_, _, rfl, rfl, e, _, rfl, he, _, _, rfl, rfl, _, tl, rfl, ⟨s, rfl, hs⟩, htl⟩
    rcases htl with ⟨fs, _, hfs, rfl⟩ | rfl
    · exact ⟨e, s, fs, he, hs, hfs, rfl⟩
    · exact ⟨e, s, [], he, hs, by simp, rfl⟩
  · rintro ⟨e, s, fs, he, hs, hfs, rfl⟩
    refine ⟨_, _, rfl, rfl, e, _, rfl, he, _, _, rfl, rfl, _, _, rfl, ⟨s, rfl, hs⟩, ?_⟩
    cases fs with
    | nil => exact Or.inr rfl
    | cons f fs => exact Or.inl ⟨f :: fs, by simp, hfs, rfl⟩

/-- The kinds of the tokens of an expression. -/
theorem expr_kinds (T : LetterTable) {w : List Tok}
    (h : Derives (rules T) (Rule.sym NT._expr) w) : ∀ t ∈ w, exprKinds t.kind = true := by
  refine derives_kinds (N := exprRules) ?_ h rfl
  intro n hn
  cases n <;> first | rfl | exact absurd hn (by decide)

/-- No token of an expression is a closing parenthesis. -/
theorem expr_no_rparen (T : LetterTable) {w : List Tok}
    (h : Derives (rules T) (Rule.sym NT._expr) w) : ∀ t ∈ w, (t.kind == ")") = false := by
  intro t ht
  have hk := expr_kinds T h t ht
  cases hp : t.kind == ")" with
  | false => rfl
  | true =>
    rw [beq_iff_eq] at hp
    rw [hp] at hk
    exact absurd hk (by decide)

/-- The index token of a connection reference to `a -> b`. -/
theorem connection_reference_index (T : LetterTable) (a c b x : Tok) (rest : List Tok)
    (ha : (a.kind == ")") = false) (hc : (c.kind == ")") = false)
    (hb : (b.kind == ")") = false)
    (h : Derives (rules T) (Rule.sym NT.connection_reference)
      (lparenTok :: a :: c :: b :: rparenTok :: x :: rest)) :
    x.kind = "connection_identifier" ∧ IsIndexText x.text := by
  obtain ⟨e, idx, fs, he, hidx, _, hw⟩ := (connection_reference_iff T _).1 h
  have hw2 := (List.cons.inj hw).2
  obtain ⟨_, h2⟩ := split_first (p := fun t => t.kind == ")") hw2 (expr_no_rparen T he)
    (by decide)
  have e3 : List.dropWhile (fun t => !(t.kind == ")")) (a :: c :: b :: rparenTok :: x :: rest)
      = rparenTok :: x :: rest := by
    simp [List.dropWhile, ha, hc, hb, rparenTok]
  rw [e3] at h2
  have e4 := (List.cons.inj (List.cons.inj h2).2).1
  rw [← e4]
  exact ⟨rfl, hidx⟩

set_option maxRecDepth 100000 in
/-- C12: `connection_reference` derives exactly `(`, an expression, `)`, an
index token and zero or more fields (a `.` and an identifier each), the index
token being `[`, one or more decimal digits, `]`; `(a -> b)[1].weight` is
derived, with the expression `a -> b`, the index `[1]` and the one field
`weight`; after `(a -> b)` no token whose text is not such an index is
accepted, so neither `[]` nor `[x]`. -/
theorem connection_reference_shape (T : LetterTable) :
    (∀ w : List Tok, Derives (rules T) (Rule.sym NT.connection_reference) w ↔
      ConnRefShape T w) ∧
    (∀ s : List Char, Lex.connection_identifier.rmatch s = true ↔ IsIndexText s) ∧
    Derives (rules T) (Rule.sym NT.connection_reference)
      [lparenTok, ⟨"_ident_base", ['a']⟩, ⟨"connection", ['-', '>']⟩, ⟨"_ident_base", ['b']⟩,
       rparenTok, ⟨"connection_identifier", ['[', '1', ']']⟩, strTok ".",
       ⟨"_ident_base", ['w', 'e', 'i', 'g', 'h', 't']⟩] ∧
    (Derives (rules T) (Rule.sym NT._expr)
        [⟨"_ident_base", ['a']⟩, ⟨"connection", ['-', '>']⟩, ⟨"_ident_base", ['b']⟩] ∧
      IsIndexText ['[', '1', ']'] ∧
      Derives (rules T) (Rule.sym NT.identifier)
        [⟨"_ident_base", ['w', 'e', 'i', 'g', 'h', 't']⟩]) ∧
    (∀ (x : Tok) (rest : List Tok), ¬ IsIndexText x.text →
      ¬ Derives (rules T) (Rule.sym NT.connection_reference)
        (lparenTok :: ⟨"_ident_base", ['a']⟩ :: ⟨"connection", ['-', '>']⟩ ::
          ⟨"_ident_base", ['b']⟩ :: rparenTok :: x :: rest)) ∧
    ¬ IsIndexText ['[', ']'] ∧ ¬ IsIndexText ['[', 'x', ']'] := by
  refine ⟨connection_reference_iff T, index_text_iff, derivesB_sound _ 40 _ _ (by rfl),
    ⟨derivesB_sound _ 40 _ _ (by rfl), ⟨['1'], by simp, by decide, rfl⟩,
      derivesB_sound _ 40 _ _ (by rfl)⟩,
    fun x rest hx h => ?_, ?_, ?_⟩
  · exact hx (connection_reference_index T _ _ _ x rest (by decide) (by decide) (by decide) h).2
  · rw [← index_text_iff]; decide
  · rw [← index_text_iff]; decide

/-- Instance of C12 at `(a -> b)[x]`. -/
theorem connection_reference_shape_witness :
    ¬ Derives (rules asciiLetters) (Rule.sym NT.connection_reference)
      (lparenTok :: ⟨"_ident_base", ['a']⟩ :: ⟨"connection", ['-', '>']⟩ ::
        ⟨"_ident_base", ['b']⟩ :: rparenTok :: ⟨"connection_identifier", ['[', 'x', ']']⟩ ::
        []) :=
  (connection_reference_shape asciiLetters).2.2.2.2.1
    ⟨"connection_identifier", ['[', 'x', ']']⟩ []
    (connection_reference_shape asciiLetters).2.2.2.2.2.2

end

/-! ### C15: dotted declarations -/

section
open RE

/-- A sequence of two whose second part is empty. -/
theorem derives_cat_nil {G : NT → Rule} {a b : Rule} {u : List Tok}
    (ha : Derives G a u) (hb : Derives G b []) : Derives G (Rule.cat a b) u := by
  simpa using Derives.cat ha hb

/-- An optional part may be empty. -/
theorem derives_optional_nil {G : NT → Rule} {a : Rule} : Derives G (optional a) [] :=
  Derives.altR Derives.blank

/-- One `_ident_base` token is an `_ident`. -/
theorem ident_single (T : LetterTable) {b : List Char}
    (hb : (Lex._ident_base T).rmatch b = true) :
    Derives (rules T) (Rule.sym NT._ident) [⟨"_ident_base", b⟩] := by
  rw [ident_iff]
  refine ⟨[⟨b, none⟩], by simp, ?_, rfl⟩
  intro g hg
  simp only [List.mem_singleton] at hg
  subst hg
  exact ⟨hb, by simp⟩

/-- One `_ident_base` token is an identifier. -/
theorem identifier_single (T : LetterTable) {b : List Char}
    (hb : (Lex._ident_base T).rmatch b = true) :
    Derives (rules T) (Rule.sym NT.identifier) [⟨"_ident_base", b⟩] :=
  Derives.sym (Derives.altL (Derives.sym
    (derives_cat_nil (ident_single T hb) derives_optional_nil)))

/-- A name followed by dotted accessors is an identifier with fields. -/
theorem identifier_dotted (T : LetterTable) {b : List Char} {fs : List (List Char)}
    (hb : (Lex._ident_base T).rmatch b = true) (hne : fs ≠ [])
    (hfs : ∀ f ∈ fs, (Lex._ident_base T).rmatch f = true) :
    Derives (rules T) (Rule.sym NT.identifier) (dotted b fs) := by
  have hfields : Derives (rules T) (Rule.sym NT._fields)
      (fs.map (fun f => [strTok ".", ⟨"_ident_base", f⟩])).flatten := by
    rw [fields_iff]
    refine ⟨fs.map (fun f => [⟨"_ident_base", f⟩]), by simpa using hne, ?_, ?_⟩
    · intro x hx
      obtain ⟨f, hf, rfl⟩ := List.mem_map.1 hx
      exact identifier_single T (hfs f hf)
    · rw [List.map_map]; rfl
  exact Derives.sym (Derives.altL (Derives.sym
    (Derives.cat (ident_single T hb) (Derives.altL hfields))))

/-- A double-quoted string without inner quote is a label. -/
theorem label_string_derives (T : LetterTable) {s : List Char} (hs : dquote ∉ s) :
    Derives (rules T) (Rule.sym NT.label) [labelStringTok s] := by
  have hm : Lex.label_string.rmatch (dquote :: (s ++ [dquote])) = true := by
    rw [rmatch_iff, label_string_lang]
    exact ⟨s, rfl, hs⟩
  exact Derives.sym (Derives.altR (Derives.altL (Derives.sym
    (Derives.altR (Derives.altR (Derives.altR (Derives.altR (Derives.tok hm))))))))

/-- An expression, a `:` and a label make a declaration. -/
theorem declaration_of_expr_label (T : LetterTable) {h l : List Tok}
    (hh : Derives (rules T) (Rule.sym NT._expr) h)
    (hl : Derives (rules T) (Rule.sym NT.label) l) :
    Derives (rules T) (Rule.sym NT.declaration) (h ++ colonTok :: l) := by
  have hc : Derives (rules T) (str ":") [colonTok] := Derives.tok (by decide)
  have h1 : Derives (rules T)
      (Rule.cat (str ":") (Rule.cat (optional (Rule.sym NT.label))
        (optional (Rule.sym NT.block)))) (colonTok :: l) :=
    Derives.cat hc (derives_cat_nil (Derives.altL hl) derives_optional_nil)
  have h2 := Derives.cat (G := rules T) (Derives.altL (b := Rule.sym NT.connection_reference) hh)
    (derives_cat_nil (Derives.altL (b := Rule.blank)
      (Derives.altR (a := Rule.cat (str ":") (Rule.sym NT.import_)) h1))
      (derives_optional_nil (a := Rule.sym NT._eol)))
  exact Derives.sym h2

/-- An identifier is an expression. -/
theorem expr_of_identifier (T : LetterTable) {i : List Tok}
    (h : Derives (rules T) (Rule.sym NT.identifier) i) :
    Derives (rules T) (Rule.sym NT._expr) i := by
  rw [expr_iff]
  exact ⟨i, [], Derives.sym (Derives.altL h), by simp, by simp⟩

set_option maxRecDepth 100000 in
/-- C15: `declaration` derives `x.y.z: "label"`; `x.y.z` is an
`identifier_chain`, its two accessors `.y` and `.z` are two fields, and
`"label"` is a label; more generally an unquoted name followed by one or more
dotted accessors, a `:` and a double-quoted string without inner quote is a
declaration. -/
theorem dotted_declaration (T : LetterTable) :
    Derives (rules T) (Rule.sym NT.declaration)
      (dotted ['x'] [['y'], ['z']] ++ [colonTok, labelStringTok ['l', 'a', 'b', 'e', 'l']]) ∧
    Derives (rules T) (Rule.sym NT.identifier_chain) (dotted ['x'] [['y'], ['z']]) ∧
    Derives (rules T) (Rule.sym NT._fields)
      ([[(⟨"_ident_base", ['y']⟩ : Tok)], [⟨"_ident_base", ['z']⟩]].map
        (fun f => strTok "." :: f)).flatten ∧
    Derives (rules T) (Rule.sym NT.label) [labelStringTok ['l', 'a', 'b', 'e', 'l']] ∧
    (∀ (b : List Char) (fs : List (List Char)) (s : List Char),
      (Lex._ident_base T).rmatch b = true → fs ≠ [] →
      (∀ f ∈ fs, (Lex._ident_base T).rmatch f = true) → dquote ∉ s →
      Derives (rules T) (Rule.sym NT.declaration)
        (dotted b fs ++ [colonTok, labelStringTok s])) := by
  have gen : ∀ (b : List Char) (fs : List (List Char)) (s : List Char),
      (Lex._ident_base T).rmatch b = true → fs ≠ [] →
      (∀ f ∈ fs, (Lex._ident_base T).rmatch f = true) → dquote ∉ s →
      Derives (rules T) (Rule.sym NT.declaration)
        (dotted b fs ++ [colonTok, labelStringTok s]) := by
    intro b fs s hb hne hfs hs
    exact declaration_of_expr_label T
      (expr_of_identifier T (identifier_dotted T hb hne hfs)) (label_string_derives T hs)
  refine ⟨gen ['x'] [['y'], ['z']] _ (by rfl) (by simp) ?_ (by decide),
    derivesB_sound _ 40 _ _ (by rfl), derivesB_sound _ 40 _ _ (by rfl),
    label_string_derives T (by decide), gen⟩
  intro f hf
  simp only [List.mem_cons, List.mem_singleton, List.not_mem_nil, or_false] at hf
  rcases hf with rfl | rfl <;> rfl

/-- Instance of C15 at `ab.c.d1.e: "hi"`. -/
theorem dotted_declaration_witness :
    Derives (rules asciiLetters) (Rule.sym NT.declaration)
      (dotted ['a', 'b'] [['c'], ['d', '1'], ['e']] ++ [colonTok, labelStringTok ['h', 'i']]) :=
  (dotted_declaration asciiLetters).2.2.2.2 ['a', 'b'] [['c'], ['d', '1'], ['e']] ['h', 'i']
    (by decide) (by simp) (by decide) (by decide)

end

/-! ### C18: dash runs are identifiers and connections -/

section
open RE

/-- The language of the undirected pattern: runs of two or more dashes. -/
theorem undirected_lang (s : List Char) :
    undirected.Lang s ↔ ∃ n, 2 ≤ n ∧ s = List.replicate n '-' := by
  simp only [undirected, seqs, lang_seq, lang_chr, lang_plus_chr]
  constructor
  · rintro ⟨_, _, rfl, rfl, n, hn, rfl⟩
    exact ⟨n + 1, by omega, by simp [List.replicate_succ]⟩
  · rintro ⟨n, hn, rfl⟩
    obtain ⟨m, rfl⟩ : ∃ m, n = m + 1 := ⟨n - 1, by omega⟩
    exact ⟨['-'], _, by simp [List.replicate_succ], rfl, m, by omega, rfl⟩

/-- A match of the undirected pattern is a `connection` match. -/
theorem undirected_connection (s : List Char) (h : undirected.rmatch s = true) :
    Lex.connection.rmatch s = true := by
  rw [rmatch_iff] at h ⊢
  exact Or.inr (Or.inr (Or.inr h))

/-- A match of the undirected pattern is an `_ident_base` match. -/
theorem undirected_ident_base (T : LetterTable) (s : List Char)
    (h : undirected.rmatch s = true) : (Lex._ident_base T).rmatch s = true := by
  rw [rmatch_iff, undirected_lang] at h
  obtain ⟨n, hn, rfl⟩ := h
  rw [rmatch_iff]
  apply ident_base_of_chars
  · cases n with
    | zero => omega
    | succ m => simp [List.replicate_succ]
  · intro c hc
    rw [(List.mem_replicate.1 hc).2]
    simp [identBaseChar]

/-- A token sequence reads its own text. -/
theorem reads_yield (G : NT → Rule) : ∀ w : List Tok, Reads G w (yield w)
  | [] => Reads.nil
  | t :: w => by
      have e : yield (t :: w) = t.text ++ yield w := by simp [yield]
      rw [e]
      exact Reads.tok (reads_yield G w)

set_option maxRecDepth 100000 in
/-- C18: every string matched by the undirected connection pattern (two or more
dashes) is matched by `_ident_base` as well; the input `a -- b` is read by two
different token sequences derived from `_expr`: one is a single `_ident` in
which `--` is an `_ident_base` token between two white space runs, the other is
the identifier `a ` joined to the identifier `b` by the connection `--`, the
space before `b` being skipped as an extra. -/
theorem dash_run_ambiguity (T : LetterTable) :
    (∀ s : List Char, undirected.rmatch s = true →
      Lex.connection.rmatch s = true ∧ (Lex._ident_base T).rmatch s = true) ∧
    (∀ s : List Char, undirected.rmatch s = true ↔ ∃ n, 2 ≤ n ∧ s = List.replicate n '-') ∧
    Derives (rules T) (Rule.sym NT._expr)
      [⟨"_ident_base", ['a']⟩, ⟨"[\\s\\',]+", [' ']⟩, ⟨"_ident_base", ['-', '-']⟩,
       ⟨"[\\s\\',]+", [' ']⟩, ⟨"_ident_base", ['b']⟩] ∧
    Derives (rules T) (Rule.sym NT._ident)
      [⟨"_ident_base", ['a']⟩, ⟨"[\\s\\',]+", [' ']⟩, ⟨"_ident_base", ['-', '-']⟩,
       ⟨"[\\s\\',]+", [' ']⟩, ⟨"_ident_base", ['b']⟩] ∧
    Derives (rules T) (Rule.sym NT._expr)
      [⟨"_ident_base", ['a']⟩, ⟨"[\\s\\',]+", [' ']⟩, ⟨"connection", ['-', '-']⟩,
       ⟨"_ident_base", ['b']⟩] ∧
    ExprShape T
      ([⟨"_ident_base", ['a']⟩, ⟨"[\\s\\',]+", [' ']⟩] ++
        ([((⟨"connection", ['-', '-']⟩ : Tok), [(⟨"_ident_base", ['b']⟩ : Tok)])].map
          (fun p => p.1 :: p.2)).flatten) ∧
    Reads (rules T)
      [⟨"_ident_base", ['a']⟩, ⟨"[\\s\\',]+", [' ']⟩, ⟨"_ident_base", ['-', '-']⟩,
       ⟨"[\\s\\',]+", [' ']⟩, ⟨"_ident_base", ['b']⟩] ['a', ' ', '-', '-', ' ', 'b'] ∧
    Reads (rules T)
      [⟨"_ident_base", ['a']⟩, ⟨"[\\s\\',]+", [' ']⟩, ⟨"connection", ['-', '-']⟩,
       ⟨"_ident_base", ['b']⟩] ['a', ' ', '-', '-', ' ', 'b'] ∧
    [(⟨"_ident_base", ['a']⟩ : Tok), ⟨"[\\s\\',]+", [' ']⟩, ⟨"_ident_base", ['-', '-']⟩,
       ⟨"[\\s\\',]+", [' ']⟩, ⟨"_ident_base", ['b']⟩] ≠
      [⟨"_ident_base", ['a']⟩, ⟨"[\\s\\',]+", [' ']⟩, ⟨"connection", ['-', '-']⟩,
       ⟨"_ident_base", ['b']⟩] := by
  refine ⟨fun s h => ⟨undirected_connection s h, undirected_ident_base T s h⟩,
    fun s => by rw [rmatch_iff]; exact undirected_lang s,
    derivesB_sound _ 40 _ _ (by rfl), derivesB_sound _ 40 _ _ (by rfl),
    derivesB_sound _ 40 _ _ (by rfl), ?_, reads_yield _ _, ?_, by decide⟩
  · refine ⟨_, _, derivesB_sound _ 40 _ _ (by rfl), ?_, rfl⟩
    intro p hp
    simp only [List.mem_singleton] at hp
    subst hp
    exact ⟨by decide, derivesB_sound _ 40 _ _ (by rfl)⟩
  · have hsp : Spells (rules T) (pat "\\s" (cls isSpace)) [' '] :=
      ⟨[⟨"\\s", [' ']⟩], Derives.tok (by decide), rfl⟩
    have hmem : pat "\\s" (cls isSpace) ∈ extras := by simp [extras]
    have hb : Reads (rules T) [⟨"_ident_base", ['b']⟩] ['b'] := reads_yield _ _
    have h1 : Reads (rules T) [⟨"_ident_base", ['b']⟩] ([' '] ++ ['b']) :=
      Reads.skip hmem hsp hb
    exact Reads.tok (t := ⟨"_ident_base", ['a']⟩) (Reads.tok (t := ⟨"[\\s\\',]+", [' ']⟩)
      (Reads.tok (t := ⟨"connection", ['-', '-']⟩) h1))

/-- Instance of C18 at the run of three dashes. -/
theorem dash_run_ambiguity_witness :
    Lex.connection.rmatch ['-', '-', '-'] = true ∧
    (Lex._ident_base asciiLetters).rmatch ['-', '-', '-'] = true :=
  (dash_run_ambiguity asciiLetters).1 ['-', '-', '-'] (by decide)

end

/-! ### C13: blocks nest to any depth -/

section
open RE

/-- A block is `{`, a list of block declarations, `}`. -/
theorem block_iff (T : LetterTable) (w : List Tok) :
    Derives (rules T) (Rule.sym NT.block) w ↔
      ∃ ds : List (List Tok), BlockHolds T w ds := by
  rw [derives_sym_iff, derives_iff_den]
  have e : rules T NT.block =
      Rule.cat (Rule.tok "\x7b" (lit ['\x7b'])) (Rule.cat (Rule.rep (Rule.sym NT._block_declaration))
        (Rule.tok "\x7d" (lit ['\x7d']))) := rfl
  rw [e]
  simp only [den_cat, den_tok, den_rep, den_sym, rmatch_iff, lang_lit,
    ← derives_sym_iff (G := rules T)]
  constructor
  · rintro ⟨_, _, rfl, ⟨_, rfl, rfl⟩, _, _, rfl, ⟨ds, rfl, hds⟩, _, rfl, rfl⟩
    exact ⟨ds, hds, rfl⟩
  · rintro ⟨ds, hds, rfl⟩
    exact ⟨_, _, rfl, ⟨_, rfl, rfl⟩, _, _, rfl, ⟨ds, rfl, hds⟩,
      _, rfl, rfl⟩

/-- A block declaration is a declaration, an import or a method declaration. -/
theorem block_declaration_iff (T : LetterTable) (w : List Tok) :
    Derives (rules T) (Rule.sym NT._block_declaration) w ↔
      Derives (rules T) (Rule.sym NT.declaration) w ∨
      Derives (rules T) (Rule.sym NT.import_) w ∨
      Derives (rules T) (Rule.sym NT.method_declaration) w := by
  rw [derives_sym_iff, derives_iff_den]
  have e : rules T NT._block_declaration =
      Rule.alt (Rule.sym NT._top_level_declaratioin) (Rule.sym NT.method_declaration) := rfl
  have e2 : rules T NT._top_level_declaratioin =
      Rule.alt (Rule.sym NT.declaration) (Rule.sym NT.import_) := rfl
  rw [e]
  simp only [den_alt, den_sym]
  rw [e2, derives_iff_den]
  simp only [den_alt, den_sym, ← derives_sym_iff (G := rules T), or_assoc]

/-- The rule `import` derives its single tokens. -/
theorem import_iff (T : LetterTable) (w : List Tok) :
    Derives (rules T) (Rule.sym NT.import_) w ↔
      ∃ s, w = [⟨"import", s⟩] ∧ Lex.import_.rmatch s = true := by
  rw [derives_sym_iff]
  exact derives_tok_iff

/-- The rule `_eol` derives its single tokens. -/
theorem eol_iff (T : LetterTable) (w : List Tok) :
    Derives (rules T) (Rule.sym NT._eol) w ↔
      ∃ s, w = [⟨"_eol", s⟩] ∧ Lex._eol.rmatch s = true := by
  rw [derives_sym_iff]
  exact derives_tok_iff

/-- The sequences derived from `declaration`, by parts. -/
theorem declaration_iff (T : LetterTable) (w : List Tok) :
    Derives (rules T) (Rule.sym NT.declaration) w ↔ DeclShape T w := by
  rw [derives_sym_iff, derives_iff_den]
  have e : rules T NT.declaration =
      Rule.cat (Rule.alt (Rule.sym NT._expr) (Rule.sym NT.connection_reference))
        (Rule.cat (optional (Rule.alt (Rule.cat (str ":") (Rule.sym NT.import_))
          (Rule.cat (str ":") (Rule.cat (optional (Rule.sym NT.label))
            (optional (Rule.sym NT.block))))))
          (optional (Rule.sym NT._eol))) := rfl
  rw [e]
  simp only [den_cat, den_optional, den_alt, den_str, den_sym, ← derives_sym_iff (G := rules T)]
  constructor
  · rintro ⟨h, _, rfl, hh, tl, e, rfl, htl, he⟩
    rcases htl with (⟨_, i, rfl, rfl, hi⟩ | ⟨_, _, rfl, rfl, l, b, rfl, hl, hb⟩) | rfl
    · exact Or.inr (Or.inl ⟨h, i, e, rfl, hh, hi, he⟩)
    · exact Or.inr (Or.inr ⟨h, l, b, e, rfl, hh, hl, hb, he⟩)
    · exact Or.inl ⟨h, e, rfl, hh, he⟩
  · rintro (⟨h, e, rfl, hh, he⟩ | ⟨h, i, e, rfl, hh, hi, he⟩ | ⟨h, l, b, e, rfl, hh, hl, hb, he⟩)
    · exact ⟨h, _, rfl, hh, [], e, rfl, Or.inr rfl, he⟩
    · exact ⟨h, _, rfl, hh, _, e, rfl, Or.inl (Or.inl ⟨_, i, rfl, rfl, hi⟩), he⟩
    · exact ⟨h, _, rfl, hh, _, e, rfl, Or.inl (Or.inr ⟨_, _, rfl, rfl, l, b, rfl, hl, hb⟩), he⟩

/-- A rule expression that passes the check denotes sequences that start with a
token of a kind in `K`. -/
theorem den_firstIn {N : NT → Bool} {K : String → Bool} :
    ∀ (e : Rule) (w : List Tok), firstIn N K e = true →
      Den (fun n w => N n = true → ∃ t r, w = t :: r ∧ K t.kind = true) e w →
      ∃ t r, w = t :: r ∧ K t.kind = true
  | Rule.blank, _, h, _ => by simp [firstIn] at h
  | Rule.tok k r, _, h, ⟨s, hw, _⟩ => ⟨⟨k, s⟩, [], hw, h⟩
  | Rule.sym _, _, h, hd => hd h
  | Rule.cat a b, _, h, ⟨u, v, hw, ha, _⟩ => by
      subst hw
      obtain ⟨t, r, rfl, ht⟩ := den_firstIn a u h ha
      exact ⟨t, r ++ v, rfl, ht⟩
  | Rule.alt a b, w, h, hd => by
      simp only [firstIn, Bool.and_eq_true] at h
      rcases hd with ha | hb
      · exact den_firstIn a w h.1 ha
      · exact den_firstIn b w h.2 hb
  | Rule.rep _, _, h, _ => by simp [firstIn] at h

/-- Every rule a block declaration starts with passes the check. -/
theorem start_rules (T : LetterTable) (n : NT) (h : startRules n = true) :
    firstIn startRules startKinds (rules T n) = true := by
  cases n <;> first | rfl | exact absurd h (by decide)

/-- A block declaration, and every rule it starts with, starts with an
identifier token, a `(` or an import. -/
theorem derives_start (T : LetterTable) {n : NT} {w : List Tok}
    (h : Derives (rules T) (Rule.sym n) w) (hn : startRules n = true) :
    ∃ t r, w = t :: r ∧ startKinds t.kind = true :=
  derives_ind (S := fun n w => startRules n = true → ∃ t r, w = t :: r ∧ startKinds t.kind = true)
    (fun n w hd hN => den_firstIn (rules T n) w (start_rules T n hN) hd) h hn

/-- No token of a label is a brace terminal. -/
theorem label_kinds (T : LetterTable) {w : List Tok}
    (h : Derives (rules T) (Rule.sym NT.label) w) : ∀ t ∈ w, notBrace t.kind = true := by
  refine derives_kinds (N := labelRules) ?_ h rfl
  intro n hn
  cases n <;> first | rfl | exact absurd hn (by decide)

/-- A block declaration is not empty. -/
theorem block_declaration_ne (T : LetterTable) {d : List Tok}
    (h : Derives (rules T) (Rule.sym NT._block_declaration) d) : d ≠ [] := by
  obtain ⟨t, r, rfl, _⟩ := derives_start T h rfl
  simp

/-- A sequence cut where the tokens with property `q` stop. -/
theorem takeWhile_split {q : Tok → Bool} :
    ∀ (i r : List Tok), (∀ t ∈ i, q t = true) → (∀ x y, r = x :: y → q x = false) →
      (i ++ r).takeWhile q = i ∧ (i ++ r).dropWhile q = r
  | [], r, _, hr => by
      cases r with
      | nil => simp
      | cons x y => simp [List.takeWhile, List.dropWhile, hr x y rfl]
  | a :: i, r, hi, hr => by
      have ha := hi a (List.mem_cons_self _ _)
      have ih := takeWhile_split i r (fun t ht => hi t (List.mem_cons_of_mem _ ht)) hr
      simp [List.takeWhile, List.dropWhile, ha, ih.1, ih.2]

/-- The first of the non-empty pieces of a non-empty sequence is a prefix of it,
and the other pieces make up the rest. -/
theorem first_piece {P : List Tok → Prop} (hne : ∀ d, P d → d ≠ []) :
    ∀ (ds : List (List Tok)) (t : Tok) (W : List Tok), (∀ d ∈ ds, P d) → ds.flatten = t :: W →
      ∃ d rest k, ds = d :: rest ∧ P d ∧ (∀ x ∈ rest, P x) ∧ k ≤ W.length ∧
        d = t :: W.take k ∧ rest.flatten = W.drop k
  | [], t, W, _, h => by simp at h
  | d :: rest, t, W, hds, h => by
      have hd := hds d (List.mem_cons_self _ _)
      cases d with
      | nil => exact absurd rfl (hne _ hd)
      | cons x d =>
        simp only [List.flatten_cons, List.cons_append, List.cons.injEq] at h
        obtain ⟨rfl, rfl⟩ := h
        refine ⟨_, rest, d.length, rfl, hd, fun x hx => hds x (List.mem_cons_of_mem _ hx),
          by simp, by simp, by simp⟩

/-- Non-empty pieces that make up the empty sequence: there are none. -/
theorem pieces_nil {P : List Tok → Prop} (hne : ∀ d, P d → d ≠ []) :
    ∀ ds : List (List Tok), (∀ d ∈ ds, P d) → ds.flatten = [] → ds = []
  | [], _, _ => rfl
  | d :: rest, hds, h => by
      simp only [List.flatten_cons, List.append_eq_nil] at h
      exact absurd h.1 (hne _ (hds d (List.mem_cons_self _ _)))

/-- A sequence made of block declarations starts as a block declaration does. -/
theorem pieces_head (T : LetterTable) {ds : List (List Tok)} {t : Tok} {W : List Tok}
    (hds : ∀ d ∈ ds, Derives (rules T) (Rule.sym NT._block_declaration) d)
    (h : ds.flatten = t :: W) : startKinds t.kind = true := by
  obtain ⟨d, rest, k, rfl, hd, _, _, rfl, _⟩ :=
    first_piece (fun d hd => block_declaration_ne T hd) ds t W hds h
  obtain ⟨t', r, e, ht⟩ := derives_start T hd rfl
  simp only [List.cons.injEq] at e
  rw [e.1]
  exact ht

/-- The deepest level is at least the level read from. -/
theorem le_depthAt : ∀ (w : List Tok) (c : Nat), c ≤ depthAt c w
  | [], c => by simp [depthAt]
  | _ :: _, c => by simp [depthAt]

/-- Reading a token that is no brace keeps the level. -/
theorem depthAt_cons_plain {t : Tok} (h1 : isOpen t = false) (h2 : isClose t = false)
    (w : List Tok) (c : Nat) : depthAt c (t :: w) = max c (depthAt c w) := by
  simp [depthAt, h1, h2]

/-- Reading an opening brace raises the level. -/
theorem depthAt_cons_open {t : Tok} (h1 : isOpen t = true)
    (w : List Tok) (c : Nat) : depthAt c (t :: w) = max c (depthAt (c + 1) w) := by
  simp [depthAt, h1]

/-- Reading a closing brace lowers the level. -/
theorem depthAt_cons_close {t : Tok} (h1 : isOpen t = false) (h2 : isClose t = true)
    (w : List Tok) (c : Nat) : depthAt c (t :: w) = max c (depthAt (c - 1) w) := by
  simp [depthAt, h1, h2]

/-- Tokens that are no braces do not change the depth of what follows. -/
theorem depthAt_plain {u : List Tok} (hu : ∀ t ∈ u, isOpen t = false ∧ isClose t = false)
    (r : List Tok) (c : Nat) : depthAt c (u ++ r) = depthAt c r := by
  induction u with
  | nil => rfl
  | cons t u ih =>
    have ht := hu t (List.mem_cons_self _ _)
    rw [List.cons_append, depthAt_cons_plain ht.1 ht.2,
      ih (fun x hx => hu x (List.mem_cons_of_mem _ hx))]
    exact max_eq_right (le_depthAt r c)

/-- The depth of `n` levels of nesting around an inner part without braces. -/
theorem depthAt_nested (b : List Char) (inner : List Tok)
    (hu : ∀ t ∈ inner, isOpen t = false ∧ isClose t = false) :
    ∀ (n c : Nat) (r : List Tok),
      depthAt c (nested ⟨"_ident_base", b⟩ inner n ++ r) = max (c + n) (depthAt c r)
  | 0, c, r => by
      rw [nested, depthAt_plain hu]
      exact (max_eq_right (le_depthAt r c)).symm
  | n + 1, c, r => by
      have ih := depthAt_nested b inner hu n (c + 1) (rbraceTok :: r)
      have e : nested ⟨"_ident_base", b⟩ inner (n + 1) ++ r =
          ⟨"_ident_base", b⟩ :: colonTok :: lbraceTok ::
            (nested ⟨"_ident_base", b⟩ inner n ++ rbraceTok :: r) := by
        simp [nested]
      have hr := le_depthAt r c
      rw [e, depthAt_cons_plain (t := ⟨"_ident_base", b⟩) rfl rfl,
        depthAt_cons_plain (t := colonTok) rfl rfl, depthAt_cons_open (t := lbraceTok) rfl, ih,
        depthAt_cons_close (t := rbraceTok) rfl rfl, Nat.add_sub_cancel]
      omega

/-- Each level of nesting adds one opening brace. -/
theorem opens_nested (b : List Char) (inner : List Tok) :
    ∀ n : Nat, opens (nested ⟨"_ident_base", b⟩ inner n) = n + opens inner
  | 0 => by simp [nested]
  | n + 1 => by
      have ih := opens_nested b inner n
      have h1 : isOpen (⟨"_ident_base", b⟩ : Tok) = false := rfl
      have h3 : isOpen colonTok = false := rfl
      have h5 : isOpen lbraceTok = true := rfl
      have h6 : isOpen rbraceTok = false := rfl
      simp only [opens] at ih ⊢
      simp only [nested, List.countP_cons, List.countP_append, List.countP_nil, h1, h3, h5, h6, ih]
      simp
      omega

/-- A name, a `:` and a block of block declarations: a declaration whose block
holds these declarations. -/
theorem block_owner (T : LetterTable) (b : List Char) (ds : List (List Tok))
    (hb : (Lex._ident_base T).rmatch b = true)
    (hds : ∀ d ∈ ds, Derives (rules T) (Rule.sym NT._block_declaration) d) :
    DeclParts T (⟨"_ident_base", b⟩ :: colonTok :: lbraceTok :: (ds.flatten ++ [rbraceTok]))
      [⟨"_ident_base", b⟩] [] (lbraceTok :: (ds.flatten ++ [rbraceTok])) [] ∧
    BlockHolds T (lbraceTok :: (ds.flatten ++ [rbraceTok])) ds := by
  have hh : BlockHolds T (lbraceTok :: (ds.flatten ++ [rbraceTok])) ds := ⟨hds, rfl⟩
  exact ⟨⟨by simp, Or.inl (expr_of_identifier T (identifier_single T hb)), Or.inr rfl,
    Or.inl ((block_iff T _).2 ⟨_, hh⟩), Or.inr rfl⟩, hh⟩

/-- A name, a `:` and a block around one declaration: a declaration whose block
holds that declaration. -/
theorem declaration_wrap (T : LetterTable) {b : List Char} {d : List Tok}
    (hb : (Lex._ident_base T).rmatch b = true)
    (hd : Derives (rules T) (Rule.sym NT.declaration) d) :
    DeclParts T (⟨"_ident_base", b⟩ :: colonTok :: lbraceTok :: (d ++ [rbraceTok]))
      [⟨"_ident_base", b⟩] [] (lbraceTok :: (d ++ [rbraceTok])) [] ∧
    BlockHolds T (lbraceTok :: (d ++ [rbraceTok])) [d] := by
  have := block_owner T b [d] hb (by
    intro x hx
    simp only [List.mem_singleton] at hx
    subst hx
    exact (block_declaration_iff T _).2 (Or.inl hd))
  simpa using this

/-- A sequence with the parts of a declaration is a declaration. -/
theorem declaration_of_parts (T : LetterTable) {w h l b e : List Tok}
    (hp : DeclParts T w h l b e) : Derives (rules T) (Rule.sym NT.declaration) w :=
  (declaration_iff T w).2 (Or.inr (Or.inr ⟨h, l, b, e, hp⟩))

/-- Every level of nesting around a declaration is a declaration. -/
theorem nested_derives (T : LetterTable) {b : List Char} {inner : List Tok}
    (hb : (Lex._ident_base T).rmatch b = true)
    (hd : Derives (rules T) (Rule.sym NT.declaration) inner) :
    ∀ n : Nat, Derives (rules T) (Rule.sym NT.declaration) (nested ⟨"_ident_base", b⟩ inner n)
  | 0 => hd
  | n + 1 => declaration_of_parts T (declaration_wrap T hb (nested_derives T hb hd n)).1

/-- The optional terminator is empty or one `_eol` token. -/
theorem optEol_cases (T : LetterTable) {e : List Tok} (h : OptEol T e) :
    e = [] ∨ ∃ s, e = [⟨"_eol", s⟩] := by
  rcases h with h | h
  · obtain ⟨s, rfl, _⟩ := (eol_iff T e).1 h
    exact Or.inr ⟨s, rfl⟩
  · exact Or.inl h

/-- The head of a declaration starts with `(` or is an expression. -/
theorem declHead_cases (T : LetterTable) {h : List Tok} (hh : DeclHead T h) :
    (∃ r, h = lparenTok :: r) ∨ Derives (rules T) (Rule.sym NT._expr) h := by
  rcases hh with hh | hh
  · exact Or.inr hh
  · obtain ⟨e, idx, fs, _, _, _, rfl⟩ := (connection_reference_iff T h).1 hh
    exact Or.inl ⟨_, rfl⟩

/-- A declaration that does not start with `(`: its head is the longest prefix
of expression tokens, and what follows is empty, a terminator, or starts with `:`. -/
theorem declaration_expr_prefix (T : LetterTable) {w : List Tok}
    (h : Derives (rules T) (Rule.sym NT.declaration) w) :
    (∃ r, w = lparenTok :: r) ∨
    (Derives (rules T) (Rule.sym NT._expr) (w.takeWhile isExprTok) ∧
      (w.dropWhile isExprTok = [] ∨ (∃ s, w.dropWhile isExprTok = [⟨"_eol", s⟩]) ∨
        ∃ x, w.dropWhile isExprTok = colonTok :: x)) := by
  have key : ∀ hd r : List Tok, DeclHead T hd →
      (r = [] ∨ (∃ s, r = [⟨"_eol", s⟩]) ∨ ∃ x, r = colonTok :: x) →
      (∃ r', hd ++ r = lparenTok :: r') ∨
      (Derives (rules T) (Rule.sym NT._expr) ((hd ++ r).takeWhile isExprTok) ∧
        ((hd ++ r).dropWhile isExprTok = [] ∨ (∃ s, (hd ++ r).dropWhile isExprTok = [⟨"_eol", s⟩]) ∨
          ∃ x, (hd ++ r).dropWhile isExprTok = colonTok :: x)) := by
    intro hd r hh hr
    rcases declHead_cases T hh with ⟨r', rfl⟩ | hh
    · exact Or.inl ⟨_, rfl⟩
    · have hs := takeWhile_split (q := isExprTok) hd r (fun t ht => expr_kinds T hh t ht) (by
        intro x y e
        rcases hr with rfl | ⟨s, rfl⟩ | ⟨z, rfl⟩
        · simp at e
        · simp only [List.cons.injEq] at e
          rw [← e.1]; rfl
        · simp only [List.cons.injEq] at e
          rw [← e.1]; rfl)
      rw [hs.1, hs.2]
      exact Or.inr ⟨hh, hr⟩
  rcases (declaration_iff T w).1 h with ⟨hd, e, rfl, hh, he⟩ | ⟨hd, i, e, rfl, hh, _, _⟩ |
    ⟨hd, l, b, e, rfl, hh, _, _, _⟩
  · exact key hd e hh (by
      rcases optEol_cases T he with rfl | ⟨s, rfl⟩
      · exact Or.inl rfl
      · exact Or.inr (Or.inl ⟨s, rfl⟩))
  · exact key hd _ hh (Or.inr (Or.inr ⟨_, rfl⟩))
  · exact key hd _ hh (Or.inr (Or.inr ⟨_, rfl⟩))

/-- A block declaration holds a `(`, or is one import token, or has an expression
as its longest prefix of expression tokens. -/
theorem block_declaration_cases (T : LetterTable) {w : List Tok}
    (h : Derives (rules T) (Rule.sym NT._block_declaration) w) :
    lparenTok ∈ w ∨ (∃ s, w = [⟨"import", s⟩]) ∨
    (Derives (rules T) (Rule.sym NT._expr) (w.takeWhile isExprTok) ∧
      (w.dropWhile isExprTok = [] ∨ (∃ s, w.dropWhile isExprTok = [⟨"_eol", s⟩]) ∨
        ∃ x, w.dropWhile isExprTok = colonTok :: x)) := by
  rcases (block_declaration_iff T w).1 h with h | h | h
  · rcases declaration_expr_prefix T h with ⟨r, rfl⟩ | h
    · exact Or.inl (by simp)
    · exact Or.inr (Or.inr h)
  · obtain ⟨s, rfl, _⟩ := (import_iff T w).1 h
    exact Or.inr (Or.inl ⟨s, rfl⟩)
  · obtain ⟨i, a, tl, rfl, _⟩ := (method_declaration_iff T w).1 h
    exact Or.inl (by simp)

/-- The parts of a declaration that is a name, a `:` and a brace pair around
`K`: the head is the name, there is no label and no terminator, the block is the
whole brace pair. -/
theorem owner_parts (T : LetterTable) (s : List Char) (K h l b e : List Tok)
    (hp : DeclParts T (⟨"_ident_base", s⟩ :: colonTok :: lbraceTok :: (K ++ [rbraceTok])) h l b e) :
    h = [⟨"_ident_base", s⟩] ∧ l = [] ∧ b = lbraceTok :: (K ++ [rbraceTok]) ∧ e = [] := by
  obtain ⟨hw, hh, hl, hb, he⟩ := hp
  rcases declHead_cases T hh with ⟨r, rfl⟩ | hh
  · simp [lparenTok] at hw
  · have hs := takeWhile_split (q := isExprTok) h (colonTok :: (l ++ b) ++ e)
      (fun t ht => expr_kinds T hh t ht) (by
        intro x y e
        simp only [List.cons_append, List.cons.injEq] at e
        rw [← e.1]; rfl)
    rw [← hw] at hs
    have e1 : isExprTok (⟨"_ident_base", s⟩ : Tok) = true := rfl
    have e2 : isExprTok colonTok = false := rfl
    simp only [List.takeWhile, List.dropWhile, e1, e2] at hs
    obtain ⟨h1, h2⟩ := hs
    simp only [List.cons_append, List.cons.injEq, true_and] at h2
    have hl' : l = [] := by
      rcases hl with hl | hl
      · have hk := label_kinds T hl
        cases l with
        | nil => rfl
        | cons t l =>
          simp only [List.cons_append, List.cons.injEq] at h2
          have := hk t (List.mem_cons_self _ _)
          rw [← h2.1] at this
          exact absurd this (by decide)
      · exact hl
    subst hl'
    have he' : e = [] := by
      rcases optEol_cases T he with he | ⟨x, rfl⟩
      · exact he
      · have e3 : lbraceTok :: (K ++ [rbraceTok]) = (lbraceTok :: K) ++ [rbraceTok] := rfl
        rw [e3] at h2
        have := congrArg List.getLast? h2
        rw [List.getLast?_concat, List.getLast?_concat] at this
        simp [rbraceTok] at this
    subst he'
    simp only [List.nil_append, List.append_nil] at h2
    exact ⟨h1.symm, rfl, h2.symm, rfl⟩

/-- Two sequences that are no block declarations: `a ->`, and the whole contents
of the outer block of the example. -/
theorem shape_outer_rejects (T : LetterTable) :
    ¬ Derives (rules T) (Rule.sym NT._block_declaration) [nameTok "a", arrowTok] ∧
    ¬ Derives (rules T) (Rule.sym NT._block_declaration) shapeOuter := by
  constructor
  · intro h
    rcases block_declaration_cases T h with h | ⟨s, h⟩ | ⟨h, _⟩
    · exact absurd h (by decide)
    · simp at h
    · have e : List.takeWhile isExprTok [nameTok "a", arrowTok] = [nameTok "a", arrowTok] := by
        decide
      rw [e] at h
      have := (expr_good T h).2.1 arrowTok rfl
      exact absurd this (by decide)
  · intro h
    rcases block_declaration_cases T h with h | ⟨s, h⟩ | ⟨_, h⟩
    · exact absurd h (by decide)
    · simp [shapeOuter] at h
    · have e : List.dropWhile isExprTok shapeOuter =
          [semiTok, nameTok "c", colonTok, lbraceTok, nameTok "d", rbraceTok] := by decide
      rw [e] at h
      rcases h with h | ⟨s, h⟩ | ⟨x, h⟩
      · simp at h
      · simp at h
      · simp [semiTok, colonTok] at h

/-- The contents of the outer block of the example are cut into block
declarations in one way only. -/
theorem shape_outer_split (T : LetterTable) (ds : List (List Tok))
    (hds : ∀ d ∈ ds, Derives (rules T) (Rule.sym NT._block_declaration) d)
    (hfl : ds.flatten = shapeOuter) :
    ds = [[nameTok "a", arrowTok, nameTok "b", semiTok],
      [nameTok "c", colonTok, lbraceTok, nameTok "d", rbraceTok]] := by
  have hne := fun (d : List Tok) (hd : Derives (rules T) (Rule.sym NT._block_declaration) d) =>
    block_declaration_ne T hd
  obtain ⟨d, rest, k, rfl, hd, hrest, hk, rfl, hfl2⟩ := first_piece hne ds _ _ hds hfl
  simp only [List.length_cons, List.length_nil] at hk
  interval_cases k <;> simp only [List.take, List.drop] at hd hfl2
  · exact absurd (pieces_head T hrest hfl2) (by decide)
  · exact absurd hd (shape_outer_rejects T).1
  · exact absurd (pieces_head T hrest hfl2) (by decide)
  · obtain ⟨d2, rest2, j, rfl, hd2, hrest2, hj, rfl, hfl3⟩ := first_piece hne rest _ _ hrest hfl2
    simp only [List.length_cons, List.length_nil] at hj
    interval_cases j <;> simp only [List.take, List.drop] at hd2 hfl3
    · exact absurd (pieces_head T hrest2 hfl3) (by decide)
    · exact absurd (pieces_head T hrest2 hfl3) (by decide)
    · exact absurd (derives_balanced T hd2).1 (by decide)
    · exact absurd (derives_balanced T hd2).1 (by decide)
    · rw [pieces_nil hne rest2 hrest2 hfl3]
      rfl
  · exact absurd (pieces_head T hrest hfl2) (by decide)
  · exact absurd (pieces_head T hrest hfl2) (by decide)
  · exact absurd (derives_balanced T hd).1 (by decide)
  · exact absurd (pieces_head T hrest hfl2) (by decide)
  · exact absurd hd (shape_outer_rejects T).2

/-- One token is cut into block declarations in one way only. -/
theorem single_split (T : LetterTable) (t : Tok) (ds : List (List Tok))
    (hds : ∀ d ∈ ds, Derives (rules T) (Rule.sym NT._block_declaration) d)
    (hfl : ds.flatten = [t]) : ds = [[t]] := by
  have hne := fun (d : List Tok) (hd : Derives (rules T) (Rule.sym NT._block_declaration) d) =>
    block_declaration_ne T hd
  obtain ⟨d, rest, k, rfl, hd, hrest, hk, rfl, hfl2⟩ := first_piece hne ds _ _ hds hfl
  simp only [List.length_nil, Nat.le_zero] at hk
  subst hk
  simp only [List.take, List.drop] at hfl2 ⊢
  rw [pieces_nil hne rest hrest hfl2]

set_option maxRecDepth 100000 in
/-- Without the token of `;` the contents of the outer block of the example are
one declaration, `b c` being one identifier: the terminator is what separates
the two declarations. -/
theorem shape_outer_without_terminator (T : LetterTable) :
    Derives (rules T) (Rule.sym NT.declaration)
      [nameTok "a", arrowTok, nameTok "b", nameTok "c", colonTok, lbraceTok, nameTok "d",
        rbraceTok] :=
  derivesB_sound _ 40 _ _ (by rfl)

set_option maxRecDepth 100000 in
/-- C13: for every `n`, `n` levels of `name : { ... }` around a declaration are
a declaration, each level being the name, a `:` and a block that holds exactly
the next level; around `name :` the sequence has `n` opening braces and nesting
depth `n`. The tokens of `shape: {a -> b; c: {d}}` read that text and are a
declaration; its parts are the head `shape` and the block between the outer
braces, without label or terminator; that block holds exactly the two
declarations `a -> b ;` and `c : {d}`; the first is the expression `a -> b`
with its terminator, the second has the head `c` and the block `{d}`, which
holds exactly the declaration `d`. -/
theorem nested_blocks (T : LetterTable) :
    (∀ (b : List Char) (inner : List Tok) (n : Nat), (Lex._ident_base T).rmatch b = true →
      Derives (rules T) (Rule.sym NT.declaration) inner →
      Derives (rules T) (Rule.sym NT.declaration) (nested ⟨"_ident_base", b⟩ inner n) ∧
      DeclParts T (nested ⟨"_ident_base", b⟩ inner (n + 1)) [⟨"_ident_base", b⟩] []
        (lbraceTok :: (nested ⟨"_ident_base", b⟩ inner n ++ [rbraceTok])) [] ∧
      BlockHolds T (lbraceTok :: (nested ⟨"_ident_base", b⟩ inner n ++ [rbraceTok]))
        [nested ⟨"_ident_base", b⟩ inner n]) ∧
    (∀ (b : List Char) (n : Nat), (Lex._ident_base T).rmatch b = true →
      Derives (rules T) (Rule.sym NT.declaration)
        (nested ⟨"_ident_base", b⟩ [⟨"_ident_base", b⟩, colonTok] n) ∧
      opens (nested ⟨"_ident_base", b⟩ [⟨"_ident_base", b⟩, colonTok] n) = n ∧
      depth (nested ⟨"_ident_base", b⟩ [⟨"_ident_base", b⟩, colonTok] n) = n) ∧
    Reads (rules T) shapeExample "shape: \x7ba -> b; c: \x7bd\x7d\x7d".toList ∧
    Derives (rules T) (Rule.sym NT.declaration) shapeExample ∧
    (∀ h l b e : List Tok, DeclParts T shapeExample h l b e ↔
      h = [nameTok "shape"] ∧ l = [] ∧ b = lbraceTok :: (shapeOuter ++ [rbraceTok]) ∧ e = []) ∧
    (∀ ds : List (List Tok), BlockHolds T (lbraceTok :: (shapeOuter ++ [rbraceTok])) ds ↔
      ds = [[nameTok "a", arrowTok, nameTok "b", semiTok],
        [nameTok "c", colonTok, lbraceTok, nameTok "d", rbraceTok]]) ∧
    Derives (rules T) (Rule.sym NT.declaration) [nameTok "a", arrowTok, nameTok "b", semiTok] ∧
    Derives (rules T) (Rule.sym NT._expr) [nameTok "a", arrowTok, nameTok "b"] ∧
    (∀ h l b e : List Tok,
      DeclParts T [nameTok "c", colonTok, lbraceTok, nameTok "d", rbraceTok] h l b e ↔
        h = [nameTok "c"] ∧ l = [] ∧ b = [lbraceTok, nameTok "d", rbraceTok] ∧ e = []) ∧
    (∀ ds : List (List Tok), BlockHolds T [lbraceTok, nameTok "d", rbraceTok] ds ↔
      ds = [[nameTok "d"]]) ∧
    Derives (rules T) (Rule.sym NT.declaration) [nameTok "d"] := by
  have hd : Derives (rules T) (Rule.sym NT.declaration) [nameTok "d"] :=
    derivesB_sound _ 40 _ _ (by rfl)
  have h1 : Derives (rules T) (Rule.sym NT.declaration)
      [nameTok "a", arrowTok, nameTok "b", semiTok] := derivesB_sound _ 40 _ _ (by rfl)
  have h2 := declaration_wrap T (b := ['c']) (by rfl) hd
  have hds : ∀ d ∈ [[nameTok "a", arrowTok, nameTok "b", semiTok],
      [nameTok "c", colonTok, lbraceTok, nameTok "d", rbraceTok]],
      Derives (rules T) (Rule.sym NT._block_declaration) d := by
    intro d hd
    simp only [List.mem_cons, List.mem_singleton, List.not_mem_nil, or_false] at hd
    rcases hd with rfl | rfl
    · exact (block_declaration_iff T _).2 (Or.inl h1)
    · exact (block_declaration_iff T _).2 (Or.inl (declaration_of_parts T h2.1))
  have h3 := block_owner T "shape".toList _ (by rfl) hds
  refine ⟨?_, ?_, ?_, declaration_of_parts T h3.1, ?_, ?_, h1, derivesB_sound _ 40 _ _ (by rfl),
    ?_, ?_, hd⟩
  · intro b inner n hb hi
    have hn := nested_derives T hb hi n
    exact ⟨hn, declaration_wrap T hb hn⟩
  · intro b n hb
    refine ⟨nested_derives T hb (declaration_of_parts T (h := [⟨"_ident_base", b⟩]) (l := [])
      (b := []) (e := []) ⟨rfl, Or.inl (expr_of_identifier T (identifier_single T hb)),
        Or.inr rfl, Or.inr rfl, Or.inr rfl⟩) n, ?_, ?_⟩
    · rw [opens_nested]; rfl
    · have := depthAt_nested b [⟨"_ident_base", b⟩, colonTok] (by
        intro t ht
        simp only [List.mem_cons, List.mem_singleton, List.not_mem_nil, or_false] at ht
        rcases ht with rfl | rfl <;> exact ⟨rfl, rfl⟩) n 0 []
      rw [List.append_nil] at this
      rw [depth, this]
      simp [depthAt]
  · have hsp : Spells (rules T) (pat "\\s" (cls isSpace)) [' '] :=
      ⟨[⟨"\\s", [' ']⟩], Derives.tok (by decide), rfl⟩
    have hmem : pat "\\s" (cls isSpace) ∈ extras := by simp [extras]
    exact Reads.tok (t := nameTok "shape") (Reads.tok (t := colonTok) (Reads.skip hmem hsp
      (Reads.tok (t := lbraceTok) (Reads.tok (t := nameTok "a") (Reads.skip hmem hsp
      (Reads.tok (t := arrowTok) (Reads.skip hmem hsp (Reads.tok (t := nameTok "b")
      (Reads.tok (t := semiTok) (Reads.skip hmem hsp (Reads.tok (t := nameTok "c")
      (Reads.tok (t := colonTok) (Reads.skip hmem hsp (Reads.tok (t := lbraceTok)
      (Reads.tok (t := nameTok "d") (Reads.tok (t := rbraceTok) (Reads.tok (t := rbraceTok)
      Reads.nil)))))))))))))))))
  · intro h l b e
    constructor
    · exact owner_parts T _ shapeOuter h l b e
    · rintro ⟨rfl, rfl, rfl, rfl⟩
      exact h3.1
  · intro ds
    constructor
    · rintro ⟨hp, he⟩
      simp only [List.cons.injEq, true_and, List.append_left_inj] at he
      exact shape_outer_split T ds hp he.symm
    · rintro rfl
      exact h3.2
  · intro h l b e
    constructor
    · exact owner_parts T _ [nameTok "d"] h l b e
    · rintro ⟨rfl, rfl, rfl, rfl⟩
      exact h2.1
  · intro ds
    constructor
    · rintro ⟨hp, he⟩
      have e3 : [lbraceTok, nameTok "d", rbraceTok] = lbraceTok :: ([nameTok "d"] ++ [rbraceTok]) :=
        rfl
      rw [e3] at he
      simp only [List.cons.injEq, true_and, List.append_left_inj] at he
      exact single_split T _ ds hp he.symm
    · rintro rfl
      exact h2.2

/-- Instance of C13 at three levels of `x : { ... }` around `x :`. -/
theorem nested_blocks_witness :
    Derives (rules asciiLetters) (Rule.sym NT.declaration)
      (nested ⟨"_ident_base", ['x']⟩ [⟨"_ident_base", ['x']⟩, colonTok] 3) ∧
    opens (nested ⟨"_ident_base", ['x']⟩ [⟨"_ident_base", ['x']⟩, colonTok] 3) = 3 ∧
    depth (nested ⟨"_ident_base", ['x']⟩ [⟨"_ident_base", ['x']⟩, colonTok] 3) = 3 :=
  (nested_blocks asciiLetters).2.1 ['x'] 3 (by decide)

end

/-! ### C9: block comments with extras skipped -/

section
open RE

/-- The tokens of a block comment: the fence, the tokens of the repeated part, the
fence. -/
theorem block_comment_tokens (T : LetterTable) (w : List Tok) :
    Derives (rules T) (Rule.sym NT.block_comment) w ↔
      ∃ cs, Derives (rules T) blockCommentContent cs ∧ w = fenceTok :: (cs ++ [fenceTok]) := by
  rw [derives_sym_iff, block_comment_rule, derives_iff_den]
  simp only [den_cat, den_str]
  constructor
  · rintro ⟨_, _, rfl, rfl, cs, _, rfl, hcs, rfl⟩
    exact ⟨cs, derives_iff_den.2 hcs, rfl⟩
  · rintro ⟨cs, hcs, rfl⟩
    exact ⟨_, _, rfl, rfl, cs, _, rfl, derives_iff_den.1 hcs, rfl⟩

/-- The accepted block comments: the fence, a content read with extras skipped,
the fence. -/
theorem accepts_block_comment (T : LetterTable) (s : List Char) :
    Accepts (rules T) (Rule.sym NT.block_comment) s ↔
      ∃ c, s = fence ++ c ++ fence ∧ CommentContent (rules T) c := by
  constructor
  · rintro ⟨w, hw, hr⟩
    obtain ⟨cs, hcs, rfl⟩ := (block_comment_tokens T w).1 hw
    rcases hr with ⟨h, _⟩ | ⟨t, h, _⟩ | ⟨t, u, m, c, h, hm, rfl⟩
    · simp at h
    · simp at h
    · simp only [List.cons.injEq] at h
      obtain ⟨rfl, h1⟩ := h
      obtain ⟨rfl, h2⟩ := List.append_inj' h1 rfl
      have h3 := List.head_eq_of_cons_eq h2
      subst h3
      exact ⟨c, by simp [fenceTok], cs, hcs, hm⟩
  · rintro ⟨c, rfl, cs, hcs, hr⟩
    exact ⟨_, (block_comment_tokens T _).2 ⟨cs, hcs, rfl⟩,
      Or.inr (Or.inr ⟨fenceTok, fenceTok, cs, c, rfl, hr, by simp [fenceTok]⟩)⟩

/-- Every token of the repeated part of a block comment has the text of a unit. -/
theorem content_tokens (G : NT → Rule) {cs : List Tok}
    (h : Derives G blockCommentContent cs) : ∀ t ∈ cs, CommentUnit t.text := by
  intro t ht
  rw [derives_iff_den] at h
  obtain ⟨us, rfl, hus⟩ := h
  obtain ⟨u, hu, htu⟩ := List.mem_flatten.1 ht
  have hd := hus u hu
  have key : ∀ (k : String) (r : RE), (∀ s, r.rmatch s = true → CommentUnit s) →
      Den (fun n w => Derives G (G n) w) (Rule.tok k r) u → CommentUnit t.text := by
    rintro k r hr ⟨s, rfl, hm⟩
    simp only [List.mem_singleton] at htu
    subst htu
    exact hr s hm
  rcases hd with hd | hd | hd
  · refine key _ _ (fun s hm => ?_) hd
    exact (commentUnit_iff s).1 (Or.inl ((rmatch_iff _ _).1 hm))
  · refine key _ _ (fun s hm => ?_) hd
    exact (commentUnit_iff s).1 (Or.inr (Or.inl (by simpa [seqs] using (rmatch_iff _ _).1 hm)))
  · refine key _ _ (fun s hm => ?_) hd
    exact (commentUnit_iff s).1 (Or.inr (Or.inr (by simpa [seqs] using (rmatch_iff _ _).1 hm)))

/-- A unit is the text of a token that the repeated part may start with. -/
theorem unit_token (G : NT → Rule) {p : List Char} (h : CommentUnit p) :
    ∃ t : Tok, t.text = p ∧
      ∀ cs, Derives G blockCommentContent cs → Derives G blockCommentContent (t :: cs) := by
  have hl := (commentUnit_iff p).2 h
  have hrep : ∀ (t : Tok), Derives G
      (choice [
        pat "[^\"]" (RE.cls (fun c => c != dquote)),
        pat "\"[^\"]" (RE.seqs [RE.chr dquote, RE.cls (fun c => c != dquote)]),
        pat "\"\"[^\"]" (RE.seqs [RE.chr dquote, RE.chr dquote, RE.cls (fun c => c != dquote)])])
        [t] → ∀ cs, Derives G blockCommentContent cs → Derives G blockCommentContent (t :: cs) := by
    intro t ht cs hcs
    exact Derives.repCons ht hcs
  rcases hl with hl | hl | hl
  · exact ⟨⟨_, p⟩, rfl, hrep _ (Derives.altL (Derives.tok ((rmatch_iff _ _).2 hl)))⟩
  · exact ⟨⟨_, p⟩, rfl, hrep _ (Derives.altR (Derives.altL (Derives.tok ((rmatch_iff _ _).2
      (by simpa [seqs] using hl)))))⟩
  · exact ⟨⟨_, p⟩, rfl, hrep _ (Derives.altR (Derives.altR (Derives.tok ((rmatch_iff _ _).2
      (by simpa [seqs] using hl)))))⟩

/-- A text read by unit tokens is a sequence of units and skipped extras. -/
theorem reads_pieces (G : NT → Rule) {w : List Tok} {c : List Char} (h : Reads G w c) :
    (∀ t ∈ w, CommentUnit t.text) →
      ∃ ps : List (List Char), c = ps.flatten ∧ ∀ p ∈ ps, CommentUnit p ∨ Skipped G p := by
  induction h with
  | nil => exact fun _ => ⟨[], rfl, by simp⟩
  | @tok t w s _ ih =>
    intro hw
    obtain ⟨ps, rfl, hps⟩ := ih (fun x hx => hw x (List.mem_cons_of_mem _ hx))
    refine ⟨t.text :: ps, rfl, ?_⟩
    intro p hp
    rcases List.mem_cons.1 hp with rfl | hp
    · exact Or.inl (hw t (List.mem_cons_self _ _))
    · exact hps p hp
  | @skip e x w s he hx _ ih =>
    intro hw
    obtain ⟨ps, rfl, hps⟩ := ih hw
    refine ⟨x :: ps, rfl, ?_⟩
    intro p hp
    rcases List.mem_cons.1 hp with rfl | hp
    · exact Or.inr ⟨e, he, hx⟩
    · exact hps p hp

/-- A sequence of units and skipped extras is a content. -/
theorem content_of_pieces (G : NT → Rule) :
    ∀ ps : List (List Char), (∀ p ∈ ps, CommentUnit p ∨ Skipped G p) →
      CommentContent G ps.flatten
  | [], _ => ⟨[], Derives.repNil, Reads.nil⟩
  | p :: ps, h => by
      obtain ⟨cs, hcs, hr⟩ := content_of_pieces G ps (fun q hq => h q (List.mem_cons_of_mem _ hq))
      rcases h p (List.mem_cons_self _ _) with hp | ⟨e, he, hx⟩
      · obtain ⟨t, rfl, ht⟩ := unit_token G hp
        exact ⟨t :: cs, ht cs hcs, Reads.tok hr⟩
      · exact ⟨cs, hcs, Reads.skip he hx hr⟩

/-- The contents of block comments: the sequences of units and skipped extras. -/
theorem content_pieces_iff (G : NT → Rule) (c : List Char) :
    CommentContent G c ↔
      ∃ ps : List (List Char), c = ps.flatten ∧ ∀ p ∈ ps, CommentUnit p ∨ Skipped G p := by
  constructor
  · rintro ⟨cs, hcs, hr⟩
    exact reads_pieces G hr (content_tokens G hcs)
  · rintro ⟨ps, rfl, hps⟩
    exact content_of_pieces G ps hps

/-- The texts of `comment`. -/
theorem spells_comment (T : LetterTable) (x : List Char) :
    Spells (rules T) (Rule.sym NT.comment) x ↔ Lex.comment.rmatch x = true := by
  rw [spells_sym, spells_iff (rules T) (rules T NT.comment) rfl]
  rfl

/-- The texts of `_eol`. -/
theorem spells_eol (T : LetterTable) (x : List Char) :
    Spells (rules T) (Rule.sym NT._eol) x ↔ Lex._eol.rmatch x = true := by
  rw [spells_sym, spells_iff (rules T) (rules T NT._eol) rfl]
  rfl

/-- The texts of the white space extra. -/
theorem spells_space (G : NT → Rule) (x : List Char) :
    Spells G (pat "\\s" (cls isSpace)) x ↔ ∃ a, x = [a] ∧ isSpace a = true := by
  rw [spells_iff G (pat "\\s" (cls isSpace)) rfl]
  show (cls isSpace).rmatch x = true ↔ _
  rw [rmatch_iff, lang_cls]

/-- The texts of `block_comment` with nothing skipped. -/
theorem spells_block_comment (T : LetterTable) (x : List Char) :
    Spells (rules T) (Rule.sym NT.block_comment) x ↔
      ∃ c, x = fence ++ c ++ fence ∧ ¬ fence <:+: c ∧ c.getLast? ≠ some dquote := by
  rw [block_comment_spells]
  constructor
  · rintro ⟨c, rfl, hc⟩
    exact ⟨c, rfl, (content_lang c).1 ((spells_content _ c).1 hc)⟩
  · rintro ⟨c, rfl, hc⟩
    exact ⟨c, rfl, (spells_content _ c).2 ((content_lang c).2 hc)⟩

/-- The texts of the four extras. -/
theorem skipped_iff (T : LetterTable) (x : List Char) :
    Skipped (rules T) x ↔
      Lex.comment.rmatch x = true ∨
      (∃ c, x = fence ++ c ++ fence ∧ ¬ fence <:+: c ∧ c.getLast? ≠ some dquote) ∨
      Lex._eol.rmatch x = true ∨ ∃ a, x = [a] ∧ isSpace a = true := by
  rw [← spells_comment T, ← spells_block_comment T, ← spells_eol T, ← spells_space (rules T)]
  constructor
  · rintro ⟨e, he, hx⟩
    simp only [extras, List.mem_cons, List.mem_singleton, List.not_mem_nil, or_false] at he
    rcases he with rfl | rfl | rfl | rfl
    · exact Or.inl hx
    · exact Or.inr (Or.inl hx)
    · exact Or.inr (Or.inr (Or.inl hx))
    · exact Or.inr (Or.inr (Or.inr hx))
  · rintro (h | h | h | h)
    · exact ⟨_, by simp [extras], h⟩
    · exact ⟨_, by simp [extras], h⟩
    · exact ⟨_, by simp [extras], h⟩
    · exact ⟨_, by simp [extras], h⟩

/-- A string without fence that does not end with a double quote is a content. -/
theorem content_without_extras (G : NT → Rule) (c : List Char)
    (hf : ¬ fence <:+: c) (hl : c.getLast? ≠ some dquote) : CommentContent G c := by
  obtain ⟨cs, hcs, rfl⟩ := (spells_content G c).2 ((content_lang c).2 ⟨hf, hl⟩)
  exact ⟨cs, hcs, reads_yield G cs⟩

/-- The text of the tokens of a content holds no fence and does not end with a
double quote. -/
theorem content_tokens_text (G : NT → Rule) {cs : List Tok}
    (h : Derives G blockCommentContent cs) :
    ¬ fence <:+: yield cs ∧ (yield cs).getLast? ≠ some dquote :=
  (content_lang _).1 ((spells_content G _).1 ⟨cs, h, rfl⟩)

/-- No unit and no skipped extra is empty or the single double quote. -/
theorem piece_ne_quote (T : LetterTable) {p : List Char}
    (h : CommentUnit p ∨ Skipped (rules T) p) : p ≠ [] ∧ p ≠ [dquote] := by
  rcases h with ⟨x, hx, rfl | rfl | rfl⟩ | h
  · exact ⟨by simp, by simpa using hx⟩
  · exact ⟨by simp, by simp⟩
  · exact ⟨by simp, by simp⟩
  · rcases (skipped_iff T p).1 h with h | ⟨c, rfl, _⟩ | h | ⟨a, rfl, ha⟩
    · constructor
      · rintro rfl; exact absurd h (by decide)
      · rintro rfl; exact absurd h (by decide)
    · exact ⟨by simp [fence], by simp [fence]⟩
    · constructor
      · rintro rfl; exact absurd h (by decide)
      · rintro rfl; exact absurd h (by decide)
    · refine ⟨by simp, ?_⟩
      intro e
      simp only [List.cons.injEq, and_true] at e
      subst e
      exact absurd ha (by decide)

/-- The single double quote is no content, extras skipped or not. -/
theorem quote_not_content (T : LetterTable) : ¬ CommentContent (rules T) [dquote] := by
  intro h
  obtain ⟨ps, e, hps⟩ := (content_pieces_iff (rules T) _).1 h
  cases ps with
  | nil => simp at e
  | cons p ps =>
    have hp := piece_ne_quote T (hps p (List.mem_cons_self _ _))
    cases p with
    | nil => exact hp.1 rfl
    | cons a p =>
      simp only [List.flatten_cons, List.cons_append, List.cons.injEq] at e
      obtain ⟨rfl, e⟩ := e
      have e2 := (List.append_eq_nil.1 e.symm).1
      subst e2
      exact hp.2 rfl

end

/-! ### C9: the contents of block comments -/

section
open RE

/-- A token sequence reads its own text, also with extras inside extras. -/
theorem readsDeep_yield (G : NT → Rule) : ∀ w : List Tok, ReadsDeep G w (yield w)
  | [] => ReadsDeep.nil
  | t :: w => by
      have e : yield (t :: w) = t.text ++ yield w := by simp [yield]
      rw [e]
      exact ReadsDeep.tok (readsDeep_yield G w)

/-- The text of an extra, extras skipped inside it, may be skipped before a reading. -/
theorem readsDeep_skip (G : NT → Rule) {x : List Char} {w : List Tok} {s : List Char}
    (hx : SkippedDeep G x) (h : ReadsDeep G w s) : ReadsDeep G w (x ++ s) := by
  obtain ⟨e, he, v, hv, hn⟩ := hx
  rcases hn with ⟨_, rfl⟩ | ⟨t, rfl, rfl⟩ | ⟨t, u, m, c, rfl, hm, rfl⟩
  · exact h
  · exact ReadsDeep.skipOne he hv h
  · exact ReadsDeep.skipMore he hv hm h

/-- The text of a token sequence is a text of its node. -/
theorem readsNodeDeep_yield (G : NT → Rule) (v : List Tok) : ReadsNodeDeep G v (yield v) := by
  cases v with
  | nil => exact Or.inl ⟨rfl, rfl⟩
  | cons t v =>
    rcases List.eq_nil_or_concat v with rfl | ⟨m, u, rfl⟩
    · exact Or.inr (Or.inl ⟨t, rfl, by simp [yield]⟩)
    · rw [List.concat_eq_append]
      exact Or.inr (Or.inr ⟨t, u, m, yield m, rfl, readsDeep_yield G m, by simp [yield]⟩)

/-- An extra spelled by its own tokens is an extra with nothing skipped inside. -/
theorem skippedDeep_of_skipped (G : NT → Rule) {x : List Char} (h : Skipped G x) :
    SkippedDeep G x := by
  obtain ⟨e, he, v, hv, rfl⟩ := h
  exact ⟨e, he, v, hv, readsNodeDeep_yield G v⟩

/-- Every reading is a reading with extras inside extras. -/
theorem readsDeep_of_reads (G : NT → Rule) {w : List Tok} {s : List Char} (h : Reads G w s) :
    ReadsDeep G w s := by
  induction h with
  | nil => exact ReadsDeep.nil
  | tok _ ih => exact ReadsDeep.tok ih
  | skip he hx _ ih => exact readsDeep_skip G (skippedDeep_of_skipped G ⟨_, he, hx⟩) ih

/-- The accepted block comments, extras skipped inside skipped extras as well. -/
theorem acceptsDeep_block_comment (T : LetterTable) (s : List Char) :
    AcceptsDeep (rules T) (Rule.sym NT.block_comment) s ↔
      ∃ c, s = fence ++ c ++ fence ∧ CommentContentDeep (rules T) c := by
  constructor
  · rintro ⟨w, hw, hr⟩
    obtain ⟨cs, hcs, rfl⟩ := (block_comment_tokens T w).1 hw
    rcases hr with ⟨h, _⟩ | ⟨t, h, _⟩ | ⟨t, u, m, c, h, hm, rfl⟩
    · simp at h
    · simp at h
    · simp only [List.cons.injEq] at h
      obtain ⟨rfl, h1⟩ := h
      obtain ⟨rfl, h2⟩ := List.append_inj' h1 rfl
      have h3 := List.head_eq_of_cons_eq h2
      subst h3
      exact ⟨c, by simp [fenceTok], cs, hcs, hm⟩
  · rintro ⟨c, rfl, cs, hcs, hr⟩
    exact ⟨_, (block_comment_tokens T _).2 ⟨cs, hcs, rfl⟩,
      Or.inr (Or.inr ⟨fenceTok, fenceTok, cs, c, rfl, hr, by simp [fenceTok]⟩)⟩

/-- A text read by unit tokens is a sequence of units and skipped extras, extras
skipped inside extras as well. -/
theorem readsDeep_pieces (G : NT → Rule) {w : List Tok} {c : List Char} (h : ReadsDeep G w c) :
    (∀ t ∈ w, CommentUnit t.text) →
      ∃ ps : List (List Char), c = ps.flatten ∧ ∀ p ∈ ps, CommentUnit p ∨ SkippedDeep G p := by
  induction h with
  | nil => exact fun _ => ⟨[], rfl, by simp⟩
  | @tok t w s _ ih =>
    intro hw
    obtain ⟨ps, rfl, hps⟩ := ih (fun x hx => hw x (List.mem_cons_of_mem _ hx))
    refine ⟨t.text :: ps, rfl, ?_⟩
    intro p hp
    rcases List.mem_cons.1 hp with rfl | hp
    · exact Or.inl (hw t (List.mem_cons_self _ _))
    · exact hps p hp
  | @skipOne e t w s he ht _ ih =>
    intro hw
    obtain ⟨ps, rfl, hps⟩ := ih hw
    refine ⟨t.text :: ps, rfl, ?_⟩
    intro p hp
    rcases List.mem_cons.1 hp with rfl | hp
    · exact Or.inr ⟨e, he, [t], ht, Or.inr (Or.inl ⟨t, rfl, rfl⟩)⟩
    · exact hps p hp
  | @skipMore e t u m c w s he hv hm _ _ ih =>
    intro hw
    obtain ⟨ps, rfl, hps⟩ := ih hw
    refine ⟨(t.text ++ (c ++ u.text)) :: ps, rfl, ?_⟩
    intro p hp
    rcases List.mem_cons.1 hp with rfl | hp
    · exact Or.inr ⟨e, he, _, hv, Or.inr (Or.inr ⟨t, u, m, c, rfl, hm, rfl⟩)⟩
    · exact hps p hp

/-- A sequence of units and skipped extras is a content, extras skipped inside
extras as well. -/
theorem contentDeep_of_pieces (G : NT → Rule) :
    ∀ ps : List (List Char), (∀ p ∈ ps, CommentUnit p ∨ SkippedDeep G p) →
      CommentContentDeep G ps.flatten
  | [], _ => ⟨[], Derives.repNil, ReadsDeep.nil⟩
  | p :: ps, h => by
      obtain ⟨cs, hcs, hr⟩ :=
        contentDeep_of_pieces G ps (fun q hq => h q (List.mem_cons_of_mem _ hq))
      rcases h p (List.mem_cons_self _ _) with hp | hx
      · obtain ⟨t, rfl, ht⟩ := unit_token G hp
        exact ⟨t :: cs, ht cs hcs, ReadsDeep.tok hr⟩
      · exact ⟨cs, hcs, readsDeep_skip G hx hr⟩

/-- The contents of block comments, extras skipped inside extras as well. -/
theorem contentDeep_pieces_iff (G : NT → Rule) (c : List Char) :
    CommentContentDeep G c ↔
      ∃ ps : List (List Char), c = ps.flatten ∧ ∀ p ∈ ps, CommentUnit p ∨ SkippedDeep G p := by
  constructor
  · rintro ⟨cs, hcs, hr⟩
    exact readsDeep_pieces G hr (content_tokens G hcs)
  · rintro ⟨ps, rfl, hps⟩
    exact contentDeep_of_pieces G ps hps

/-- A terminal accepts what it matches: nothing is skipped inside one token. -/
theorem acceptsDeep_token (G : NT → Rule) (k : String) (r : RE) (x : List Char) :
    AcceptsDeep G (Rule.tok k r) x ↔ r.rmatch x = true := by
  constructor
  · rintro ⟨w, hw, hn⟩
    obtain ⟨s, rfl, hs⟩ := derives_tok_iff.1 hw
    rcases hn with ⟨h, _⟩ | ⟨t, h, rfl⟩ | ⟨t, u, m, c, h, _, _⟩
    · simp at h
    · simp only [List.cons.injEq, and_true] at h
      subst h
      exact hs
    · have := congrArg List.length h
      simp at this
  · intro h
    exact ⟨[⟨k, x⟩], Derives.tok h, Or.inr (Or.inl ⟨_, rfl, rfl⟩)⟩

/-- A rule name accepts what its rule accepts. -/
theorem acceptsDeep_sym (G : NT → Rule) (n : NT) (x : List Char) :
    AcceptsDeep G (Rule.sym n) x ↔ AcceptsDeep G (G n) x := by
  simp only [AcceptsDeep, derives_sym_iff]

/-- The texts of the four extras, extras skipped inside them. -/
theorem skippedDeep_iff (T : LetterTable) (x : List Char) :
    SkippedDeep (rules T) x ↔
      Lex.comment.rmatch x = true ∨ AcceptsDeep (rules T) (Rule.sym NT.block_comment) x ∨
      Lex._eol.rmatch x = true ∨ ∃ a, x = [a] ∧ isSpace a = true := by
  have h1 : AcceptsDeep (rules T) (Rule.sym NT.comment) x ↔ Lex.comment.rmatch x = true := by
    rw [acceptsDeep_sym]
    exact acceptsDeep_token _ _ _ x
  have h3 : AcceptsDeep (rules T) (Rule.sym NT._eol) x ↔ Lex._eol.rmatch x = true := by
    rw [acceptsDeep_sym]
    exact acceptsDeep_token _ _ _ x
  have h4 : AcceptsDeep (rules T) (pat "\\s" (cls isSpace)) x ↔
      ∃ a, x = [a] ∧ isSpace a = true := by
    rw [pat, acceptsDeep_token, rmatch_iff, lang_cls]
  rw [← h1, ← h3, ← h4]
  constructor
  · rintro ⟨e, he, hx⟩
    simp only [extras, List.mem_cons, List.mem_singleton, List.not_mem_nil, or_false] at he
    rcases he with rfl | rfl | rfl | rfl
    · exact Or.inl hx
    · exact Or.inr (Or.inl hx)
    · exact Or.inr (Or.inr (Or.inl hx))
    · exact Or.inr (Or.inr (Or.inr hx))
  · rintro (h | h | h | h)
    · exact ⟨_, by simp [extras], h⟩
    · exact ⟨_, by simp [extras], h⟩
    · exact ⟨_, by simp [extras], h⟩
    · exact ⟨_, by simp [extras], h⟩

/-- No unit and no skipped extra is empty or the single double quote, extras
skipped inside extras as well. -/
theorem pieceDeep_ne_quote (T : LetterTable) {p : List Char}
    (h : CommentUnit p ∨ SkippedDeep (rules T) p) : p ≠ [] ∧ p ≠ [dquote] := by
  rcases h with ⟨x, hx, rfl | rfl | rfl⟩ | h
  · exact ⟨by simp, by simpa using hx⟩
  · exact ⟨by simp, by simp⟩
  · exact ⟨by simp, by simp⟩
  · rcases (skippedDeep_iff T p).1 h with h | h | h | ⟨a, rfl, ha⟩
    · constructor
      · rintro rfl; exact absurd h (by decide)
      · rintro rfl; exact absurd h (by decide)
    · obtain ⟨c, rfl, _⟩ := (acceptsDeep_block_comment T p).1 h
      exact ⟨by simp [fence], by simp [fence]⟩
    · constructor
      · rintro rfl; exact absurd h (by decide)
      · rintro rfl; exact absurd h (by decide)
    · refine ⟨by simp, ?_⟩
      intro e
      simp only [List.cons.injEq, and_true] at e
      subst e
      exact absurd ha (by decide)

/-- The single double quote is no content, however extras are skipped. -/
theorem quote_not_contentDeep (T : LetterTable) : ¬ CommentContentDeep (rules T) [dquote] := by
  intro h
  obtain ⟨ps, e, hps⟩ := (contentDeep_pieces_iff (rules T) _).1 h
  cases ps with
  | nil => simp at e
  | cons p ps =>
    have hp := pieceDeep_ne_quote T (hps p (List.mem_cons_self _ _))
    cases p with
    | nil => exact hp.1 rfl
    | cons a p =>
      simp only [List.flatten_cons, List.cons_append, List.cons.injEq] at e
      obtain ⟨rfl, e⟩ := e
      have e2 := (List.append_eq_nil.1 e.symm).1
      subst e2
      exact hp.2 rfl

/-- C9 (amended): an accepted block comment, extras skipped between its tokens,
is the fence of three double quotes, a content and the fence again; a string is
a content if and only if it is a sequence of pieces, each a unit (a character
other than the double quote after at most two double quotes) or a skipped extra
(a `#` comment with its line break, a block comment, a line terminator or `;`,
a white space character); the text of the tokens of a content, its skipped
extras left out, holds no fence and does not end with a double quote; every
string without fence that does not end with a double quote is a content; and
with nothing skipped a string is a content if and only if it holds no fence and
does not end with a double quote.  The same holds when extras are skipped
inside a skipped block comment as well (`ReadsDeep`, which holds every
`Reads`): the skipped block comment is then any accepted block comment. -/
theorem block_comment_content (T : LetterTable) :
    (∀ s : List Char, Accepts (rules T) (Rule.sym NT.block_comment) s ↔
      ∃ c, s = fence ++ c ++ fence ∧ CommentContent (rules T) c) ∧
    (∀ c : List Char, CommentContent (rules T) c ↔
      ∃ ps : List (List Char), c = ps.flatten ∧
        ∀ p ∈ ps, CommentUnit p ∨ Skipped (rules T) p) ∧
    (∀ x : List Char, Skipped (rules T) x ↔
      Lex.comment.rmatch x = true ∨
      (∃ c, x = fence ++ c ++ fence ∧ ¬ fence <:+: c ∧ c.getLast? ≠ some dquote) ∨
      Lex._eol.rmatch x = true ∨ ∃ a, x = [a] ∧ isSpace a = true) ∧
    (∀ cs : List Tok, Derives (rules T) blockCommentContent cs →
      ¬ fence <:+: yield cs ∧ (yield cs).getLast? ≠ some dquote) ∧
    (∀ c : List Char, ¬ fence <:+: c → c.getLast? ≠ some dquote → CommentContent (rules T) c) ∧
    (∀ s : List Char, Spells (rules T) (Rule.sym NT.block_comment) s ↔
      ∃ c, s = fence ++ c ++ fence ∧ Spells (rules T) blockCommentContent c) ∧
    (∀ c : List Char, Spells (rules T) blockCommentContent c ↔
      ¬ fence <:+: c ∧ c.getLast? ≠ some dquote) ∧
    (∀ (w : List Tok) (s : List Char), Reads (rules T) w s → ReadsDeep (rules T) w s) ∧
    (∀ s : List Char, AcceptsDeep (rules T) (Rule.sym NT.block_comment) s ↔
      ∃ c, s = fence ++ c ++ fence ∧ CommentContentDeep (rules T) c) ∧
    (∀ c : List Char, CommentContentDeep (rules T) c ↔
      ∃ ps : List (List Char), c = ps.flatten ∧
        ∀ p ∈ ps, CommentUnit p ∨ SkippedDeep (rules T) p) ∧
    (∀ x : List Char, SkippedDeep (rules T) x ↔
      Lex.comment.rmatch x = true ∨ AcceptsDeep (rules T) (Rule.sym NT.block_comment) x ∨
      Lex._eol.rmatch x = true ∨ ∃ a, x = [a] ∧ isSpace a = true) := by
  refine ⟨accepts_block_comment T, content_pieces_iff (rules T), skipped_iff T,
    fun cs h => content_tokens_text (rules T) h, content_without_extras (rules T),
    block_comment_spells T, fun c => ?_, fun w s h => readsDeep_of_reads (rules T) h,
    acceptsDeep_block_comment T, contentDeep_pieces_iff (rules T), skippedDeep_iff T⟩
  rw [spells_content]
  exact content_lang c

/-- C9 (counterexample): the string of one double quote holds no fence, yet it
is not accepted as content, however extras are skipped, and the seven double
quotes it would give are no block comment; the comment line `#` followed by
three double quotes and a line break holds the fence, yet it is accepted as
content, being skipped as an extra between the two fences. -/
theorem block_comment_rejects_quote_content :
    ¬ fence <:+: [dquote] ∧
    ¬ CommentContent (rules asciiLetters) [dquote] ∧
    ¬ Accepts (rules asciiLetters) (Rule.sym NT.block_comment) (fence ++ [dquote] ++ fence) ∧
    ¬ CommentContentDeep (rules asciiLetters) [dquote] ∧
    ¬ AcceptsDeep (rules asciiLetters) (Rule.sym NT.block_comment)
      (fence ++ [dquote] ++ fence) ∧
    ¬ Spells (rules asciiLetters) blockCommentContent [dquote] ∧
    ¬ Spells (rules asciiLetters) (Rule.sym NT.block_comment) (fence ++ [dquote] ++ fence) ∧
    fence <:+: ['#', dquote, dquote, dquote, '\n'] ∧
    CommentContent (rules asciiLetters) ['#', dquote, dquote, dquote, '\n'] ∧
    Accepts (rules asciiLetters) (Rule.sym NT.block_comment)
      (fence ++ ['#', dquote, dquote, dquote, '\n'] ++ fence) := by
  have hc : CommentContent (rules asciiLetters) ['#', dquote, dquote, dquote, '\n'] := by
    have hs : Spells (rules asciiLetters) (Rule.sym NT.comment)
        ['#', dquote, dquote, dquote, '\n'] :=
      ⟨[⟨"comment", ['#', dquote, dquote, dquote, '\n']⟩], Derives.sym (Derives.tok (by decide)),
        rfl⟩
    have := Reads.skip (G := rules asciiLetters) (e := Rule.sym NT.comment)
      (by simp [extras]) hs Reads.nil
    exact ⟨[], Derives.repNil, this⟩
  have cancel : ∀ c : List Char, fence ++ [dquote] ++ fence = fence ++ c ++ fence →
      c = [dquote] := by
    intro c e
    rw [List.append_assoc, List.append_assoc] at e
    exact (List.append_cancel_right (List.append_cancel_left e)).symm
  refine ⟨by decide, quote_not_content asciiLetters, ?_, quote_not_contentDeep asciiLetters,
    ?_, ?_, ?_, by decide, hc, (accepts_block_comment asciiLetters _).2 ⟨_, rfl, hc⟩⟩
  · intro h
    obtain ⟨c, e, hc⟩ := (accepts_block_comment asciiLetters _).1 h
    rw [cancel c e] at hc
    exact quote_not_content asciiLetters hc
  · intro h
    obtain ⟨c, e, hc⟩ := (acceptsDeep_block_comment asciiLetters _).1 h
    rw [cancel c e] at hc
    exact quote_not_contentDeep asciiLetters hc
  · rw [spells_iff (rules asciiLetters) blockCommentContent rfl]; decide
  · rw [spells_sym, spells_iff (rules asciiLetters) (rules asciiLetters NT.block_comment) rfl]
    decide

/-- Instance of C9 at the content `a""b`. -/
theorem block_comment_content_witness :
    CommentContent (rules asciiLetters) ['a', dquote, dquote, 'b'] ∧
    Spells (rules asciiLetters) blockCommentContent ['a', dquote, dquote, 'b'] :=
  ⟨(block_comment_content asciiLetters).2.2.2.2.1 _ (by decide) (by decide),
   ((block_comment_content asciiLetters).2.2.2.2.2.2.1 _).2 ⟨by decide, by decide⟩⟩

end

end D2
